import Mathlib

/-!
Verification development for the `fanpy` geminal-wavefunction engine.

The Python sources embedded here are `geminals/geminal.py` (classes `APIG`
and `AP1roG`), `wfns/math_tools.py` (`permanent_combinatoric`,
`permanent_ryser`) and `prowl/lib/apig.py`.  The helper module
`slater_det.py` is absent from the sources (only its unit tests and its
callers are present), so its bit-level operations are modelled from the
specification's BitConfig section and checked against the expectations in
`geminals/test/test_slater_det.py`.

Real (floating-point) arithmetic is modelled by exact rational arithmetic
over `ℚ`; Python exceptions (`assert`, `raise`) are modelled by
`Except String`; the Python `None` sentinel is modelled by `Option`.
-/

namespace Fanpy

/-- Modelled from the spec: `slater_det.is_occupied(sd, i)` — bit `i` of the
Slater-determinant bitmask is set.  (`slater_det.py` itself is missing from
the sources; only its tests and callers are available.) -/
def is_occupied (sd i : ℕ) : Bool := sd.testBit i

/-- Modelled from the spec: `slater_det.is_pair_occupied(sd, i)` — both spin
orbitals `2i` (alpha) and `2i+1` (beta) of spatial orbital `i` are set. -/
def is_pair_occupied (sd i : ℕ) : Bool := sd.testBit (2*i) && sd.testBit (2*i+1)

/-- Modelled from the spec: the iterative core of `slater_det.remove_orbs`.
Clears the named bits one at a time; removing an unoccupied bit (which is
also what a repeated index produces on its second visit) yields the invalid
sentinel, modelled as `none`.  Clearing a set bit is `sd XOR 2^i`. -/
def removeOrbs? (sd : ℕ) : List ℕ → Option ℕ
  | [] => some sd
  | i :: rest => if is_occupied sd i then removeOrbs? (sd ^^^ (1 <<< i)) rest else none

/-- Modelled from the spec: `slater_det.remove_orbs(sd, *inds)`; the Python
function returns the integer `0` as its invalid sentinel. -/
def remove_orbs (sd : ℕ) (inds : List ℕ) : ℕ := (removeOrbs? sd inds).getD 0

/-- Modelled from the spec: the iterative core of `slater_det.add_orbs`.
Setting an already-occupied bit (or repeating an index) is invalid. -/
def addOrbs? (sd : ℕ) : List ℕ → Option ℕ
  | [] => some sd
  | i :: rest => if is_occupied sd i then none else addOrbs? (sd ||| (1 <<< i)) rest

/-- Modelled from the spec: `slater_det.add_orbs(sd, *inds)`. -/
def add_orbs (sd : ℕ) (inds : List ℕ) : ℕ := (addOrbs? sd inds).getD 0

/-- Modelled from the spec: `slater_det.excite` / `excite_orbs`:
`add_orbs(remove_orbs(sd, i), j)`, returning the sentinel `0` when `i` is
unoccupied or `j` is occupied after the removal (so `excite(sd, i, i)` with
`i` occupied is the identity, as `brute_phi_H_psi` relies on). -/
def excite_orbs (sd i j : ℕ) : ℕ :=
  match removeOrbs? sd [i] with
  | none => 0
  | some s => (addOrbs? s [j]).getD 0

/-- Spin-orbital index pairs `2i, 2i+1` for a list of spatial indices. -/
def pairIndices (inds : List ℕ) : List ℕ := inds.flatMap (fun i => [2*i, 2*i+1])

/-- Modelled from the spec: `slater_det.remove_pairs` — both spin partners of
each named spatial orbital must be occupied; partially occupied pairs are
invalid. -/
def remove_pairs (sd : ℕ) (inds : List ℕ) : ℕ := (removeOrbs? sd (pairIndices inds)).getD 0

/-- Modelled from the spec: `slater_det.add_pairs`. -/
def add_pairs (sd : ℕ) (inds : List ℕ) : ℕ := (addOrbs? sd (pairIndices inds)).getD 0

/-- Modelled from the spec: `slater_det.excite_pairs(sd, *inds)` — the first
half of `inds` are spatial pairs to be removed, the second half pairs to be
added (`APIG.generate_pspace` calls it as `excite_pairs(ground, *occs, *virs)`);
any invalid removal or addition yields the sentinel `0`. -/
def excite_pairs (sd : ℕ) (inds : List ℕ) : ℕ :=
  let k := inds.length / 2
  match removeOrbs? sd (pairIndices (inds.take k)) with
  | none => 0
  | some s => (addOrbs? s (pairIndices (inds.drop k))).getD 0

/-- Fuel-driven core of the bit-population count (structural recursion so
that concrete instances evaluate inside the kernel). -/
def countBitsAux : ℕ → ℕ → ℕ
  | 0, _ => 0
  | fuel + 1, n => if n = 0 then 0 else n % 2 + countBitsAux fuel (n / 2)

/-- Number of set bits of a natural number: the embedding of Python's
`bin(sd).count('1')`. -/
def countBits (n : ℕ) : ℕ := countBitsAux n n

/-- A matrix is modelled as a total function on indices; entries outside the
dimensions under consideration are never read. -/
abbrev QMat := ℕ → ℕ → ℚ

/-- Structural list lookup for rationals (defaults to 0 out of range; the
sources would raise an `IndexError` there, and no in-model computation reads
out of range). -/
def nthQ : List ℚ → ℕ → ℚ
  | [], _ => 0
  | x :: _, 0 => x
  | _ :: xs, n + 1 => nthQ xs n

/-- Structural list lookup for naturals (defaults to 0 out of range). -/
def nthN : List ℕ → ℕ → ℕ
  | [], _ => 0
  | x :: _, 0 => x
  | _ :: xs, n + 1 => nthN xs n

/-- Structural row lookup (defaults to the empty row out of range). -/
def nthRow : List (List ℚ) → ℕ → List ℚ
  | [], _ => []
  | x :: _, 0 => x
  | _ :: xs, n + 1 => nthRow xs n

/-- Build a matrix from a list of rows. -/
def mkMat (rows : List (List ℚ)) : QMat := fun i j => nthQ (nthRow rows i) j

/-- All ways to insert `x` into a list (helper for the permutation listing). -/
def insertAll (x : ℕ) : List ℕ → List (List ℕ)
  | [] => [[x]]
  | y :: ys => (x :: y :: ys) :: (insertAll x ys).map (y :: ·)

/-- All permutations of a list, the embedding of Python's
`itertools.permutations` (the enumeration order differs, which is irrelevant
to the sums taken over it). -/
def permsL : List ℕ → List (List ℕ)
  | [] => [[]]
  | x :: xs => (permsL xs).flatMap (insertAll x)

/-- Product of `M[r, c]` over rows `r = 0, …, n-1` paired with the column
selection `cols` (the `np.product(matrix[row_indices, col_indices])` of the
source). -/
def prodAlong (n : ℕ) (M : QMat) (cols : List ℕ) : ℚ :=
  (((List.range n).zip cols).map (fun rc => M rc.1 rc.2)).prod

/-- The permanent of the leading `n × n` block of `M`: the sum over all
column permutations of the product of the selected entries.  This is the
common core of `APIG.permanent` (a sum over `permutations(range(n))`) and of
`wfns.math_tools.permanent_combinatoric` on square input. -/
def permCore (n : ℕ) (M : QMat) : ℚ :=
  ((permsL (List.range n)).map (fun cols => prodAlong n M cols)).sum

/-- Column selection `C[:, cols]` used by the overlap routines. -/
def colSel (C : QMat) (cols : List ℕ) : QMat := fun r c => C r (nthN cols c)

/-- Embedding of `APIG.permanent`: asserts that the matrix is square and
sums the products over all column permutations.  `nrow`/`ncol` are the shape
of the slice the caller passes in. -/
def APIG_permanent (nrow ncol : ℕ) (M : QMat) : Except String ℚ :=
  if nrow = ncol then .ok (permCore nrow M)
  else .error "Cannot compute the permanent of a non-square matrix."

/-- The transposition exchanging `0` and `i`, as a function on indices: the
effect of the source's `rows[0], rows[i] = rows[i], rows[0]` relabelling
(`if i is not 0` is the identity case, which the formula also covers). -/
def swap0 (i r : ℕ) : ℕ := if r = 0 then i else if r = i then 0 else r

/-- Core of `APIG.permanent_derivative`: after moving entry `(i, j)` to
position `(0, 0)`, multiply along the two wrap-around diagonals of the
remaining rows `1, …, n-1` (`left` runs `n-1, n-2, …`, `right` runs
`1, 2, …`) and add the two products. -/
def permDerivCore (n : ℕ) (M : QMat) (i j : ℕ) : ℚ :=
  let Mp := fun r c => M (swap0 i r) (swap0 j c)
  let prodL := ((List.range' 1 (n - 1)).map (fun r => Mp r (n - r))).prod
  let prodR := ((List.range' 1 (n - 1)).map (fun r => Mp r r)).prod
  prodL + prodR

/-- Embedding of `APIG.permanent_derivative` with its squareness assertion. -/
def APIG_permanent_derivative (nrow ncol : ℕ) (M : QMat) (i j : ℕ) : Except String ℚ :=
  if nrow = ncol then .ok (permDerivCore nrow M i j)
  else .error "Cannot compute the permanent of a non-square matrix."

/-- The minor of `M` obtained by deleting row `i` and column `j` (used to
state the exact partial derivative of the permanent, which the claim defines
as the permanent of this minor). -/
def minorDel (M : QMat) (i j : ℕ) : QMat :=
  fun r c => M (if r < i then r else r + 1) (if c < j then c else c + 1)

/-- Embedding of the `num_combs` lambda in `APIG.generate_pspace`:
`factorial(n)/factorial(r)/factorial(n-r)` (the Python float divisions are
exact there, so ℕ division is faithful). -/
def num_combs (n r : ℕ) : ℕ := n.factorial / r.factorial / (n - r).factorial

/-- Python's `itertools.combinations(l, r)`: all `r`-element sublists of `l`,
in the order itertools emits them. -/
def combosL : List ℕ → ℕ → List (List ℕ)
  | _, 0 => [[]]
  | [], _ + 1 => []
  | x :: xs, r + 1 => (combosL xs r).map (x :: ·) ++ combosL xs (r + 1)

/-- The `for … else` search in `APIG.generate_pspace` for the smallest
frontier size whose squared pair-combination count covers the remaining
need; falls back to `max(len(ind_occ), len(ind_vir)) + 1`. -/
def findFrontier (nocc nvir remaining : ℕ) : ℕ :=
  match (List.range' 2 (nocc - 1)).find? (fun i => remaining ≤ num_combs i 2 ^ 2) with
  | some i => i
  | none => max nocc nvir + 1

/-- One pass of the while-loop body of `APIG.generate_pspace`: all
`numExcited`-fold pair excitations from the first `num_frontier` HOMOs to
the first `num_frontier` LUMOs. -/
def pspaceBatch (hf : ℕ) (ind_occ ind_vir : List ℕ) (remaining numExcited : ℕ) : List ℕ :=
  let numFrontier := findFrontier ind_occ.length ind_vir.length remaining
  (combosL (ind_occ.take numFrontier) numExcited).flatMap (fun occs =>
    (combosL (ind_vir.take numFrontier) numExcited).map (fun virs =>
      excite_pairs hf (occs ++ virs)))

/-- The while loop of `APIG.generate_pspace`
(`while len(list_sd) < num_needed and num_excited <= len(ind_occ)`), driven
by fuel; the fuel supplied by `APIG_generate_pspace` strictly exceeds the
possible number of iterations, so the cut is never reached with the loop
condition still true. -/
def pspaceLoop (hf : ℕ) (ind_occ ind_vir : List ℕ) (numNeeded : ℕ) :
    ℕ → ℕ → List ℕ → List ℕ
  | 0, _, acc => acc
  | fuel + 1, numExcited, acc =>
    if acc.length < numNeeded ∧ numExcited ≤ ind_occ.length then
      pspaceLoop hf ind_occ ind_vir numNeeded fuel (numExcited + 1)
        (acc ++ pspaceBatch hf ind_occ ind_vir (numNeeded - acc.length) numExcited)
    else acc

/-- The ground-state determinant `int('1'*2*npairs, 2)` of
`APIG.generate_pspace`: the lowest `npairs` spatial orbitals doubly
occupied. -/
def APIG_hf (npairs : ℕ) : ℕ := 2 ^ (2 * npairs) - 1

/-- The `ind_occ` list of `APIG.generate_pspace` (reversed so HOMOs come
first). -/
def APIG_ind_occ (npairs norbs : ℕ) : List ℕ :=
  ((List.range norbs).filter (fun i => is_pair_occupied (APIG_hf npairs) i)).reverse

/-- The `ind_vir` list of `APIG.generate_pspace`. -/
def APIG_ind_vir (npairs norbs : ℕ) : List ℕ :=
  (List.range norbs).filter (fun i => !is_pair_occupied (APIG_hf npairs) i)

/-- The beta-to-alpha single excitations appended by `APIG.generate_pspace`
when `npairs <= 2`. -/
def APIG_singles (npairs norbs : ℕ) : List ℕ :=
  (APIG_ind_occ npairs norbs).flatMap (fun i =>
    (APIG_ind_vir npairs norbs).map (fun j =>
      excite_orbs (APIG_hf npairs) (i * 2 + 1) (j * 2)))

/-- The full candidate list built by `APIG.generate_pspace` before the final
assertions and truncation (seed, pair-excitation loop, then the single
excitations when `npairs <= 2`). -/
def APIG_pspace_full (npairs norbs : ℕ) : List ℕ :=
  pspaceLoop (APIG_hf npairs) (APIG_ind_occ npairs norbs) (APIG_ind_vir npairs norbs)
      (npairs * norbs + 1) ((APIG_ind_occ npairs norbs).length + 1) 1 [APIG_hf npairs] ++
    (if npairs ≤ 2 then APIG_singles npairs norbs else [])

/-- Embedding of `APIG.generate_pspace`.  The final `assert` statements (no
duplicate generated, enough determinants generated) are modelled by
returning `none` when they fail; the successful return truncates to
`npairs*norbs + 1` entries. -/
def APIG_generate_pspace (npairs norbs : ℕ) : Option (List ℕ) :=
  if (APIG_pspace_full npairs norbs).Nodup ∧
      npairs * norbs + 1 ≤ (APIG_pspace_full npairs norbs).length then
    some ((APIG_pspace_full npairs norbs).take (npairs * norbs + 1))
  else none

/-- The reference determinant `base` of `AP1roG.generate_pspace`:
`sum(2**(2*i) + 2**(2*i+1) for i in range(npairs))`. -/
def AP1roG_base (npairs : ℕ) : ℕ :=
  ((List.range npairs).map (fun i => 2 ^ (2 * i) + 2 ^ (2 * i + 1))).sum

/-- The list built by `AP1roG.generate_pspace` before the final
`tuple(set(pspace))`: the reference followed by all single pair excitations,
outer loop over the virtual (`unoccup`) index, inner loop over the occupied
index. -/
def AP1roG_pspace_raw (npairs norbs : ℕ) : List ℕ :=
  AP1roG_base npairs ::
    (List.range' npairs (norbs - npairs)).flatMap (fun unoccup =>
      (List.range npairs).map (fun i => excite_pairs (AP1roG_base npairs) [i, unoccup]))

/-- Embedding of `AP1roG.generate_pspace` up to iteration order: the source
returns `tuple(set(pspace))`, whose ELEMENT SET this models via `dedup`.
CPython's set iteration order (hash-table slot order) is implementation
behaviour that a shallow embedding does not reproduce; every use below
depends only on membership. -/
def AP1roG_generate_pspace (npairs norbs : ℕ) : List ℕ :=
  (AP1roG_pspace_raw npairs norbs).dedup

/-- The `ind_occ` list of `APIG.overlap`: the occupied spatial orbitals of
`sd` below `norbs`, in increasing order. -/
def APIG_ind_occ_of (norbs sd : ℕ) : List ℕ :=
  (List.range norbs).filter (fun i => is_pair_occupied sd i)

/-- Embedding of `APIG.overlap`.  `slater_det` is `Option`-valued because the
source checks `slater_det is None`; the assertion inside `permanent` (and
`permanent_derivative`) surfaces as an `Except.error`. -/
def APIG_overlap (npairs norbs : ℕ) (slater_det : Option ℕ) (gem_coeff : QMat)
    (derivative : Bool) (indices : ℕ × ℕ) : Except String ℚ :=
  match slater_det with
  | none => .ok 0
  | some sd =>
    if countBits sd ≠ 2 * npairs then .ok 0
    else if (List.range norbs).any
        (fun i => is_occupied sd (i * 2) != is_occupied sd (i * 2 + 1)) then .ok 0
    else
      if derivative then
        if indices.2 ∈ APIG_ind_occ_of norbs sd then
          (APIG_permanent_derivative npairs (APIG_ind_occ_of norbs sd).length
              (colSel gem_coeff (APIG_ind_occ_of norbs sd))
              indices.1 ((APIG_ind_occ_of norbs sd).indexOf indices.2)).map (fun v => v / 2)
        else .ok 0
      else
        APIG_permanent npairs (APIG_ind_occ_of norbs sd).length
          (colSel gem_coeff (APIG_ind_occ_of norbs sd))

/-- The `from_index` list of `AP1roG.overlap`: reference-occupied spatial
orbitals whose pair is vacated in `phi`. -/
def AP1roG_from_index (npairs phi : ℕ) : List ℕ :=
  (List.range npairs).filter (fun i => !is_pair_occupied phi i)

/-- The `to_index` list of `AP1roG.overlap`: virtual spatial orbitals
(`npairs, …, norbs-1`) whose pair is occupied in `phi`. -/
def AP1roG_to_index (npairs norbs phi : ℕ) : List ℕ :=
  (List.range' npairs (norbs - npairs)).filter (fun i => is_pair_occupied phi i)

/-- The coefficient matrix stored by the `AP1roG.coeffs` setter (and built by
`AP1roG.construct_guess`): `np.eye(npairs, M=norbs)` plus the free block `X`
in the virtual columns, `C[i, npairs + j] = eye + X[i, j]`.  Rows `< npairs`
and columns `< norbs` are the meaningful range. -/
def AP1roG_embedC (npairs : ℕ) (X : QMat) : QMat :=
  fun i j => (if i = j then 1 else 0) + (if npairs ≤ j then X i (j - npairs) else 0)

/-- Embedding of `AP1roG.overlap`, dispatching on `excite_count`
(`= len(from_index)`).  The `raise Exception(str(excite_count))` branch is
the `Except.error`.  Out-of-range list reads (`from_index[0]` on an empty
list, etc.) cannot occur in the branches below because `excite_count` is the
length of `from_index`, and `to_index` is read at positions `< excite_count`
exactly as in the source, whose uses keep the two lists equally long. -/
def AP1roG_overlap (npairs norbs : ℕ) (pspace : List ℕ) (phi : ℕ) (matrix : QMat)
    (derivative : Bool) (indices : ℕ × ℕ) : Except String ℚ :=
  if phi = 0 then .ok 0
  else if phi ∉ pspace then .ok 0
  else
    match (AP1roG_from_index npairs phi).length with
    | 0 => if derivative then (if indices.1 = indices.2 then .ok 1 else .ok 0) else .ok 1
    | 1 =>
      if derivative then
        if indices = (nthN (AP1roG_from_index npairs phi) 0,
            nthN (AP1roG_to_index npairs norbs phi) 0) then .ok 1
        else .ok 0
      else
        .ok (matrix (nthN (AP1roG_from_index npairs phi) 0)
          (nthN (AP1roG_to_index npairs norbs phi) 0))
    | 2 =>
      let f0 := nthN (AP1roG_from_index npairs phi) 0
      let f1 := nthN (AP1roG_from_index npairs phi) 1
      let t0 := nthN (AP1roG_to_index npairs norbs phi) 0
      let t1 := nthN (AP1roG_to_index npairs norbs phi) 1
      if derivative then
        if indices = (f0, t0) then .ok (matrix f1 t1)
        else if indices = (f1, t1) then .ok (matrix f0 t0)
        else if indices = (f0, t1) then .ok (-(matrix f1 t0))
        else if indices = (f1, t0) then .ok (-(matrix f0 t1))
        else .ok 0
      else .ok (matrix f0 t0 * matrix f1 t1 - matrix f0 t1 * matrix f1 t0)
    | n + 3 => .error (toString (n + 3))

/-- Outcome record of the external root finder (`scipy.optimize.root`):
the fields of `result` that `APIG.__call__` consults. -/
structure SolverResult where
  success : Bool
  x : List ℚ
deriving DecidableEq

/-- The `coeffs` setter's `value.reshape(npairs, norbs)`. -/
def reshapeVec (norbs : ℕ) (x : List ℚ) : QMat := fun i j => nthQ x (i * norbs + j)

/-- Embedding of `APIG.__call__` around the solver invocation.  `guess`
stands for the value `self.generate_guess()` would produce (used when no
`x0` is supplied), and `solver` for the external `scipy.optimize.root`
call; both are black-box collaborators.  The returned triple is the stored
coefficient matrix after the call, the printed warning lines, and the raw
solver result.  The `jac`/`options`/`verbose` keyword processing only
selects solver inputs or prints diagnostics and is absorbed into the
`solver` oracle; the `ValueError` for a too-short projection list and the
`coeffs` setter's size assertion surface as `Except.error`. -/
def APIG_call (npairs norbs ground : ℕ) (pspace : List ℕ) (coeffs : QMat)
    (solver : List ℚ → List ℕ → SolverResult) (x0? : Option (List ℚ)) (guess : List ℚ)
    (proj? : Option (List ℕ)) : Except String (QMat × List String × SolverResult) :=
  let x0 := x0?.getD guess
  let proj := proj?.getD (pspace.erase ground)
  if proj.length < x0.length then
    .error "'proj' is too short, the system is underdetermined."
  else
    let result := solver x0 proj
    if result.success then
      if result.x.length = npairs * norbs then .ok (reshapeVec norbs result.x, [], result)
      else .error "Given geminals coefficient matrix does not have the right number of coefficients"
    else
      .ok (coeffs, ["Warning: solution did not converge; coefficients were not updated."], result)

def pairExcitationRank (npairs norbs k phi : ℕ) : Prop :=
  phi < 4 ^ norbs ∧
  (∀ j < norbs, is_occupied phi (2 * j) = is_occupied phi (2 * j + 1)) ∧
  (APIG_ind_occ_of norbs phi).length = npairs ∧
  ((List.range npairs).filter (fun i => is_pair_occupied phi i)).length + k = npairs

/-- The permanent expressed as a sum over bijections of `Fin n` (the
proof-side characterization of `permCore`, connected by
`permCore_eq_permB`). -/
def permB (n : ℕ) (M : QMat) : ℚ :=
  ∑ g ∈ (Finset.univ : Finset (Fin n → Fin n)).filter Function.Bijective,
    ∏ i : Fin n, M i (g i)

/-- Embedding of `wfns.math_tools.permanent_combinatoric` on square `n × n`
input (the path the claim compares; the rectangular transpose branch is not
taken when `nrow = ncol`).  The `nrow == 0 or ncol == 0` guard raises
`ValueError`. -/
def permanent_combinatoric (n : ℕ) (M : QMat) : Except String ℚ :=
  if n = 0 then .error "Given matrix has no numbers"
  else .ok (permCore n M)

/-- Position of the lowest `False` entry of the `graycode` boolean array
(`cur_position`): the bit-update `for` loop of `permanent_ryser` walks the
array from index 0, flipping `True` entries to `False`, until it finds the
first `False` entry, which it sets and where it breaks.  Fuel-based
recursion on the halved counter. -/
def trailingOnesAux : ℕ → ℕ → ℕ
  | 0, _ => 0
  | fuel + 1, gc => if gc % 2 = 1 then trailingOnesAux fuel (gc / 2) + 1 else 0

/-- `trailingOnes gc` is the number of consecutive one-bits of `gc` starting
at bit 0. -/
def trailingOnes (gc : ℕ) : ℕ := trailingOnesAux gc gc

/-- One full `while` iteration of `permanent_ryser`, iterated on fuel.  The
state is (`graycode` as the natural number `gc` whose bit `i` is
`graycode[i]`, the `rowsums` array, the `sign` flag, the `permanent`
accumulator); the loop exits when all of `graycode[0..n-1]` are `True`.
Inside one iteration: `cur_position` is the lowest clear bit `p`, the
update clears bits below `p` and sets bit `p` (binary increment),
`cur_value` is read off the updated array, the column `p` of the matrix is
added to or subtracted from `rowsums`, and the product of the `n` rowsums
is added to or subtracted from the accumulator while `sign` toggles. -/
def ryserLoop (n : ℕ) (M : QMat) : ℕ → ℕ → (ℕ → ℚ) → Bool → ℚ → ℚ
  | 0, _, _, _, acc => acc
  | fuel + 1, gc, rowsums, sign, acc =>
    if (List.range n).all (fun i => gc.testBit i) then acc
    else
      let p := trailingOnes gc
      let gc' := gc / 2 ^ (p + 1) * 2 ^ (p + 1) + 2 ^ p
      let curValue : Bool :=
        if p = n - 1 then gc'.testBit (n - 1)
        else !(gc'.testBit p && gc'.testBit (p + 1))
      let rowsums' : ℕ → ℚ :=
        fun r => if curValue then rowsums r + M r p else rowsums r - M r p
      let prod := ((List.range n).map (fun r => rowsums' r)).prod
      let acc' := if sign then acc + prod else acc - prod
      ryserLoop n M fuel gc' rowsums' (!sign) acc'

/-- Embedding of `wfns.math_tools.permanent_ryser` on square `n × n` input
(the rectangular padding branch is skipped when `nrow = ncol`, and
`factor` stays `1.0`).  `rowsums` starts at zero, `sign = bool(ncol % 2)`,
`graycode` starts all-`False`; the loop runs until `graycode` is
all-`True`, i.e. for `2^n - 1` iterations, so fuel `2^n` suffices. -/
def permanent_ryser (n : ℕ) (M : QMat) : Except String ℚ :=
  if n = 0 then .error "Given matrix has no numbers"
  else .ok (ryserLoop n M (2 ^ n) 0 (fun _ => 0) (decide (n % 2 = 1)) 0)

/-- The vector of signed column sums selected by the bit-mask `s`
(proof-side: the value of `rowsums` after the masked columns have been
added). -/
def rowsumsAt (n : ℕ) (M : QMat) (s : ℕ) (r : ℕ) : ℚ :=
  ∑ j ∈ Finset.range n, if s.testBit j then M r j else 0

/-- The standard reflected Gray code of `x` (proof-side: the bit-mask of
columns currently added into `rowsums` after `x` loop iterations). -/
def grayOf (x : ℕ) : ℕ := x ^^^ (x >>> 1)

/-- Sign of loop iteration `u` (1-indexed): `+1` exactly when `n + u` is
even, matching `sign = bool(ncol % 2)` toggling every iteration. -/
def ryserSign (n u : ℕ) : ℚ := if (n + u) % 2 = 0 then 1 else -1

/-- Value of the `permanent` accumulator after the first `t` iterations of
the `permanent_ryser` loop (proof-side closed form). -/
def ryserPartial (n : ℕ) (M : QMat) (t : ℕ) : ℚ :=
  ∑ u ∈ Finset.Icc 1 t, ryserSign n u * ∏ r ∈ Finset.range n, rowsumsAt n M (grayOf u) r

/-- The dispatch test of `APIG.phi_H_psi`: the zero-padded binary string of
the determinant has its alpha (even position) and beta (odd position)
characters equal, which holds iff every spatial orbital has equal alpha and
beta occupation (bits `2j` and `2j+1` agree for every `j`; bits at or above
the string length are all zero and agree vacuously, so scanning `j < sd`
covers every pair with an occupied member). -/
def seniorityZero (sd : ℕ) : Bool :=
  (List.range sd).all (fun j => sd.testBit (2 * j) == sd.testBit (2 * j + 1))

/-- The `a`-loop of `double_phi_H_psi`: pair excitations out of occupied
spatial orbital `i` into each vacant `a`, weighted by `two[i,i,a,a]`.  The
first failing overlap call aborts (a raised exception). -/
def doubleA (two : ℕ → ℕ → ℕ → ℕ → ℚ) (olp : ℕ → Except String ℚ) (sd i : ℕ) :
    List ℕ → Except String ℚ
  | [] => .ok 0
  | a :: as =>
    if !is_pair_occupied sd a then
      match olp (excite_pairs sd [i, a]) with
      | .error s => .error s
      | .ok v =>
        match doubleA two olp sd i as with
        | .error s => .error s
        | .ok rest => .ok (two i i a a * v + rest)
    else doubleA two olp sd i as

/-- The `j > i` loop of `double_phi_H_psi` (coulomb and exchange terms on
the diagonal overlap). -/
def doubleJ (two : ℕ → ℕ → ℕ → ℕ → ℚ) (olp0 : ℚ) (sd i : ℕ) : List ℕ → ℚ
  | [] => 0
  | j :: js =>
    (if is_pair_occupied sd j then 4 * two i j i j * olp0 - 2 * two i j j i * olp0 else 0)
      + doubleJ two olp0 sd i js

/-- The outer `i`-loop of `double_phi_H_psi`. -/
def doubleI (norbs : ℕ) (one : ℕ → ℕ → ℚ) (two : ℕ → ℕ → ℕ → ℕ → ℚ)
    (olp : ℕ → Except String ℚ) (olp0 : ℚ) (sd : ℕ) : List ℕ → Except String ℚ
  | [] => .ok 0
  | i :: is =>
    if is_pair_occupied sd i then
      match doubleA two olp sd i (List.range norbs) with
      | .error s => .error s
      | .ok apart =>
        match doubleI norbs one two olp olp0 sd is with
        | .error s => .error s
        | .ok rest =>
          .ok (2 * one i i * olp0 + two i i i i * olp0
            + doubleJ two olp0 sd i (List.range' (i + 1) (norbs - (i + 1)))
            + apart + rest)
    else doubleI norbs one two olp olp0 sd is

/-- Embedding of `APIG.double_phi_H_psi`, parametrized by the overlap
evaluator `olp` (the source calls `self.overlap`, which `nonlin_jac`
temporarily rebinds to the derivative evaluator). -/
def APIG_double_phi_H_psi (norbs : ℕ) (one : ℕ → ℕ → ℚ) (two : ℕ → ℕ → ℕ → ℕ → ℚ)
    (olp : ℕ → Except String ℚ) (sd : ℕ) : Except String ℚ :=
  match olp sd with
  | .error s => .error s
  | .ok olp0 => doubleI norbs one two olp olp0 sd (List.range norbs)

/-- The `l`-loop of `brute_phi_H_psi` over `temp2_ind_vir`: the double
excitation's overlap is computed first, `continue` on a zero overlap, then
the spin-compatible coulomb and exchange contributions. -/
def bruteL (two : ℕ → ℕ → ℕ → ℕ → ℚ) (olp : ℕ → Except String ℚ)
    (single i k j : ℕ) : List ℕ → Except String ℚ
  | [] => .ok 0
  | l :: ls =>
    match olp (excite_orbs single j l) with
    | .error s => .error s
    | .ok v =>
      match bruteL two olp single i k j ls with
      | .error s => .error s
      | .ok rest =>
        if v = 0 then .ok rest
        else
          .ok ((if i % 2 = k % 2 ∧ j % 2 = l % 2
                then two (i / 2) (j / 2) (k / 2) (l / 2) * v else 0)
            - (if i % 2 = l % 2 ∧ j % 2 = k % 2
                then two (i / 2) (j / 2) (l / 2) (k / 2) * v else 0) + rest)

/-- The `j`-loop of `brute_phi_H_psi` over the occupied indices after `i`
(`ind_occ[ind_first_occ+1:]`); `ks` is `temp1_ind_vir[ind_first_vir+1:]`,
the part of `temp1_ind_vir` after the current `k`. -/
def bruteJ (two : ℕ → ℕ → ℕ → ℕ → ℚ) (olp : ℕ → Except String ℚ)
    (single i k : ℕ) (ks : List ℕ) : List ℕ → Except String ℚ
  | [] => .ok 0
  | j :: js =>
    match bruteL two olp single i k j (List.insertionSort (· ≤ ·) (j :: ks)) with
    | .error s => .error s
    | .ok v =>
      match bruteJ two olp single i k ks js with
      | .error s => .error s
      | .ok rest => .ok (v + rest)

/-- The `k`-loop of `brute_phi_H_psi` over `temp1_ind_vir`; `occTail` is
`ind_occ[ind_first_occ+1:]`.  The one-electron overlap is only evaluated
under the spin test, as in the source. -/
def bruteK (one : ℕ → ℕ → ℚ) (two : ℕ → ℕ → ℕ → ℕ → ℚ) (olp : ℕ → Except String ℚ)
    (sd i : ℕ) (occTail : List ℕ) : List ℕ → Except String ℚ
  | [] => .ok 0
  | k :: ks =>
    match (if i % 2 = k % 2
        then (olp (excite_orbs sd i k)).map (fun v => one (i / 2) (k / 2) * v)
        else .ok 0) with
    | .error s => .error s
    | .ok oneTerm =>
      match bruteJ two olp (excite_orbs sd i k) i k ks occTail with
      | .error s => .error s
      | .ok jpart =>
        match bruteK one two olp sd i occTail ks with
        | .error s => .error s
        | .ok rest => .ok (oneTerm + jpart + rest)

/-- The outer `i`-loop of `brute_phi_H_psi`; `is` is the tail of `ind_occ`
after position `ind_first_occ`, which is exactly `ind_occ[ind_first_occ+1:]`. -/
def bruteI (one : ℕ → ℕ → ℚ) (two : ℕ → ℕ → ℕ → ℕ → ℚ) (olp : ℕ → Except String ℚ)
    (sd : ℕ) (ind_vir : List ℕ) : List ℕ → Except String ℚ
  | [] => .ok 0
  | i :: is =>
    match bruteK one two olp sd i is
        (List.insertionSort (· ≤ ·) (ind_vir ++ [i])) with
    | .error s => .error s
    | .ok v =>
      match bruteI one two olp sd ind_vir is with
      | .error s => .error s
      | .ok rest => .ok (v + rest)

/-- Embedding of `APIG.brute_phi_H_psi`, parametrized by the overlap
evaluator; `sorted` on duplicate-free integer lists is
`List.insertionSort`. -/
def APIG_brute_phi_H_psi (norbs : ℕ) (one : ℕ → ℕ → ℚ) (two : ℕ → ℕ → ℕ → ℕ → ℚ)
    (olp : ℕ → Except String ℚ) (sd : ℕ) : Except String ℚ :=
  bruteI one two olp sd
    ((List.range (2 * norbs)).filter (fun i => !is_occupied sd i))
    ((List.range (2 * norbs)).filter (fun i => is_occupied sd i))

/-- Embedding of `APIG.phi_H_psi`: dispatch on the alpha/beta string test. -/
def APIG_phi_H_psi (norbs : ℕ) (one : ℕ → ℕ → ℚ) (two : ℕ → ℕ → ℕ → ℕ → ℚ)
    (olp : ℕ → Except String ℚ) (sd : ℕ) : Except String ℚ :=
  if seniorityZero sd then APIG_double_phi_H_psi norbs one two olp sd
  else APIG_brute_phi_H_psi norbs one two olp sd

/-- Sequencing helper: evaluate `f` on each index in order, aborting at the
first raised exception (the Python loop filling a vector entry by entry). -/
def vecE (f : ℕ → Except String ℚ) : List ℕ → Except String (List ℚ)
  | [] => .ok []
  | d :: ds =>
    match f d with
    | .error s => .error s
    | .ok v =>
      match vecE f ds with
      | .error s => .error s
      | .ok vs => .ok (v :: vs)

/-- Embedding of `APIG.nonlin` (`_normalize` is `True` for `APIG`, so
`eqn_offset = 1` and the first residual is the normalization condition).
List indexing into `proj` follows the callers, which supply enough
entries. -/
def APIG_nonlin (npairs norbs : ℕ) (one : ℕ → ℕ → ℚ) (two : ℕ → ℕ → ℕ → ℕ → ℚ)
    (x0 : List ℚ) (proj : List ℕ) : Except String (List ℚ) :=
  let C := reshapeVec norbs x0
  let olp := fun sd => APIG_overlap npairs norbs (some sd) C false (0, 0)
  match APIG_phi_H_psi norbs one two olp (APIG_hf npairs) with
  | .error s => .error s
  | .ok energy =>
    match olp (APIG_hf npairs) with
    | .error s => .error s
    | .ok v0 =>
      match vecE (fun d =>
          match olp (nthN proj d) with
          | .error s => .error s
          | .ok o =>
            match APIG_phi_H_psi norbs one two olp (nthN proj d) with
            | .error s => .error s
            | .ok h => .ok (energy * o - h))
        (List.range (x0.length - 1)) with
      | .error s => .error s
      | .ok rest => .ok ((v0 - 1) :: rest)

/-- One column of the Jacobian built by `APIG.nonlin_jac` (the inner `d`
loop for a fixed differentiation coordinate `(i, j)`), headed by the
normalization row `jac[0, count]`. -/
def APIG_jac_column (npairs norbs : ℕ) (one : ℕ → ℕ → ℚ) (two : ℕ → ℕ → ℕ → ℕ → ℚ)
    (C : QMat) (energy : ℚ) (phi_psi_tmp : List ℚ) (proj : List ℕ) (n : ℕ)
    (ij : ℕ × ℕ) : Except String (List ℚ) :=
  let olpD := fun sd => APIG_overlap npairs norbs (some sd) C true ij
  match olpD (APIG_hf npairs) with
  | .error s => .error s
  | .ok top =>
    match vecE (fun d =>
        match APIG_phi_H_psi norbs one two olpD (APIG_hf npairs) with
        | .error s => .error s
        | .ok hD =>
          match olpD (nthN proj d) with
          | .error s => .error s
          | .ok oD =>
            match APIG_phi_H_psi norbs one two olpD (nthN proj d) with
            | .error s => .error s
            | .ok h2 => .ok (hD * nthQ phi_psi_tmp d + energy * oD - h2))
      (List.range (n - 1)) with
    | .error s => .error s
    | .ok rest => .ok (top :: rest)

/-- Column sequencing for `nonlin_jac` (the outer `(i, j)` double loop in
row-major `count` order). -/
def colsE (f : ℕ × ℕ → Except String (List ℚ)) : List (ℕ × ℕ) → Except String (List (List ℚ))
  | [] => .ok []
  | ij :: rest =>
    match f ij with
    | .error s => .error s
    | .ok col =>
      match colsE f rest with
      | .error s => .error s
      | .ok cols => .ok (col :: cols)

/-- Embedding of `APIG.nonlin_jac`.  The source fills `jac[:, count]` for
one coordinate `(i, j)` at a time by rebinding `self.overlap` to the
derivative evaluator; the embedding returns those columns in `count` order,
so the returned entry `[count][d]` is the source's `jac[d, count]`.  The
undifferentiated `energy` and `phi_psi_tmp` are computed once with the
original overlap, while every overlap inside the column loop (including the
ones inside `phi_H_psi`) is the derivative evaluator. -/
def APIG_nonlin_jac (npairs norbs : ℕ) (one : ℕ → ℕ → ℚ) (two : ℕ → ℕ → ℕ → ℕ → ℚ)
    (x0 : List ℚ) (proj : List ℕ) : Except String (List (List ℚ)) :=
  let C := reshapeVec norbs x0
  let olp := fun sd => APIG_overlap npairs norbs (some sd) C false (0, 0)
  match APIG_phi_H_psi norbs one two olp (APIG_hf npairs) with
  | .error s => .error s
  | .ok energy =>
    match vecE (fun d => olp (nthN proj d)) (List.range x0.length) with
    | .error s => .error s
    | .ok phi_psi_tmp =>
      colsE
        (APIG_jac_column npairs norbs one two C energy phi_psi_tmp proj x0.length)
        ((List.range npairs).flatMap (fun i => (List.range norbs).map (fun j => (i, j))))

/-- Proof-side closed form of the seniority-zero Hamiltonian expectation:
for each occupied spatial orbital `p` (with later occupied orbitals `ps`
and the fixed vacant list `A`), the one-electron, intra-pair, inter-pair
and pair-excitation contributions. -/
def hamSum (one : ℕ → ℕ → ℚ) (two : ℕ → ℕ → ℕ → ℕ → ℚ) (w : ℚ) (W : ℕ → ℕ → ℚ)
    (A : List ℕ) : List ℕ → ℚ
  | [] => 0
  | p :: ps =>
      2 * one p p * w + two p p p p * w
      + ((ps.map (fun q => 4 * two p q p q * w - 2 * two p q q p * w)).sum)
      + ((A.map (fun a => two p p a a * W p a)).sum)
      + hamSum one two w W A ps

/-! Lemmas and claim theorems. -/

/-- The projection-space loop only ever appends to its accumulator. -/
theorem pspaceLoop_eq_append (hf : ℕ) (io iv : List ℕ) (nn : ℕ) :
    ∀ (fuel ne : ℕ) (acc : List ℕ), ∃ rest, pspaceLoop hf io iv nn fuel ne acc = acc ++ rest := by
  intro fuel
  induction fuel with
  | zero => exact fun ne acc => ⟨[], by simp [pspaceLoop]⟩
  | succ fuel ih =>
    intro ne acc
    by_cases h : acc.length < nn ∧ ne ≤ io.length
    · obtain ⟨rest, hrest⟩ := ih (ne + 1) (acc ++ pspaceBatch hf io iv (nn - acc.length) ne)
      refine ⟨pspaceBatch hf io iv (nn - acc.length) ne ++ rest, ?_⟩
      simp only [pspaceLoop, h, and_self, if_true, hrest, List.append_assoc]
    · exact ⟨[], by simp [pspaceLoop, h]⟩

/-- The candidate list of `APIG.generate_pspace` starts with the ground
determinant. -/
theorem APIG_pspace_full_head (npairs norbs : ℕ) :
    ∃ rest, APIG_pspace_full npairs norbs = APIG_hf npairs :: rest := by
  unfold APIG_pspace_full
  obtain ⟨rest, hrest⟩ := pspaceLoop_eq_append (APIG_hf npairs) (APIG_ind_occ npairs norbs)
    (APIG_ind_vir npairs norbs) (npairs * norbs + 1) ((APIG_ind_occ npairs norbs).length + 1) 1
    [APIG_hf npairs]
  rw [hrest]
  exact ⟨rest ++ (if npairs ≤ 2 then APIG_singles npairs norbs else []), by simp⟩

/-- C6: for every `npairs` and `norbs` for which `APIG.generate_pspace`
returns without raising, the returned tuple has exactly `npairs*norbs + 1`
pairwise-distinct Slater determinants and its first entry is the ground
determinant `0b…0011` (lowest `npairs` spatial orbitals doubly occupied,
i.e. `2^(2*npairs) - 1`). -/
theorem c6_generate_pspace_wellformed (npairs norbs : ℕ) (l : List ℕ)
    (h : APIG_generate_pspace npairs norbs = some l) :
    l.length = npairs * norbs + 1 ∧ l.Nodup ∧ l.head? = some (2 ^ (2 * npairs) - 1) := by
  unfold APIG_generate_pspace at h
  by_cases hc : (APIG_pspace_full npairs norbs).Nodup ∧
      npairs * norbs + 1 ≤ (APIG_pspace_full npairs norbs).length
  · rw [if_pos hc, Option.some_inj] at h
    obtain ⟨rest, hfull⟩ := APIG_pspace_full_head npairs norbs
    refine ⟨?_, ?_, ?_⟩
    · rw [← h, List.length_take]
      exact Nat.min_eq_left hc.2
    · rw [← h]
      exact ((APIG_pspace_full npairs norbs).take_sublist _).nodup hc.1
    · rw [← h, hfull, List.take_succ_cons, List.head?_cons, APIG_hf]
  · rw [if_neg hc] at h
    exact absurd h (by simp)

/-- Witness for C6 at `npairs = 1`, `norbs = 2`: the generator succeeds and
returns `[0b0011, 0b1100, 0b0101]`. -/
theorem c6_generate_pspace_wellformed_witness :
    APIG_generate_pspace 1 2 = some [3, 12, 5] ∧
      ([3, 12, 5] : List ℕ).length = 1 * 2 + 1 ∧ ([3, 12, 5] : List ℕ).Nodup ∧
      ([3, 12, 5] : List ℕ).head? = some (2 ^ (2 * 1) - 1) :=
  ⟨by decide, c6_generate_pspace_wellformed 1 2 [3, 12, 5] (by decide)⟩

/-- C9: when the root finder reports failure, `APIG.__call__` leaves the
stored coefficient matrix untouched and prints the non-convergence warning;
the stored coefficients are replaced by the (reshaped) solver result exactly
in the reported-success case. -/
theorem c9_call_coeffs_frame (npairs norbs ground : ℕ) (pspace : List ℕ) (coeffs : QMat)
    (solver : List ℚ → List ℕ → SolverResult) (x0? : Option (List ℚ)) (guess : List ℚ)
    (proj? : Option (List ℕ)) (x0 : List ℚ) (proj : List ℕ)
    (hx0 : x0 = x0?.getD guess) (hproj : proj = proj?.getD (pspace.erase ground))
    (hlen : ¬ proj.length < x0.length) :
    ((solver x0 proj).success = false →
      APIG_call npairs norbs ground pspace coeffs solver x0? guess proj? =
        .ok (coeffs, ["Warning: solution did not converge; coefficients were not updated."],
          solver x0 proj)) ∧
    ((solver x0 proj).success = true → (solver x0 proj).x.length = npairs * norbs →
      APIG_call npairs norbs ground pspace coeffs solver x0? guess proj? =
        .ok (reshapeVec norbs (solver x0 proj).x, [], solver x0 proj)) := by
  subst hx0 hproj
  constructor
  · intro hfail
    simp only [APIG_call, if_neg hlen, hfail, Bool.false_eq_true, if_false]
  · intro hsucc hsize
    simp only [APIG_call, if_neg hlen, hsucc, if_true, if_pos hsize]

/-- Witness for C9: a solver oracle that always reports failure with
candidate vector `[7]`; the stored coefficients `[[1, 2]]` survive and the
warning is emitted. -/
theorem c9_call_coeffs_frame_witness :
    (¬ ([12] : List ℕ).length < ([5] : List ℚ).length) ∧
      APIG_call 1 2 3 [3, 12] (mkMat [[1, 2]]) (fun _ _ => ⟨false, [7]⟩) (some [5]) [] none =
        .ok (mkMat [[1, 2]],
          ["Warning: solution did not converge; coefficients were not updated."],
          ⟨false, [7]⟩) :=
  ⟨by decide,
    (c9_call_coeffs_frame 1 2 3 [3, 12] (mkMat [[1, 2]]) (fun _ _ => ⟨false, [7]⟩)
      (some [5]) [] none [5] [12] rfl (by decide) (by decide)).1 rfl⟩

/-- C7 (`code_bug` evidence): at `npairs = 1`, `norbs = 3`,
`AP1roG.generate_pspace` builds `[3, 12, 48]` (reference first) and returns
`tuple(set(...))`.  The element count `1 + npairs*(norbs - npairs) = 3` and
distinctness hold, but CPython 2 hashes small ints to themselves and the
3-element set lives in an 8-slot table, so iteration visits slots
`48 % 8 = 0`, `3 % 8 = 3`, `12 % 8 = 4` in that order: the returned tuple is
`(48, 3, 12)` and its first entry is not the reference determinant `3`. -/
theorem c7_set_order_failing_input :
    AP1roG_pspace_raw 1 3 = [3, 12, 48] ∧
      (AP1roG_generate_pspace 1 3).length = 1 + 1 * (3 - 1) ∧
      (AP1roG_generate_pspace 1 3).Nodup ∧
      AP1roG_base 1 = 3 ∧ 48 % 8 = 0 ∧ 3 % 8 = 3 ∧ 12 % 8 = 4 := by
  decide

/-- C8 counterexample: the determinant `0b10010000 = 144` (alpha of spatial
orbital 2 and beta of spatial orbital 3 occupied) breaks the closed-shell
pairing invariant, yet for `npairs = 1`, `norbs = 2` the pre-filter scan
`range(norbs)` never reaches those orbitals: `APIG.overlap` falls through to
the permanent of the 1-by-0 slice `C[:, []]` and raises the non-square
assertion instead of returning 0. -/
theorem c8_prefilter_counterexample :
    APIG_overlap 1 2 (some 144) (mkMat [[1, 1]]) false (0, 0) ≠ Except.ok 0 ∧
      countBits 144 = 2 * 1 ∧ is_occupied 144 (2 * 2) ≠ is_occupied 144 (2 * 2 + 1) := by
  refine ⟨?_, by decide, by decide⟩
  have e : APIG_overlap 1 2 (some 144) (mkMat [[1, 1]]) false (0, 0) =
      Except.error "Cannot compute the permanent of a non-square matrix." := rfl
  rw [e]
  exact fun hcontra => Except.noConfusion hcontra

/-- C8 (amended): `APIG.overlap` returns exactly 0 — raising no exception —
whenever the Slater-determinant argument is the `None`/`0` sentinel, has a
bit count different from `nelec = 2*npairs`, or has some spatial orbital
with index BELOW `norbs` whose alpha and beta spin orbitals have unequal
occupation (the source scans only `range(norbs)`; the counterexample shows a
breach at an orbital `≥ norbs` is not filtered). -/
theorem c8_prefilter_amended (npairs norbs : ℕ) (sd? : Option ℕ) (C : QMat)
    (der : Bool) (ij : ℕ × ℕ) (hnp : 0 < npairs)
    (h : sd? = none ∨ sd? = some 0 ∨
      (∃ sd, sd? = some sd ∧ countBits sd ≠ 2 * npairs) ∨
      (∃ sd i, sd? = some sd ∧ i < norbs ∧
        is_occupied sd (i * 2) ≠ is_occupied sd (i * 2 + 1))) :
    APIG_overlap npairs norbs sd? C der ij = Except.ok 0 := by
  rcases h with h | h | ⟨sd, h, hcount⟩ | ⟨sd, i, h, hi, hbreak⟩
  · rw [h]; rfl
  · rw [h]
    have h0 : countBits 0 ≠ 2 * npairs := by
      simp only [countBits, countBitsAux]
      omega
    simp [APIG_overlap, h0]
  · rw [h]
    simp [APIG_overlap, hcount]
  · rw [h]
    unfold APIG_overlap
    by_cases hcount : countBits sd ≠ 2 * npairs
    · simp [hcount]
    · have hany : (List.range norbs).any
          (fun i => is_occupied sd (i * 2) != is_occupied sd (i * 2 + 1)) = true := by
        rw [List.any_eq_true]
        exact ⟨i, List.mem_range.2 hi, by simpa using hbreak⟩
      simp [hcount, hany]

/-- Witness for C8 (amended) at `sd = 0b0101`, whose spatial orbital 0 is
singly occupied. -/
theorem c8_prefilter_amended_witness :
    (0 < 1 ∧ is_occupied 5 (0 * 2) ≠ is_occupied 5 (0 * 2 + 1)) ∧
      APIG_overlap 1 2 (some 5) (mkMat [[1, 1]]) false (0, 0) = Except.ok 0 :=
  ⟨⟨by decide, by decide⟩,
    c8_prefilter_amended 1 2 (some 5) (mkMat [[1, 1]]) false (0, 0) (by decide)
      (Or.inr (Or.inr (Or.inr ⟨5, 0, rfl, by decide, by decide⟩)))⟩

/-- C2 (`code_bug` evidence): at the 2-by-2 matrix `[[1,2],[3,4]]` and
indices `(0,0)`, `APIG.permanent_derivative` returns `8`, twice the exact
partial derivative `∂perm(A)/∂A[0,0] = perm([[4]]) = 4` (the permanent of
the minor obtained by deleting row 0 and column 0). -/
theorem c2_permanent_derivative_failing_input :
    APIG_permanent_derivative 2 2 (mkMat [[1, 2], [3, 4]]) 0 0 = .ok 8 ∧
      permCore 1 (minorDel (mkMat [[1, 2], [3, 4]]) 0 0) = 4 ∧ (8 : ℚ) ≠ 4 := by
  refine ⟨?_, ?_, by norm_num⟩
  · norm_num [APIG_permanent_derivative, permDerivCore, swap0, mkMat, nthQ, nthRow, List.range']
  · norm_num [permCore, permsL, insertAll, prodAlong, minorDel, mkMat, nthQ, nthRow,
      List.range_succ]

theorem AP1roG_base_eq (npairs : ℕ) : AP1roG_base npairs = 2 ^ (2 * npairs) - 1 := by
  induction npairs with
  | zero => rfl
  | succ n ih =>
    unfold AP1roG_base at *
    rw [List.range_succ, List.map_append, List.sum_append, ih]
    have h1 : (2:ℕ) ^ (2*n+1) = 2 ^ (2*n) * 2 := pow_succ 2 (2*n)
    have h2 : (2:ℕ) ^ (2*n+2) = 2 ^ (2*n+1) * 2 := pow_succ 2 (2*n+1)
    have h3 : (1:ℕ) ≤ 2 ^ (2*n) := Nat.one_le_two_pow
    have h4 : 2 * (n+1) = 2*n+2 := by ring
    simp only [List.map_cons, List.map_nil, List.sum_cons, List.sum_nil, h4]
    omega

theorem base_testBit (npairs b : ℕ) :
    (AP1roG_base npairs).testBit b = decide (b < 2 * npairs) := by
  rw [AP1roG_base_eq]
  exact Nat.testBit_two_pow_sub_one _ _

theorem pairOcc_base (npairs j : ℕ) :
    is_pair_occupied (AP1roG_base npairs) j = decide (j < npairs) := by
  simp only [is_pair_occupied, base_testBit]
  rw [Bool.eq_iff_iff]
  simp only [Bool.and_eq_true, decide_eq_true_eq]
  omega

theorem excite_pairs_single (npairs f t : ℕ) (hf : f < npairs) (ht : npairs ≤ t) :
    excite_pairs (AP1roG_base npairs) [f, t] =
      AP1roG_base npairs ^^^ 2 ^ (2*f) ^^^ 2 ^ (2*f+1) ||| 2 ^ (2*t) ||| 2 ^ (2*t+1) := by
  have h1 : is_occupied (AP1roG_base npairs) (2*f) = true := by
    simp only [is_occupied, base_testBit, decide_eq_true_eq]; omega
  have h2 : is_occupied (AP1roG_base npairs ^^^ 2 ^ (2*f)) (2*f+1) = true := by
    simp only [is_occupied, Nat.testBit_xor, base_testBit, Nat.testBit_two_pow]
    simp [show 2*f+1 < 2*npairs by omega, show ¬(2*f = 2*f+1) by omega]
  have h3 : is_occupied (AP1roG_base npairs ^^^ 2 ^ (2*f) ^^^ 2 ^ (2*f+1)) (2*t) = false := by
    simp only [is_occupied, Nat.testBit_xor, base_testBit, Nat.testBit_two_pow]
    simp [show ¬(2*t < 2*npairs) by omega, show ¬(2*f = 2*t) by omega,
      show ¬(2*f+1 = 2*t) by omega]
  have h4 : is_occupied ((AP1roG_base npairs ^^^ 2 ^ (2*f) ^^^ 2 ^ (2*f+1)) ||| 2 ^ (2*t))
      (2*t+1) = false := by
    simp only [is_occupied, Nat.testBit_or, Nat.testBit_xor, base_testBit, Nat.testBit_two_pow]
    simp [show ¬(2*t+1 < 2*npairs) by omega, show ¬(2*f = 2*t+1) by omega,
      show ¬(2*f+1 = 2*t+1) by omega, show ¬(2*t = 2*t+1) by omega]
  unfold excite_pairs
  simp only [List.length_cons, List.length_nil, pairIndices, List.take_succ_cons,
    List.take_zero, List.drop_succ_cons, List.drop_zero, List.flatMap_cons, List.flatMap_nil,
    List.append_nil]
  simp only [Nat.one_shiftLeft, removeOrbs?, addOrbs?, h1, h2, h3, h4, if_true,
    Bool.false_eq_true, if_false, Option.getD_some]

theorem pairOcc_excite1 (npairs f t j : ℕ) (hf : f < npairs) (ht : npairs ≤ t) :
    is_pair_occupied (excite_pairs (AP1roG_base npairs) [f, t]) j =
      ((decide (j < npairs) && !decide (j = f)) || decide (j = t)) := by
  rw [excite_pairs_single npairs f t hf ht]
  simp only [is_pair_occupied, Nat.testBit_or, Nat.testBit_xor, base_testBit,
    Nat.testBit_two_pow]
  by_cases h1 : j = f
  · simp [h1, show 2*f < 2*npairs by omega, show ¬(2*f+1 = 2*f) by omega,
      show ¬(2*t = 2*f) by omega, show ¬(2*t+1 = 2*f) by omega,
      show 2*f+1 < 2*npairs by omega, show ¬(2*f = 2*f+1) by omega,
      show ¬(2*t = 2*f+1) by omega, show ¬(2*t+1 = 2*f+1) by omega,
      show ¬(f = t) by omega]
  · by_cases h2 : j = t
    · simp [h2, show ¬(2*t < 2*npairs) by omega, show ¬(2*f = 2*t) by omega,
        show ¬(2*f+1 = 2*t) by omega, show ¬(2*t = 2*t+1) by omega,
        show ¬(2*t+1 < 2*npairs) by omega, show ¬(2*f = 2*t+1) by omega,
        show ¬(2*f+1 = 2*t+1) by omega, show ¬(t < npairs) by omega,
        show ¬(t = f) by omega]
    · by_cases h3 : j < npairs
      · simp [h1, h2, h3, show 2*j < 2*npairs by omega, show 2*j+1 < 2*npairs by omega,
          show ¬(2*f = 2*j) by omega, show ¬(2*f+1 = 2*j) by omega,
          show ¬(2*f = 2*j+1) by omega, show ¬(2*f+1 = 2*j+1) by omega,
          show ¬(2*t = 2*j) by omega, show ¬(2*t+1 = 2*j) by omega,
          show ¬(2*t = 2*j+1) by omega, show ¬(2*t+1 = 2*j+1) by omega]
      · simp [h1, h2, h3, show ¬(2*j < 2*npairs) by omega, show ¬(2*j+1 < 2*npairs) by omega,
          show ¬(2*f = 2*j) by omega, show ¬(2*f+1 = 2*j) by omega,
          show ¬(2*f = 2*j+1) by omega, show ¬(2*f+1 = 2*j+1) by omega,
          show ¬(2*t = 2*j) by omega, show ¬(2*t+1 = 2*j) by omega,
          show ¬(2*t = 2*j+1) by omega, show ¬(2*t+1 = 2*j+1) by omega]

theorem excite1_ne_zero (npairs f t : ℕ) (hf : f < npairs) (ht : npairs ≤ t) :
    excite_pairs (AP1roG_base npairs) [f, t] ≠ 0 := by
  intro h
  have := pairOcc_excite1 npairs f t t hf ht
  rw [h] at this
  simp [is_pair_occupied] at this

theorem filter_range_lt (n m : ℕ) (h : n ≤ m) :
    (List.range m).filter (fun j => decide (j < n)) = List.range n := by
  induction m with
  | zero => interval_cases n; rfl
  | succ m ih =>
    rcases Nat.lt_or_ge m n with hm | hm
    · have hnm : n = m + 1 := by omega
      subst hnm
      apply List.filter_eq_self.2
      intro a ha
      simp [List.mem_range.1 ha]
    · rw [List.range_succ, List.filter_append, ih hm]
      simp [show ¬(m < n) by omega]

theorem filter_range_single (n f : ℕ) (h : f < n) :
    (List.range n).filter (fun j => decide (j = f)) = [f] := by
  induction n with
  | zero => omega
  | succ n ih =>
    rw [List.range_succ, List.filter_append]
    rcases Nat.lt_or_ge f n with hf | hf
    · rw [ih hf]
      simp [show ¬(n = f) by omega]
    · have hfn : f = n := by omega
      subst hfn
      have : (List.range f).filter (fun j => decide (j = f)) = [] := by
        apply List.filter_eq_nil_iff.2
        intro a ha
        have haf := List.mem_range.1 ha
        simp
        omega
      rw [this]
      simp

theorem filter_range'_single (a b t : ℕ) (h1 : a ≤ t) (h2 : t < a + b) :
    (List.range' a b).filter (fun j => decide (j = t)) = [t] := by
  induction b generalizing a with
  | zero => omega
  | succ b ih =>
    rw [List.range'_succ]
    rcases Nat.eq_or_lt_of_le h1 with ha | ha
    · subst ha
      have : (List.range' (a+1) b).filter (fun j => decide (j = a)) = [] := by
        apply List.filter_eq_nil_iff.2
        intro x hx
        have := (List.mem_range'_1.1 hx).1
        simp
        omega
      simp [this]
    · rw [List.filter_cons]
      rw [ih (a+1) (by omega) (by omega)]
      simp [show ¬(a = t) by omega]

theorem length_filter_ne (n f : ℕ) (h : f < n) :
    ((List.range n).filter (fun j => !decide (j = f))).length = n - 1 := by
  induction n with
  | zero => omega
  | succ n ih =>
    rw [List.range_succ, List.filter_append, List.length_append]
    rcases Nat.lt_or_ge f n with hf | hf
    · rw [ih hf]
      simp [show ¬(n = f) by omega]
      omega
    · have hfn : f = n := by omega
      subst hfn
      have : (List.range f).filter (fun j => !decide (j = f)) = List.range f := by
        apply List.filter_eq_self.2
        intro a ha
        simp
        exact Nat.ne_of_lt (List.mem_range.1 ha)
      rw [this]
      simp

theorem from_index_base (npairs : ℕ) : AP1roG_from_index npairs (AP1roG_base npairs) = [] := by
  apply List.filter_eq_nil_iff.2
  intro j hj
  simp [pairOcc_base, List.mem_range.1 hj]

theorem from_index_excite1 (npairs f t : ℕ) (hf : f < npairs) (ht : npairs ≤ t) :
    AP1roG_from_index npairs (excite_pairs (AP1roG_base npairs) [f, t]) = [f] := by
  unfold AP1roG_from_index
  rw [List.filter_congr (q := fun j => decide (j = f)) ?_]
  · exact filter_range_single npairs f hf
  · intro j hj
    have hjn := List.mem_range.1 hj
    rw [pairOcc_excite1 npairs f t j hf ht]
    by_cases hjf : j = f
    · simp [hjf, show ¬(f = t) by omega]
    · simp [hjf, hjn, show ¬(j = t) by omega]

theorem to_index_excite1 (npairs norbs f t : ℕ) (hf : f < npairs) (ht : npairs ≤ t)
    (htn : t < norbs) :
    AP1roG_to_index npairs norbs (excite_pairs (AP1roG_base npairs) [f, t]) = [t] := by
  unfold AP1roG_to_index
  rw [List.filter_congr (q := fun j => decide (j = t)) ?_]
  · exact filter_range'_single npairs (norbs - npairs) t ht (by omega)
  · intro j hj
    have hjn := List.mem_range'_1.1 hj
    rw [pairOcc_excite1 npairs f t j hf ht]
    by_cases hjt : j = t
    · simp [hjt]
    · simp [hjt, show ¬(j < npairs) by omega]

theorem countBelow_base (npairs : ℕ) :
    ((List.range npairs).filter (fun i => is_pair_occupied (AP1roG_base npairs) i)).length
      = npairs := by
  have : (List.range npairs).filter (fun i => is_pair_occupied (AP1roG_base npairs) i)
      = List.range npairs := by
    apply List.filter_eq_self.2
    intro j hj
    simp [pairOcc_base, List.mem_range.1 hj]
  rw [this, List.length_range]

theorem countBelow_excite1 (npairs f t : ℕ) (hf : f < npairs) (ht : npairs ≤ t) :
    ((List.range npairs).filter
      (fun i => is_pair_occupied (excite_pairs (AP1roG_base npairs) [f, t]) i)).length
      = npairs - 1 := by
  rw [List.filter_congr (q := fun j => !decide (j = f)) ?_]
  · exact length_filter_ne npairs f hf
  · intro j hj
    have hjn := List.mem_range.1 hj
    rw [pairOcc_excite1 npairs f t j hf ht]
    simp [hjn, show ¬(j = t) by omega]

theorem mem_AP1roG_pspace (npairs norbs phi : ℕ) (hpn : npairs ≤ norbs) :
    phi ∈ AP1roG_generate_pspace npairs norbs ↔
      phi = AP1roG_base npairs ∨
      ∃ u, npairs ≤ u ∧ u < norbs ∧ ∃ i, i < npairs ∧
        phi = excite_pairs (AP1roG_base npairs) [i, u] := by
  unfold AP1roG_generate_pspace AP1roG_pspace_raw
  rw [List.mem_dedup]
  simp only [List.mem_cons, List.mem_flatMap, List.mem_map, List.mem_range, List.mem_range'_1]
  constructor
  · rintro (h | ⟨u, ⟨hu1, hu2⟩, i, hi, h⟩)
    · exact Or.inl h
    · exact Or.inr ⟨u, hu1, by omega, i, hi, h.symm⟩
  · rintro (h | ⟨u, hu1, hu2, i, hi, h⟩)
    · exact Or.inl h
    · exact Or.inr ⟨u, ⟨hu1, by omega⟩, i, hi, h.symm⟩

/-- C10: `AP1roG.overlap` returns 0 for every determinant not contained in
the stored projection space, for every coefficient matrix; consequently,
with the default projection space of `AP1roG.generate_pspace` (reference
plus single pair excitations only), every doubly-or-higher pair-excited
determinant gets overlap 0 through this entry point — the value is produced
by the `phi not in self.pspace` guard, before the `excite_count` dispatch,
independently of the matrix. -/
theorem c10_overlap_outside_pspace (npairs norbs : ℕ) (pspace : List ℕ) (phi : ℕ) (M : QMat)
    (der : Bool) (ij : ℕ × ℕ) :
    (phi ∉ pspace → AP1roG_overlap npairs norbs pspace phi M der ij = .ok 0) ∧
    (∀ k, 2 ≤ k → 0 < npairs → npairs ≤ norbs →
      pairExcitationRank npairs norbs k phi →
      pspace = AP1roG_generate_pspace npairs norbs →
      AP1roG_overlap npairs norbs pspace phi M der ij = .ok 0) := by
  have main : phi ∉ pspace → AP1roG_overlap npairs norbs pspace phi M der ij = .ok 0 := by
    intro hmem
    by_cases h0 : phi = 0
    · unfold AP1roG_overlap
      rw [if_pos h0]
    · unfold AP1roG_overlap
      rw [if_neg h0, if_pos hmem]
  refine ⟨main, fun k hk hnp hpn hrank hps => main ?_⟩
  subst hps
  rw [mem_AP1roG_pspace npairs norbs phi hpn]
  push_neg
  obtain ⟨hlt, hpair, htot, hbelow⟩ := hrank
  constructor
  · intro hbase
    rw [hbase] at hbelow
    rw [countBelow_base npairs] at hbelow
    omega
  · intro u hu1 hu2 i hi heq
    rw [heq] at hbelow
    rw [countBelow_excite1 npairs i u hi hu1] at hbelow
    omega

/-- Witness for C10: `npairs = 2`, `norbs = 4`, the doubly pair-excited
determinant `0b11110000 = 240`, and the default projection space. -/
theorem c10_witness :
    (2 ≤ 2 ∧ 0 < 2 ∧ 2 ≤ 4 ∧ pairExcitationRank 2 4 2 240) ∧
      AP1roG_overlap 2 4 (AP1roG_generate_pspace 2 4) 240 (mkMat [[1, 1, 1, 1], [1, 1, 1, 1]])
        false (0, 0) = .ok 0 :=
  ⟨⟨by decide, by decide, by decide, by decide, by decide, by decide⟩,
    (c10_overlap_outside_pspace 2 4 (AP1roG_generate_pspace 2 4) 240
        (mkMat [[1, 1, 1, 1], [1, 1, 1, 1]]) false (0, 0)).2 2 (by decide) (by decide)
      (by decide) ⟨by decide, by decide, by decide, by decide⟩ rfl⟩

theorem perm_of_mem_insertAll {x : ℕ} {q p : List ℕ} (h : p ∈ insertAll x q) :
    p.Perm (x :: q) := by
  induction q generalizing p with
  | nil =>
    simp [insertAll] at h
    simp [h]
  | cons y ys ih =>
    simp only [insertAll, List.mem_cons, List.mem_map] at h
    rcases h with h | ⟨p', hp', rfl⟩
    · simp [h]
    · exact ((ih hp').cons y).trans (List.Perm.swap x y ys)

theorem mem_permsL_perm {l p : List ℕ} (h : p ∈ permsL l) : p.Perm l := by
  induction l generalizing p with
  | nil => simp [permsL] at h; simp [h]
  | cons x xs ih =>
    simp only [permsL, List.mem_flatMap] at h
    obtain ⟨q, hq, hp⟩ := h
    exact (perm_of_mem_insertAll hp).trans ((ih hq).cons x)

theorem insertAll_mem_split (x : ℕ) (l1 l2 : List ℕ) :
    l1 ++ x :: l2 ∈ insertAll x (l1 ++ l2) := by
  induction l1 with
  | nil => cases l2 <;> simp [insertAll]
  | cons y l1 ih =>
    simp only [List.cons_append, insertAll, List.mem_cons, List.mem_map]
    exact Or.inr ⟨l1 ++ x :: l2, ih, rfl⟩

theorem mem_permsL_of_perm {l p : List ℕ} (h : p.Perm l) : p ∈ permsL l := by
  induction l generalizing p with
  | nil => simp [h.eq_nil, permsL]
  | cons x xs ih =>
    have hx : x ∈ p := h.mem_iff.2 (List.mem_cons_self x xs)
    obtain ⟨l1, l2, rfl⟩ := List.append_of_mem hx
    have hmid : (l1 ++ x :: l2).Perm (x :: (l1 ++ l2)) := List.perm_middle
    have h2 : (l1 ++ l2).Perm xs := (hmid.symm.trans h).cons_inv
    simp only [permsL, List.mem_flatMap]
    exact ⟨l1 ++ l2, ih h2, insertAll_mem_split x l1 l2⟩

theorem erase_of_mem_insertAll {x : ℕ} {q p : List ℕ} (hx : x ∉ q) (h : p ∈ insertAll x q) :
    p.erase x = q := by
  induction q generalizing p with
  | nil => simp [insertAll] at h; simp [h]
  | cons y ys ih =>
    simp only [insertAll, List.mem_cons, List.mem_map] at h
    rcases h with h | ⟨p', hp', rfl⟩
    · simp [h]
    · have hxy : x ≠ y := fun hc => hx (hc ▸ List.mem_cons_self y ys)
      have hxys : x ∉ ys := fun hc => hx (List.mem_cons_of_mem y hc)
      rw [List.erase_cons_tail]
      · rw [ih hxys hp']
      · simp [Ne.symm hxy]

theorem nodup_insertAll {x : ℕ} {q : List ℕ} (hx : x ∉ q) : (insertAll x q).Nodup := by
  induction q with
  | nil => simp [insertAll]
  | cons y ys ih =>
    have hxy : x ≠ y := fun hc => hx (hc ▸ List.mem_cons_self y ys)
    have hxys : x ∉ ys := fun hc => hx (List.mem_cons_of_mem y hc)
    simp only [insertAll, List.nodup_cons, List.mem_map]
    refine ⟨?_, List.Nodup.map (fun a b hab => by injection hab) (ih hxys)⟩
    rintro ⟨p', hp', hc⟩
    injection hc with h1 h2
    exact hxy h1.symm

theorem nodup_permsL {l : List ℕ} (h : l.Nodup) : (permsL l).Nodup := by
  induction l with
  | nil => simp [permsL]
  | cons x xs ih =>
    have hx : x ∉ xs := (List.nodup_cons.1 h).1
    have hxs : xs.Nodup := (List.nodup_cons.1 h).2
    rw [permsL, List.nodup_flatMap]
    constructor
    · intro q hq
      have hq' : x ∉ q := fun hc => hx (((mem_permsL_perm hq).mem_iff).1 hc)
      exact nodup_insertAll hq'
    · refine List.Pairwise.imp_of_mem ?_ (ih hxs)
      intro q q' hq hq' hne
      intro p hp hp'
      have hxq : x ∉ q := fun hc => hx (((mem_permsL_perm hq).mem_iff).1 hc)
      have hxq' : x ∉ q' := fun hc => hx (((mem_permsL_perm hq').mem_iff).1 hc)
      exact hne ((erase_of_mem_insertAll hxq hp).symm.trans (erase_of_mem_insertAll hxq' hp'))

theorem nthN_eq_getElem : ∀ (l : List ℕ) (r : ℕ) (h : r < l.length), nthN l r = l[r]
  | x :: _, 0, _ => rfl
  | _ :: xs, r + 1, h => nthN_eq_getElem xs r (by simpa using h)

theorem nthQ_eq_getElem : ∀ (l : List ℚ) (r : ℕ) (h : r < l.length), nthQ l r = l[r]
  | x :: _, 0, _ => rfl
  | _ :: xs, r + 1, h => nthQ_eq_getElem xs r (by simpa using h)

theorem nthN_range {n c : ℕ} (h : c < n) : nthN (List.range n) c = c := by
  rw [nthN_eq_getElem _ _ (by simpa using h)]
  simp

theorem nthN_append_left {l1 l2 : List ℕ} {c : ℕ} (h : c < l1.length) :
    nthN (l1 ++ l2) c = nthN l1 c := by
  rw [nthN_eq_getElem _ _ (by simp; omega), nthN_eq_getElem _ _ h]
  exact List.getElem_append_left h

theorem nthN_append_right {l1 l2 : List ℕ} {c : ℕ} (h1 : l1.length ≤ c)
    (h2 : c < l1.length + l2.length) :
    nthN (l1 ++ l2) c = nthN l2 (c - l1.length) := by
  rw [nthN_eq_getElem _ _ (by simp; omega), nthN_eq_getElem _ _ (by omega)]
  exact List.getElem_append_right h1

theorem sum_map_toFinset {α : Type} [DecidableEq α] (l : List α) (h : l.Nodup) (f : α → ℚ) :
    (l.map f).sum = ∑ a ∈ l.toFinset, f a := by
  induction l with
  | nil => simp
  | cons x xs ih =>
    have hx : x ∉ xs := (List.nodup_cons.1 h).1
    rw [List.map_cons, List.sum_cons, List.toFinset_cons,
      Finset.sum_insert (by simpa using hx), ih (List.nodup_cons.1 h).2]

theorem prodAlong_range' (M : QMat) :
    ∀ (p : List ℕ) (s : ℕ),
      (((List.range' s p.length).zip p).map (fun rc => M rc.1 rc.2)).prod =
        ∏ i ∈ Finset.range p.length, M (s + i) (nthN p i) := by
  intro p
  induction p with
  | nil => simp
  | cons a p' ih =>
    intro s
    rw [List.length_cons, List.range'_succ, List.zip_cons_cons, List.map_cons, List.prod_cons,
      Finset.prod_range_succ', ih (s + 1)]
    have h0 : M (s + 0) (nthN (a :: p') 0) = M s a := by norm_num [nthN]
    rw [h0, mul_comm]
    congr 1
    apply Finset.prod_congr rfl
    intro i _
    have : s + 1 + i = s + (i + 1) := by omega
    rw [this]
    rfl

theorem prodAlong_eq_prod (n : ℕ) (M : QMat) (p : List ℕ) (hp : p.length = n) :
    prodAlong n M p = ∏ i ∈ Finset.range n, M i (nthN p i) := by
  unfold prodAlong
  rw [List.range_eq_range', show n = p.length from hp.symm]
  have := prodAlong_range' M p 0
  simpa using this

theorem perm_range_facts {n : ℕ} {p : List ℕ} (hp : p.Perm (List.range n)) :
    p.length = n ∧ p.Nodup ∧ ∀ r < n, nthN p r < n := by
  have hlen : p.length = n := by rw [hp.length_eq, List.length_range]
  have hnd : p.Nodup := hp.nodup_iff.2 (List.nodup_range n)
  refine ⟨hlen, hnd, fun r hr => ?_⟩
  have : nthN p r ∈ p := by
    rw [nthN_eq_getElem p r (by omega)]
    exact List.getElem_mem _
  exact List.mem_range.1 (hp.mem_iff.1 this)

theorem permCore_eq_permB (n : ℕ) (M : QMat) : permCore n M = permB n M := by
  unfold permCore permB
  rw [sum_map_toFinset _ (nodup_permsL (List.nodup_range n)) _]
  refine Finset.sum_bij
    (i := fun p hp => fun r : Fin n =>
      (⟨nthN p r, (perm_range_facts (mem_permsL_perm (List.mem_toFinset.1 hp))).2.2 r r.2⟩ : Fin n))
    ?_ ?_ ?_ ?_
  · -- maps into the bijection filter
    intro p hp
    obtain ⟨hlen, hnd, hbound⟩ := perm_range_facts (mem_permsL_perm (List.mem_toFinset.1 hp))
    rw [Finset.mem_filter]
    refine ⟨Finset.mem_univ _, ?_⟩
    rw [Fintype.bijective_iff_injective_and_card]
    refine ⟨fun a b hab => ?_, rfl⟩
    have hval : nthN p a = nthN p b := congrArg Fin.val hab
    rw [nthN_eq_getElem p a (by omega), nthN_eq_getElem p b (by omega)] at hval
    have := hnd.getElem_inj_iff.1 hval
    exact Fin.ext this
  · -- injectivity
    intro p1 hp1 p2 hp2 heq
    obtain ⟨hlen1, -, -⟩ := perm_range_facts (mem_permsL_perm (List.mem_toFinset.1 hp1))
    obtain ⟨hlen2, -, -⟩ := perm_range_facts (mem_permsL_perm (List.mem_toFinset.1 hp2))
    apply List.ext_getElem (by omega)
    intro r hr1 hr2
    have := congrFun heq ⟨r, by omega⟩
    have hval : nthN p1 r = nthN p2 r := congrArg Fin.val this
    rw [nthN_eq_getElem p1 r hr1, nthN_eq_getElem p2 r hr2] at hval
    exact hval
  · -- surjectivity
    intro g hg
    have hgbij : Function.Bijective g := (Finset.mem_filter.1 hg).2
    set p := List.ofFn (fun i : Fin n => (g i : ℕ)) with hpdef
    have hplen : p.length = n := by simp [hpdef]
    have hpnodup : p.Nodup := by
      rw [hpdef, List.nodup_ofFn]
      intro a b hab
      exact hgbij.1 (Fin.ext hab)
    have hpsub : p ⊆ List.range n := by
      intro a ha
      rw [hpdef, List.mem_ofFn] at ha
      obtain ⟨i, rfl⟩ := ha
      exact List.mem_range.2 (g i).2
    have hperm : p.Perm (List.range n) :=
      (List.subperm_of_subset hpnodup hpsub).perm_of_length_le (by simp [hplen])
    have hpmem : p ∈ (permsL (List.range n)).toFinset :=
      List.mem_toFinset.2 (mem_permsL_of_perm hperm)
    refine ⟨p, hpmem, ?_⟩
    funext r
    apply Fin.ext
    show nthN p r = (g r : ℕ)
    rw [nthN_eq_getElem p r (by omega)]
    simp [hpdef]
  · -- values agree
    intro p hp
    obtain ⟨hlen, -, -⟩ := perm_range_facts (mem_permsL_perm (List.mem_toFinset.1 hp))
    rw [prodAlong_eq_prod n M p hlen, ← Fin.prod_univ_eq_prod_range]

theorem permB_eq_single (n : ℕ) (M : QMat) (g₀ : Fin n → Fin n)
    (hg₀ : Function.Bijective g₀)
    (h : ∀ g : Fin n → Fin n, Function.Bijective g → g ≠ g₀ → ∃ r : Fin n, M r (g r) = 0) :
    permB n M = ∏ r : Fin n, M r (g₀ r) := by
  unfold permB
  apply Finset.sum_eq_single_of_mem
  · rw [Finset.mem_filter]
    exact ⟨Finset.mem_univ _, hg₀⟩
  · intro g hg hne
    obtain ⟨r, hr⟩ := h g (Finset.mem_filter.1 hg).2 hne
    exact Finset.prod_eq_zero (Finset.mem_univ r) hr

theorem ind_occ_base (npairs norbs : ℕ) (hpn : npairs ≤ norbs) :
    APIG_ind_occ_of norbs (AP1roG_base npairs) = List.range npairs := by
  unfold APIG_ind_occ_of
  rw [List.filter_congr (q := fun j => decide (j < npairs)) ?_]
  · exact filter_range_lt npairs norbs hpn
  · intro j _
    exact pairOcc_base npairs j

theorem range_split (a b : ℕ) (h : a ≤ b) :
    List.range b = List.range a ++ List.range' a (b - a) := by
  conv_lhs => rw [show b = a + (b - a) by omega]
  rw [List.range_add, List.range'_eq_map_range]

theorem ind_occ_excite1 (npairs norbs f t : ℕ) (hf : f < npairs) (ht : npairs ≤ t)
    (htn : t < norbs) :
    APIG_ind_occ_of norbs (excite_pairs (AP1roG_base npairs) [f, t]) =
      ((List.range npairs).filter (fun j => !decide (j = f))) ++ [t] := by
  unfold APIG_ind_occ_of
  rw [range_split npairs norbs (by omega), List.filter_append]
  congr 1
  · rw [List.filter_congr (q := fun j => !decide (j = f)) ?_]
    intro j hj
    have hjn := List.mem_range.1 hj
    rw [pairOcc_excite1 npairs f t j hf ht]
    simp [hjn, show ¬(j = t) by omega]
  · rw [List.filter_congr (q := fun j => decide (j = t)) ?_]
    · exact filter_range'_single npairs (norbs - npairs) t ht (by omega)
    · intro j hj
      have hjn := List.mem_range'_1.1 hj
      rw [pairOcc_excite1 npairs f t j hf ht]
      by_cases hjt : j = t
      · simp [hjt]
      · simp [hjt, show ¬(j < npairs) by omega]

theorem perm_embed_ground (npairs : ℕ) (X : QMat) :
    permCore npairs (colSel (AP1roG_embedC npairs X) (List.range npairs)) = 1 := by
  rw [permCore_eq_permB]
  rw [permB_eq_single npairs _ id Function.bijective_id ?_]
  · apply Finset.prod_eq_one
    intro r _
    simp only [id_eq, colSel, AP1roG_embedC, nthN_range r.2]
    simp [show ¬(npairs ≤ (r:ℕ)) from by omega]
  · intro g hg hne
    have : ∃ r : Fin npairs, g r ≠ r := by
      by_contra hc
      push_neg at hc
      exact hne (funext fun r => hc r)
    obtain ⟨r, hr⟩ := this
    refine ⟨r, ?_⟩
    simp only [colSel, AP1roG_embedC, nthN_range (g r).2]
    have h1 : ¬((r:ℕ) = ((g r):ℕ)) := fun hc => hr (Fin.ext hc.symm)
    simp [h1, show ¬(npairs ≤ ((g r):ℕ)) from by omega]

theorem perm_embed_single (npairs f t : ℕ) (X : QMat) (hf : f < npairs) (ht : npairs ≤ t) :
    permCore npairs (colSel (AP1roG_embedC npairs X)
      (((List.range npairs).filter (fun j => !decide (j = f))) ++ [t])) =
      AP1roG_embedC npairs X f t := by
  set lpre := (List.range npairs).filter (fun j => !decide (j = f)) with hlpre
  have hlen : lpre.length = npairs - 1 := length_filter_ne npairs f hf
  have hnodup : lpre.Nodup := (List.nodup_range npairs).filter _
  have hmem : ∀ j, j ∈ lpre ↔ (j < npairs ∧ j ≠ f) := by
    intro j
    rw [hlpre, List.mem_filter, List.mem_range]
    simp
  -- the column read off by the permanent
  have hcol_last : ∀ c : Fin npairs, (c : ℕ) = npairs - 1 →
      nthN (lpre ++ [t]) c = t := by
    intro c hc
    rw [nthN_append_right (by omega) (by simp; omega), hc, hlen]
    simp [nthN]
  have hcol_pre : ∀ (c : Fin npairs) (hc : (c : ℕ) < npairs - 1),
      nthN (lpre ++ [t]) c = GetElem.getElem lpre (c : ℕ) (by omega) := by
    intro c hc
    rw [nthN_append_left (by omega), nthN_eq_getElem lpre c (by omega)]
  -- entries of the sliced matrix
  have hM_last : ∀ r : Fin npairs, ∀ c : Fin npairs, (c : ℕ) = npairs - 1 →
      colSel (AP1roG_embedC npairs X) (lpre ++ [t]) r c = X r (t - npairs) := by
    intro r c hc
    simp only [colSel, hcol_last c hc, AP1roG_embedC]
    simp [show ¬((r:ℕ) = t) from by omega, ht]
  have hM_pre : ∀ (r : Fin npairs) (c : Fin npairs) (hc : (c : ℕ) < npairs - 1),
      colSel (AP1roG_embedC npairs X) (lpre ++ [t]) r c =
        (if (r : ℕ) = GetElem.getElem lpre (c : ℕ) (by omega) then 1 else 0) := by
    intro r c hc
    have hmem' : GetElem.getElem lpre (c : ℕ) (by omega) ∈ lpre := List.getElem_mem _
    have hbound := (hmem _).1 hmem'
    simp only [colSel, hcol_pre c hc, AP1roG_embedC]
    simp [show ¬(npairs ≤ GetElem.getElem lpre (c : ℕ) (by omega)) from by omega]
  -- the unique surviving assignment
  have hfF : f < npairs := hf
  have hnp1 : npairs - 1 < npairs := by omega
  have hidx : ∀ r : Fin npairs, (r : ℕ) ≠ f → lpre.indexOf (r : ℕ) < npairs - 1 := by
    intro r hr
    have : (r : ℕ) ∈ lpre := (hmem _).2 ⟨r.2, hr⟩
    have := List.indexOf_lt_length.2 this
    omega
  have hidx_get : ∀ r : Fin npairs, ∀ h : (r : ℕ) ∈ lpre,
      GetElem.getElem lpre (lpre.indexOf (r : ℕ)) (List.indexOf_lt_length.2 h) = (r : ℕ) := by
    intro r h
    exact List.getElem_indexOf (List.indexOf_lt_length.2 h)
  let g₀ : Fin npairs → Fin npairs := fun r =>
    if hr : (r : ℕ) = f then ⟨npairs - 1, hnp1⟩
    else ⟨lpre.indexOf (r : ℕ), by have := hidx r hr; omega⟩
  have hg₀f : ∀ r : Fin npairs, (r : ℕ) = f → g₀ r = ⟨npairs - 1, hnp1⟩ := by
    intro r hr
    simp only [g₀, hr, dif_pos]
  have hg₀ne : ∀ r : Fin npairs, (hr : (r : ℕ) ≠ f) →
      g₀ r = ⟨lpre.indexOf (r : ℕ), by have := hidx r hr; omega⟩ := by
    intro r hr
    simp only [g₀, hr, dif_neg, not_false_iff]
  have hg₀bij : Function.Bijective g₀ := by
    rw [Fintype.bijective_iff_injective_and_card]
    refine ⟨fun a b hab => ?_, rfl⟩
    by_cases ha : (a : ℕ) = f <;> by_cases hb : (b : ℕ) = f
    · exact Fin.ext (ha.trans hb.symm)
    · rw [hg₀f a ha, hg₀ne b hb] at hab
      have := congrArg Fin.val hab
      simp at this
      have := hidx b hb
      omega
    · rw [hg₀ne a ha, hg₀f b hb] at hab
      have := congrArg Fin.val hab
      simp at this
      have := hidx a ha
      omega
    · rw [hg₀ne a ha, hg₀ne b hb] at hab
      have hv : lpre.indexOf (a : ℕ) = lpre.indexOf (b : ℕ) := congrArg Fin.val hab
      have hma : (a : ℕ) ∈ lpre := (hmem _).2 ⟨a.2, ha⟩
      have hmb : (b : ℕ) ∈ lpre := (hmem _).2 ⟨b.2, hb⟩
      have h1 := hidx_get a hma
      have h2 := hidx_get b hmb
      have h3 : GetElem.getElem lpre (List.indexOf (↑a) lpre) (List.indexOf_lt_length.2 hma) =
          GetElem.getElem lpre (List.indexOf (↑b) lpre) (List.indexOf_lt_length.2 hmb) := by
        simp only [hv]
      exact Fin.ext (h1.symm.trans (h3.trans h2))
  rw [permCore_eq_permB]
  rw [permB_eq_single npairs _ g₀ hg₀bij ?_]
  · -- evaluate the product along g₀
    have hfFin : (⟨f, hf⟩ : Fin npairs) ∈ (Finset.univ : Finset (Fin npairs)) :=
      Finset.mem_univ _
    rw [Finset.prod_eq_single_of_mem (⟨f, hf⟩ : Fin npairs) hfFin ?_]
    · rw [hM_last ⟨f, hf⟩ (g₀ ⟨f, hf⟩) (by rw [hg₀f ⟨f, hf⟩ rfl])]
      simp only [AP1roG_embedC]
      simp [show ¬(f = t) from by omega, ht]
    · intro r _ hne
      have hr : (r : ℕ) ≠ f := fun hc => hne (Fin.ext hc)
      have hmr : (r : ℕ) ∈ lpre := (hmem _).2 ⟨r.2, hr⟩
      rw [hg₀ne r hr, hM_pre r _ (by simpa using hidx r hr)]
      simp only
      rw [if_pos]
      exact (hidx_get r hmr).symm
  · -- any other bijection hits a zero entry
    intro g hgbij hne
    by_contra hc
    push_neg at hc
    apply hne
    have hgf : g ⟨f, hf⟩ = ⟨npairs - 1, hnp1⟩ := by
      by_contra hgf
      have hlt : ((g ⟨f, hf⟩ : Fin npairs) : ℕ) < npairs - 1 := by
        have h2 := (g ⟨f, hf⟩).2
        have : ((g ⟨f, hf⟩ : Fin npairs) : ℕ) ≠ npairs - 1 :=
          fun hcc => hgf (Fin.ext hcc)
        omega
      have := hc ⟨f, hf⟩
      rw [hM_pre ⟨f, hf⟩ (g ⟨f, hf⟩) hlt] at this
      have hmemc : GetElem.getElem lpre ((g ⟨f, hf⟩ : Fin npairs) : ℕ) (by omega) ∈ lpre :=
        List.getElem_mem _
      have hnf := ((hmem _).1 hmemc).2
      simp only [show (((⟨f, hf⟩ : Fin npairs)) : ℕ) = f from rfl] at this
      rw [if_neg (fun hcc => hnf hcc.symm)] at this
      exact this rfl
    funext r
    by_cases hr : (r : ℕ) = f
    · have : r = ⟨f, hf⟩ := Fin.ext hr
      rw [this, hgf, hg₀f ⟨f, hf⟩ rfl]
    · have hglt : ((g r : Fin npairs) : ℕ) < npairs - 1 := by
        have hne2 : g r ≠ g ⟨f, hf⟩ := fun hcc =>
          hr (congrArg Fin.val (hgbij.1 hcc))
        have : ((g r : Fin npairs) : ℕ) ≠ npairs - 1 := by
          intro hcc
          exact hne2 (Fin.ext (by rw [hcc, hgf]))
        have h2 := (g r).2
        omega
      have := hc r
      rw [hM_pre r (g r) hglt] at this
      have hreq : (r : ℕ) = GetElem.getElem lpre ((g r : Fin npairs) : ℕ) (by omega) := by
        by_contra hcc
        rw [if_neg hcc] at this
        exact this rfl
      have hmr : (r : ℕ) ∈ lpre := (hmem _).2 ⟨r.2, hr⟩
      rw [hg₀ne r hr]
      apply Fin.ext
      simp only
      have h5 := hidx_get r hmr
      rw [show lpre.indexOf (r : ℕ) = lpre.indexOf (GetElem.getElem lpre ((g r : Fin npairs) : ℕ) (by omega))
        from by rw [← hreq]]
      have hmemg : GetElem.getElem lpre ((g r : Fin npairs) : ℕ) (by omega) ∈ lpre := List.getElem_mem _
      have hgoal : lpre.indexOf (GetElem.getElem lpre ((g r : Fin npairs) : ℕ) (by omega)) =
          ((g r : Fin npairs) : ℕ) :=
        hnodup.getElem_inj_iff.1
          (List.getElem_indexOf (List.indexOf_lt_length.2 hmemg))
      rw [hgoal]

theorem excite_pairs_double (npairs f0 f1 t0 t1 : ℕ) (h01 : f0 < f1) (hf : f1 < npairs)
    (ht0 : npairs ≤ t0) (ht1 : t0 < t1) :
    excite_pairs (AP1roG_base npairs) [f0, f1, t0, t1] =
      AP1roG_base npairs ^^^ 2 ^ (2*f0) ^^^ 2 ^ (2*f0+1) ^^^ 2 ^ (2*f1) ^^^ 2 ^ (2*f1+1)
        ||| 2 ^ (2*t0) ||| 2 ^ (2*t0+1) ||| 2 ^ (2*t1) ||| 2 ^ (2*t1+1) := by
  have hr0 : is_occupied (AP1roG_base npairs) (2*f0) = true := by
    simp only [is_occupied, Nat.testBit_xor, base_testBit, Nat.testBit_two_pow]
    simp [show 2*f0 < 2*npairs by omega]
  have hr1 : is_occupied (AP1roG_base npairs ^^^ 2 ^ (2*f0)) (2*f0+1) = true := by
    simp only [is_occupied, Nat.testBit_xor, base_testBit, Nat.testBit_two_pow]
    simp [show 2*f0+1 < 2*npairs by omega, show ¬(2*f0 = 2*f0+1) by omega]
  have hr2 : is_occupied (AP1roG_base npairs ^^^ 2 ^ (2*f0) ^^^ 2 ^ (2*f0+1)) (2*f1) = true := by
    simp only [is_occupied, Nat.testBit_xor, base_testBit, Nat.testBit_two_pow]
    simp [show 2*f1 < 2*npairs by omega, show ¬(2*f0 = 2*f1) by omega, show ¬(2*f0+1 = 2*f1) by omega]
  have hr3 : is_occupied (AP1roG_base npairs ^^^ 2 ^ (2*f0) ^^^ 2 ^ (2*f0+1) ^^^ 2 ^ (2*f1)) (2*f1+1) = true := by
    simp only [is_occupied, Nat.testBit_xor, base_testBit, Nat.testBit_two_pow]
    simp [show 2*f1+1 < 2*npairs by omega, show ¬(2*f0 = 2*f1+1) by omega, show ¬(2*f0+1 = 2*f1+1) by omega, show ¬(2*f1 = 2*f1+1) by omega]
  have ha0 : is_occupied (AP1roG_base npairs ^^^ 2 ^ (2*f0) ^^^ 2 ^ (2*f0+1) ^^^ 2 ^ (2*f1) ^^^ 2 ^ (2*f1+1)) (2*t0) = false := by
    simp only [is_occupied, Nat.testBit_or, Nat.testBit_xor, base_testBit, Nat.testBit_two_pow]
    simp [show ¬(2*t0 < 2*npairs) by omega, show ¬(2*f0 = 2*t0) by omega, show ¬(2*f0+1 = 2*t0) by omega, show ¬(2*f1 = 2*t0) by omega, show ¬(2*f1+1 = 2*t0) by omega]
  have ha1 : is_occupied (AP1roG_base npairs ^^^ 2 ^ (2*f0) ^^^ 2 ^ (2*f0+1) ^^^ 2 ^ (2*f1) ^^^ 2 ^ (2*f1+1) ||| 2 ^ (2*t0)) (2*t0+1) = false := by
    simp only [is_occupied, Nat.testBit_or, Nat.testBit_xor, base_testBit, Nat.testBit_two_pow]
    simp [show ¬(2*t0+1 < 2*npairs) by omega, show ¬(2*f0 = 2*t0+1) by omega, show ¬(2*f0+1 = 2*t0+1) by omega, show ¬(2*f1 = 2*t0+1) by omega, show ¬(2*f1+1 = 2*t0+1) by omega, show ¬(2*t0 = 2*t0+1) by omega]
  have ha2 : is_occupied (AP1roG_base npairs ^^^ 2 ^ (2*f0) ^^^ 2 ^ (2*f0+1) ^^^ 2 ^ (2*f1) ^^^ 2 ^ (2*f1+1) ||| 2 ^ (2*t0) ||| 2 ^ (2*t0+1)) (2*t1) = false := by
    simp only [is_occupied, Nat.testBit_or, Nat.testBit_xor, base_testBit, Nat.testBit_two_pow]
    simp [show ¬(2*t1 < 2*npairs) by omega, show ¬(2*f0 = 2*t1) by omega, show ¬(2*f0+1 = 2*t1) by omega, show ¬(2*f1 = 2*t1) by omega, show ¬(2*f1+1 = 2*t1) by omega, show ¬(2*t0 = 2*t1) by omega, show ¬(2*t0+1 = 2*t1) by omega]
  have ha3 : is_occupied (AP1roG_base npairs ^^^ 2 ^ (2*f0) ^^^ 2 ^ (2*f0+1) ^^^ 2 ^ (2*f1) ^^^ 2 ^ (2*f1+1) ||| 2 ^ (2*t0) ||| 2 ^ (2*t0+1) ||| 2 ^ (2*t1)) (2*t1+1) = false := by
    simp only [is_occupied, Nat.testBit_or, Nat.testBit_xor, base_testBit, Nat.testBit_two_pow]
    simp [show ¬(2*t1+1 < 2*npairs) by omega, show ¬(2*f0 = 2*t1+1) by omega, show ¬(2*f0+1 = 2*t1+1) by omega, show ¬(2*f1 = 2*t1+1) by omega, show ¬(2*f1+1 = 2*t1+1) by omega, show ¬(2*t0 = 2*t1+1) by omega, show ¬(2*t0+1 = 2*t1+1) by omega, show ¬(2*t1 = 2*t1+1) by omega]
  unfold excite_pairs
  simp only [List.length_cons, List.length_nil, pairIndices, List.take_succ_cons,
    List.take_zero, List.drop_succ_cons, List.drop_zero, List.flatMap_cons, List.flatMap_nil,
    List.append_nil]
  simp only [Nat.one_shiftLeft, removeOrbs?, addOrbs?, hr0, hr1, hr2, hr3, ha0, ha1, ha2, ha3, if_true,
    Bool.false_eq_true, if_false, Option.getD_some]

theorem pairOcc_excite2 (npairs f0 f1 t0 t1 j : ℕ) (h01 : f0 < f1) (hf : f1 < npairs)
    (ht0 : npairs ≤ t0) (ht1 : t0 < t1) :
    is_pair_occupied (excite_pairs (AP1roG_base npairs) [f0, f1, t0, t1]) j =
      ((decide (j < npairs) && !decide (j = f0) && !decide (j = f1)) ||
        decide (j = t0) || decide (j = t1)) := by
  rw [excite_pairs_double npairs f0 f1 t0 t1 h01 hf ht0 ht1]
  simp only [is_pair_occupied, Nat.testBit_or, Nat.testBit_xor, base_testBit,
    Nat.testBit_two_pow]
  by_cases h1 : j = f0
  simp [h1, show 2*f0 < 2*npairs by omega, show ¬(2*f0+1 = 2*f0) by omega, show ¬(2*f1 = 2*f0) by omega, show ¬(2*f1+1 = 2*f0) by omega, show ¬(2*t0 = 2*f0) by omega, show ¬(2*t0+1 = 2*f0) by omega, show ¬(2*t1 = 2*f0) by omega, show ¬(2*t1+1 = 2*f0) by omega, show 2*f0+1 < 2*npairs by omega, show ¬(2*f0 = 2*f0+1) by omega, show ¬(2*f1 = 2*f0+1) by omega, show ¬(2*f1+1 = 2*f0+1) by omega, show ¬(2*t0 = 2*f0+1) by omega, show ¬(2*t0+1 = 2*f0+1) by omega, show ¬(2*t1 = 2*f0+1) by omega, show ¬(2*t1+1 = 2*f0+1) by omega, show ¬(f0 = t0) by omega, show ¬(f0 = t1) by omega, show ¬(f0 = f1) by omega]
  by_cases h2 : j = f1
  simp [h2, show 2*f1 < 2*npairs by omega, show ¬(2*f0 = 2*f1) by omega, show ¬(2*f0+1 = 2*f1) by omega, show ¬(2*f1+1 = 2*f1) by omega, show ¬(2*t0 = 2*f1) by omega, show ¬(2*t0+1 = 2*f1) by omega, show ¬(2*t1 = 2*f1) by omega, show ¬(2*t1+1 = 2*f1) by omega, show 2*f1+1 < 2*npairs by omega, show ¬(2*f0 = 2*f1+1) by omega, show ¬(2*f0+1 = 2*f1+1) by omega, show ¬(2*f1 = 2*f1+1) by omega, show ¬(2*t0 = 2*f1+1) by omega, show ¬(2*t0+1 = 2*f1+1) by omega, show ¬(2*t1 = 2*f1+1) by omega, show ¬(2*t1+1 = 2*f1+1) by omega, show ¬(f1 = t0) by omega, show ¬(f1 = t1) by omega, show ¬(f1 = f0) by omega]
  by_cases h3 : j = t0
  simp [h3, show ¬(2*t0 < 2*npairs) by omega, show ¬(2*f0 = 2*t0) by omega, show ¬(2*f0+1 = 2*t0) by omega, show ¬(2*f1 = 2*t0) by omega, show ¬(2*f1+1 = 2*t0) by omega, show ¬(2*t0+1 = 2*t0) by omega, show ¬(2*t1 = 2*t0) by omega, show ¬(2*t1+1 = 2*t0) by omega, show ¬(2*t0+1 < 2*npairs) by omega, show ¬(2*f0 = 2*t0+1) by omega, show ¬(2*f0+1 = 2*t0+1) by omega, show ¬(2*f1 = 2*t0+1) by omega, show ¬(2*f1+1 = 2*t0+1) by omega, show ¬(2*t0 = 2*t0+1) by omega, show ¬(2*t1 = 2*t0+1) by omega, show ¬(2*t1+1 = 2*t0+1) by omega, show ¬(t0 = f0) by omega, show ¬(t0 = f1) by omega, show ¬(t0 = t1) by omega, show ¬(t0 < npairs) by omega]
  by_cases h4 : j = t1
  simp [h4, show ¬(2*t1 < 2*npairs) by omega, show ¬(2*f0 = 2*t1) by omega, show ¬(2*f0+1 = 2*t1) by omega, show ¬(2*f1 = 2*t1) by omega, show ¬(2*f1+1 = 2*t1) by omega, show ¬(2*t0 = 2*t1) by omega, show ¬(2*t0+1 = 2*t1) by omega, show ¬(2*t1+1 = 2*t1) by omega, show ¬(2*t1+1 < 2*npairs) by omega, show ¬(2*f0 = 2*t1+1) by omega, show ¬(2*f0+1 = 2*t1+1) by omega, show ¬(2*f1 = 2*t1+1) by omega, show ¬(2*f1+1 = 2*t1+1) by omega, show ¬(2*t0 = 2*t1+1) by omega, show ¬(2*t0+1 = 2*t1+1) by omega, show ¬(2*t1 = 2*t1+1) by omega, show ¬(t1 = f0) by omega, show ¬(t1 = f1) by omega, show ¬(t1 = t0) by omega, show ¬(t1 < npairs) by omega]
  by_cases h5 : j < npairs
  simp [h1, h2, h3, h4, h5, show 2*j < 2*npairs by omega, show ¬(2*f0 = 2*j) by omega, show ¬(2*f0+1 = 2*j) by omega, show ¬(2*f1 = 2*j) by omega, show ¬(2*f1+1 = 2*j) by omega, show ¬(2*t0 = 2*j) by omega, show ¬(2*t0+1 = 2*j) by omega, show ¬(2*t1 = 2*j) by omega, show ¬(2*t1+1 = 2*j) by omega, show 2*j+1 < 2*npairs by omega, show ¬(2*f0 = 2*j+1) by omega, show ¬(2*f0+1 = 2*j+1) by omega, show ¬(2*f1 = 2*j+1) by omega, show ¬(2*f1+1 = 2*j+1) by omega, show ¬(2*t0 = 2*j+1) by omega, show ¬(2*t0+1 = 2*j+1) by omega, show ¬(2*t1 = 2*j+1) by omega, show ¬(2*t1+1 = 2*j+1) by omega]
  simp [h1, h2, h3, h4, h5, show ¬(2*j < 2*npairs) by omega, show ¬(2*f0 = 2*j) by omega, show ¬(2*f0+1 = 2*j) by omega, show ¬(2*f1 = 2*j) by omega, show ¬(2*f1+1 = 2*j) by omega, show ¬(2*t0 = 2*j) by omega, show ¬(2*t0+1 = 2*j) by omega, show ¬(2*t1 = 2*j) by omega, show ¬(2*t1+1 = 2*j) by omega, show ¬(2*j+1 < 2*npairs) by omega, show ¬(2*f0 = 2*j+1) by omega, show ¬(2*f0+1 = 2*j+1) by omega, show ¬(2*f1 = 2*j+1) by omega, show ¬(2*f1+1 = 2*j+1) by omega, show ¬(2*t0 = 2*j+1) by omega, show ¬(2*t0+1 = 2*j+1) by omega, show ¬(2*t1 = 2*j+1) by omega, show ¬(2*t1+1 = 2*j+1) by omega]

theorem filter_range_pair (n f0 f1 : ℕ) (h01 : f0 < f1) (h1 : f1 < n) :
    (List.range n).filter (fun j => decide (j = f0) || decide (j = f1)) = [f0, f1] := by
  induction n with
  | zero => omega
  | succ n ih =>
    rw [List.range_succ, List.filter_append]
    rcases Nat.lt_or_ge f1 n with hn | hn
    · rw [ih hn]
      simp [show ¬(n = f0) by omega, show ¬(n = f1) by omega]
    · have hf1n : f1 = n := by omega
      subst hf1n
      have : (List.range f1).filter (fun j => decide (j = f0) || decide (j = f1)) =
          (List.range f1).filter (fun j => decide (j = f0)) := by
        apply List.filter_congr
        intro j hj
        have := List.mem_range.1 hj
        simp [show ¬(j = f1) by omega]
      rw [this, filter_range_single f1 f0 h01]
      simp

theorem filter_range'_pair (a b t0 t1 : ℕ) (h0 : a ≤ t0) (h01 : t0 < t1) (h1 : t1 < a + b) :
    (List.range' a b).filter (fun j => decide (j = t0) || decide (j = t1)) = [t0, t1] := by
  induction b generalizing a with
  | zero => omega
  | succ b ih =>
    rw [List.range'_succ]
    rcases Nat.eq_or_lt_of_le h0 with ha | ha
    · subst ha
      rw [List.filter_cons]
      simp only [decide_eq_true_eq]
      have : (List.range' (a+1) b).filter (fun j => decide (j = a) || decide (j = t1)) =
          (List.range' (a+1) b).filter (fun j => decide (j = t1)) := by
        apply List.filter_congr
        intro j hj
        have := (List.mem_range'_1.1 hj).1
        simp [show ¬(j = a) by omega]
      rw [this, filter_range'_single (a+1) b t1 (by omega) (by omega)]
      simp
    · rw [List.filter_cons]
      rw [ih (a+1) (by omega) (by omega)]
      simp [show ¬(a = t0) by omega, show ¬(a = t1) by omega]

theorem from_index_excite2 (npairs f0 f1 t0 t1 : ℕ) (h01 : f0 < f1) (hf : f1 < npairs)
    (ht0 : npairs ≤ t0) (ht1 : t0 < t1) :
    AP1roG_from_index npairs (excite_pairs (AP1roG_base npairs) [f0, f1, t0, t1]) = [f0, f1] := by
  unfold AP1roG_from_index
  rw [List.filter_congr (q := fun j => decide (j = f0) || decide (j = f1)) ?_]
  · exact filter_range_pair npairs f0 f1 h01 hf
  · intro j hj
    have hjn := List.mem_range.1 hj
    rw [pairOcc_excite2 npairs f0 f1 t0 t1 j h01 hf ht0 ht1]
    by_cases hj0 : j = f0
    · simp [hj0, show ¬(f0 = t0) by omega, show ¬(f0 = t1) by omega]
    · by_cases hj1 : j = f1
      · simp [hj1, show ¬(f1 = t0) by omega, show ¬(f1 = t1) by omega]
      · simp [hj0, hj1, hjn, show ¬(j = t0) by omega, show ¬(j = t1) by omega]

theorem to_index_excite2 (npairs norbs f0 f1 t0 t1 : ℕ) (h01 : f0 < f1) (hf : f1 < npairs)
    (ht0 : npairs ≤ t0) (ht1 : t0 < t1) (htn : t1 < norbs) :
    AP1roG_to_index npairs norbs (excite_pairs (AP1roG_base npairs) [f0, f1, t0, t1]) =
      [t0, t1] := by
  unfold AP1roG_to_index
  rw [List.filter_congr (q := fun j => decide (j = t0) || decide (j = t1)) ?_]
  · exact filter_range'_pair npairs (norbs - npairs) t0 t1 ht0 ht1 (by omega)
  · intro j hj
    have hjn := List.mem_range'_1.1 hj
    rw [pairOcc_excite2 npairs f0 f1 t0 t1 j h01 hf ht0 ht1]
    by_cases hj0 : j = t0
    · simp [hj0]
    · by_cases hj1 : j = t1
      · simp [hj1]
      · simp [hj0, hj1, show ¬(j < npairs) by omega]

theorem excite2_ne_zero (npairs f0 f1 t0 t1 : ℕ) (h01 : f0 < f1) (hf : f1 < npairs)
    (ht0 : npairs ≤ t0) (ht1 : t0 < t1) :
    excite_pairs (AP1roG_base npairs) [f0, f1, t0, t1] ≠ 0 := by
  intro h
  have := pairOcc_excite2 npairs f0 f1 t0 t1 t0 h01 hf ht0 ht1
  rw [h] at this
  simp [is_pair_occupied] at this

/-- C1 (amended): for a determinant in the projection space that is a 0- or
1-fold pair excitation of the reference, `AP1roG.overlap` equals the general
APIG permanent of the embedded `I+X` coefficient matrix restricted to the
occupied spatial columns; for a 2-fold pair excitation it equals
`C[f0,t0]*C[f1,t1] - C[f0,t1]*C[f1,t0]` — the alternating-sign form, which
differs from the permanent (whose cross term enters with `+`). -/
theorem c1_amended (npairs norbs : ℕ) (X : QMat) (pspace : List ℕ) (h0 : 0 < npairs)
    (hpn : npairs ≤ norbs) :
    (AP1roG_base npairs ∈ pspace →
      AP1roG_overlap npairs norbs pspace (AP1roG_base npairs) (AP1roG_embedC npairs X)
          false (0, 0) =
        APIG_permanent npairs (APIG_ind_occ_of norbs (AP1roG_base npairs)).length
          (colSel (AP1roG_embedC npairs X) (APIG_ind_occ_of norbs (AP1roG_base npairs)))) ∧
    (∀ f t, f < npairs → npairs ≤ t → t < norbs →
      excite_pairs (AP1roG_base npairs) [f, t] ∈ pspace →
      AP1roG_overlap npairs norbs pspace (excite_pairs (AP1roG_base npairs) [f, t])
          (AP1roG_embedC npairs X) false (0, 0) =
        APIG_permanent npairs
          (APIG_ind_occ_of norbs (excite_pairs (AP1roG_base npairs) [f, t])).length
          (colSel (AP1roG_embedC npairs X)
            (APIG_ind_occ_of norbs (excite_pairs (AP1roG_base npairs) [f, t])))) ∧
    (∀ f0 f1 t0 t1, f0 < f1 → f1 < npairs → npairs ≤ t0 → t0 < t1 → t1 < norbs →
      excite_pairs (AP1roG_base npairs) [f0, f1, t0, t1] ∈ pspace →
      AP1roG_overlap npairs norbs pspace (excite_pairs (AP1roG_base npairs) [f0, f1, t0, t1])
          (AP1roG_embedC npairs X) false (0, 0) =
        .ok (AP1roG_embedC npairs X f0 t0 * AP1roG_embedC npairs X f1 t1 -
          AP1roG_embedC npairs X f0 t1 * AP1roG_embedC npairs X f1 t0)) := by
  refine ⟨?_, ?_, ?_⟩
  · intro hmem
    have hbase0 : AP1roG_base npairs ≠ 0 := by
      rw [AP1roG_base_eq]
      have : (1:ℕ) ≤ 2 ^ (2 * npairs) := Nat.one_le_two_pow
      have h2 : (2:ℕ) ^ (2 * npairs) ≠ 1 := by
        apply Nat.ne_of_gt
        exact Nat.one_lt_two_pow_iff.2 (by omega)
      omega
    unfold AP1roG_overlap
    rw [if_neg hbase0, if_neg (not_not.2 hmem)]
    simp only [from_index_base, List.length_nil]
    rw [ind_occ_base npairs norbs hpn, List.length_range]
    unfold APIG_permanent
    rw [if_pos rfl, perm_embed_ground npairs X]
    rfl
  · intro f t hf ht htn hmem
    unfold AP1roG_overlap
    rw [if_neg (excite1_ne_zero npairs f t hf ht), if_neg (not_not.2 hmem)]
    simp only [from_index_excite1 npairs f t hf ht,
      to_index_excite1 npairs norbs f t hf ht htn, List.length_cons, List.length_nil]
    rw [ind_occ_excite1 npairs norbs f t hf ht htn]
    rw [List.length_append, length_filter_ne npairs f hf]
    simp only [List.length_cons, List.length_nil]
    have hlen : npairs - 1 + (0 + 1) = npairs := by omega
    rw [hlen]
    unfold APIG_permanent
    rw [if_pos rfl, perm_embed_single npairs f t X hf ht]
    simp [nthN]
  · intro f0 f1 t0 t1 h01 hf ht0 ht1 htn hmem
    unfold AP1roG_overlap
    rw [if_neg (excite2_ne_zero npairs f0 f1 t0 t1 h01 hf ht0 ht1), if_neg (not_not.2 hmem)]
    simp only [from_index_excite2 npairs f0 f1 t0 t1 h01 hf ht0 ht1,
      to_index_excite2 npairs norbs f0 f1 t0 t1 h01 hf ht0 ht1 htn,
      List.length_cons, List.length_nil]
    simp [nthN]

/-- C1 counterexample: at `npairs = 2`, `norbs = 4`,
`X = [[0.1, 0.2], [0.3, 0.4]]` and the doubly pair-excited determinant
`0b11110000 = 240` (placed in the projection space), `AP1roG.overlap`
returns `0.1*0.4 - 0.2*0.3 = -0.02`, while the APIG permanent of the
embedded matrix restricted to the occupied columns is
`0.1*0.4 + 0.2*0.3 = 0.1`; the claim asserts they are equal. -/
theorem c1_counterexample :
    (AP1roG_overlap 2 4 [240] 240 (AP1roG_embedC 2 (mkMat [[1/10, 2/10], [3/10, 4/10]]))
        false (0, 0) =
      .ok (-(1/50) : ℚ)) ∧
    (APIG_permanent 2 (APIG_ind_occ_of 4 240).length
        (colSel (AP1roG_embedC 2 (mkMat [[1/10, 2/10], [3/10, 4/10]])) (APIG_ind_occ_of 4 240)) =
      .ok (1/10 : ℚ)) ∧
    AP1roG_overlap 2 4 [240] 240 (AP1roG_embedC 2 (mkMat [[1/10, 2/10], [3/10, 4/10]]))
        false (0, 0) ≠
      APIG_permanent 2 (APIG_ind_occ_of 4 240).length
        (colSel (AP1roG_embedC 2 (mkMat [[1/10, 2/10], [3/10, 4/10]])) (APIG_ind_occ_of 4 240)) := by
  have e1 : APIG_ind_occ_of 4 240 = [2, 3] := by decide
  have e2 : AP1roG_from_index 2 240 = [0, 1] := by decide
  have e3 : AP1roG_to_index 2 4 240 = [2, 3] := by decide
  have holp : AP1roG_overlap 2 4 [240] 240
      (AP1roG_embedC 2 (mkMat [[1/10, 2/10], [3/10, 4/10]])) false (0, 0) =
      .ok (-(1/50) : ℚ) := by
    unfold AP1roG_overlap
    rw [if_neg (by decide), if_neg (by decide)]
    simp only [e2, e3, List.length_cons, List.length_nil]
    norm_num [nthN, AP1roG_embedC, mkMat, nthQ, nthRow]
  have hperm : APIG_permanent 2 (APIG_ind_occ_of 4 240).length
      (colSel (AP1roG_embedC 2 (mkMat [[1/10, 2/10], [3/10, 4/10]])) (APIG_ind_occ_of 4 240)) =
      .ok (1/10 : ℚ) := by
    rw [e1]
    unfold APIG_permanent
    rw [if_pos (by decide)]
    norm_num [permCore, permsL, insertAll, prodAlong, colSel, nthN, AP1roG_embedC, mkMat,
      nthQ, nthRow, List.range_succ]
  refine ⟨holp, hperm, ?_⟩
  rw [holp, hperm]
  simp only [ne_eq, Except.ok.injEq]
  norm_num

/-- Witness for C1 (amended) at the single pair excitation `0 -> 2` of the
two-pair reference. -/
theorem c1_amended_witness :
    (0 < 2 ∧ 2 ≤ 4 ∧ (0:ℕ) < 2 ∧ 2 ≤ 2 ∧ 2 < 4 ∧
      excite_pairs (AP1roG_base 2) [0, 2] ∈ ([15, 60] : List ℕ)) ∧
      AP1roG_overlap 2 4 [15, 60] (excite_pairs (AP1roG_base 2) [0, 2])
          (AP1roG_embedC 2 (mkMat [[1/10, 2/10], [3/10, 4/10]])) false (0, 0) =
        APIG_permanent 2
          (APIG_ind_occ_of 4 (excite_pairs (AP1roG_base 2) [0, 2])).length
          (colSel (AP1roG_embedC 2 (mkMat [[1/10, 2/10], [3/10, 4/10]]))
            (APIG_ind_occ_of 4 (excite_pairs (AP1roG_base 2) [0, 2]))) :=
  ⟨⟨by decide, by decide, by decide, by decide, by decide, by decide⟩,
    (c1_amended 2 4 (mkMat [[1/10, 2/10], [3/10, 4/10]]) [15, 60] (by decide) (by decide)).2.1
      0 2 (by decide) (by decide) (by decide) (by decide)⟩

/-- Specification of `trailingOnesAux`: below the returned position every bit
of `gc` is set, and the bit at the position is clear. -/
theorem trailingOnesAux_spec : ∀ (fuel gc : ℕ), gc ≤ fuel →
    gc % 2 ^ trailingOnesAux fuel gc = 2 ^ trailingOnesAux fuel gc - 1 ∧
    gc / 2 ^ trailingOnesAux fuel gc % 2 = 0 := by
  intro fuel
  induction fuel with
  | zero =>
      intro gc h
      have : gc = 0 := by omega
      subst this
      simp [trailingOnesAux]
  | succ f ih =>
      intro gc h
      by_cases h2 : gc % 2 = 1
      · have hle : gc / 2 ≤ f := by omega
        obtain ⟨ha, hb⟩ := ih (gc / 2) hle
        have hstep : trailingOnesAux (f + 1) gc = trailingOnesAux f (gc / 2) + 1 := by
          simp [trailingOnesAux, h2]
        rw [hstep]
        set p := trailingOnesAux f (gc / 2) with hp
        have h2p : (2 : ℕ) ^ (p + 1) = 2 * 2 ^ p := by ring
        have hpos : (1 : ℕ) ≤ 2 ^ p := Nat.one_le_two_pow
        have hq := Nat.div_add_mod (gc / 2) (2 ^ p)
        rw [ha] at hq
        set q := gc / 2 / 2 ^ p with hqdef
        have hqq : 2 ^ (p + 1) * q = 2 * (2 ^ p * q) := by rw [h2p]; ring
        have hrep : gc = (2 ^ (p + 1) - 1) + 2 ^ (p + 1) * q := by omega
        have hlt : 2 ^ (p + 1) - 1 < 2 ^ (p + 1) := by omega
        constructor
        · rw [hrep, Nat.add_mul_mod_self_left, Nat.mod_eq_of_lt hlt]
        · rw [hrep, Nat.add_mul_div_left _ _ (by omega : 0 < 2 ^ (p + 1)),
            Nat.div_eq_of_lt hlt]
          simpa using hb
      · have hstep : trailingOnesAux (f + 1) gc = 0 := by
          simp [trailingOnesAux, h2]
        rw [hstep]
        simp only [pow_zero, Nat.mod_one, Nat.div_one]
        omega

/-- Specification of `trailingOnes`. -/
theorem trailingOnes_spec (gc : ℕ) :
    gc % 2 ^ trailingOnes gc = 2 ^ trailingOnes gc - 1 ∧
    gc / 2 ^ trailingOnes gc % 2 = 0 :=
  trailingOnesAux_spec gc gc le_rfl

/-- While the counter has a clear bit among the first `n`, `cur_position`
stays below `n`. -/
theorem trailingOnes_lt (n gc : ℕ) (h : gc < 2 ^ n - 1) : trailingOnes gc < n := by
  by_contra hc
  push_neg at hc
  obtain ⟨ha, _⟩ := trailingOnes_spec gc
  have h1 : (2 : ℕ) ^ n ≤ 2 ^ trailingOnes gc := Nat.pow_le_pow_right (by norm_num) hc
  have h2 : gc % 2 ^ trailingOnes gc ≤ gc := Nat.mod_le _ _
  omega

/-- The canonical decomposition of the counter at `p = trailingOnes gc`. -/
theorem counter_decomp (gc : ℕ) :
    gc = 2 ^ (trailingOnes gc + 1) * (gc / 2 ^ (trailingOnes gc + 1)) +
      (2 ^ trailingOnes gc - 1) := by
  obtain ⟨ha, hb⟩ := trailingOnes_spec gc
  set p := trailingOnes gc with hp
  have h2p : (2 : ℕ) ^ (p + 1) = 2 * 2 ^ p := by ring
  have hpos : (1 : ℕ) ≤ 2 ^ p := Nat.one_le_two_pow
  have hq := Nat.div_add_mod gc (2 ^ p)
  rw [ha] at hq
  have he : gc / 2 ^ p = 2 * (gc / 2 ^ p / 2) := by omega
  have hdd : gc / 2 ^ p / 2 = gc / 2 ^ (p + 1) := by
    rw [Nat.div_div_eq_div_mul, h2p, Nat.mul_comm]
  rw [hdd] at he
  calc gc = 2 ^ p * (gc / 2 ^ p) + (2 ^ p - 1) := by omega
    _ = 2 ^ p * (2 * (gc / 2 ^ (p + 1))) + (2 ^ p - 1) := by rw [← he]
    _ = 2 ^ (p + 1) * (gc / 2 ^ (p + 1)) + (2 ^ p - 1) := by rw [h2p]; ring_nf

/-- The Gray-code update of `permanent_ryser` (clear the trailing ones, set
the next bit) is exactly a binary increment of the counter. -/
theorem ryser_counter_succ (gc : ℕ) :
    gc / 2 ^ (trailingOnes gc + 1) * 2 ^ (trailingOnes gc + 1) + 2 ^ trailingOnes gc
      = gc + 1 := by
  have hd := counter_decomp gc
  set p := trailingOnes gc with hp
  have h2p : (2 : ℕ) ^ (p + 1) = 2 * 2 ^ p := by ring
  have hpos : (1 : ℕ) ≤ 2 ^ p := Nat.one_le_two_pow
  have hc : gc / 2 ^ (p + 1) * 2 ^ (p + 1) = 2 ^ (p + 1) * (gc / 2 ^ (p + 1)) :=
    Nat.mul_comm _ _
  omega

/-- Bits of the counter `t` and of `t + 1` around the pivot
`p = trailingOnes t`: below `p` they flip from set to clear, at `p` from
clear to set, above `p` they agree. -/
theorem testBit_succ_pivot (t i : ℕ) :
    (i < trailingOnes t → (t.testBit i = true ∧ (t + 1).testBit i = false)) ∧
    (i = trailingOnes t → (t.testBit i = false ∧ (t + 1).testBit i = true)) ∧
    (trailingOnes t < i → (t + 1).testBit i = t.testBit i) := by
  have hd := counter_decomp t
  set p := trailingOnes t with hp
  set q := t / 2 ^ (p + 1) with hq
  have hs : t + 1 = 2 ^ (p + 1) * q + 2 ^ p := by
    have hpos : (1 : ℕ) ≤ 2 ^ p := Nat.one_le_two_pow
    omega
  have hlt1 : 2 ^ p - 1 < 2 ^ (p + 1) := by
    have : (2 : ℕ) ^ p ≤ 2 ^ (p + 1) := Nat.pow_le_pow_right (by norm_num) (by omega)
    omega
  have hlt2 : (2 : ℕ) ^ p < 2 ^ (p + 1) := Nat.pow_lt_pow_right (by norm_num) (by omega)
  have hbt : ∀ j, t.testBit j =
      (if j < p + 1 then (2 ^ p - 1).testBit j else q.testBit (j - (p + 1))) := by
    intro j
    conv_lhs => rw [hd]
    exact Nat.testBit_mul_pow_two_add q hlt1 j
  have hbs : ∀ j, (t + 1).testBit j =
      (if j < p + 1 then (2 ^ p : ℕ).testBit j else q.testBit (j - (p + 1))) := by
    intro j
    conv_lhs => rw [hs]
    exact Nat.testBit_mul_pow_two_add q hlt2 j
  refine ⟨fun h => ⟨?_, ?_⟩, fun h => ⟨?_, ?_⟩, fun h => ?_⟩
  · rw [hbt i, if_pos (by omega), Nat.testBit_two_pow_sub_one]
    simpa using h
  · rw [hbs i, if_pos (by omega), Nat.testBit_two_pow]
    simp; omega
  · rw [hbt i, if_pos (by omega), Nat.testBit_two_pow_sub_one]
    simp; omega
  · rw [hbs i, if_pos (by omega), Nat.testBit_two_pow]
    simp [h]
  · rw [hbt i, hbs i, if_neg (by omega), if_neg (by omega)]

/-- Bitwise description of the reflected Gray code. -/
theorem grayOf_testBit (x i : ℕ) :
    (grayOf x).testBit i = ((x.testBit i).xor (x.testBit (i + 1))) := by
  simp [grayOf, Nat.testBit_xor, Nat.testBit_shiftRight, Nat.add_comm 1 i]

/-- Stepping the counter flips exactly the pivot bit of its Gray code. -/
theorem grayOf_succ_flip (t i : ℕ) :
    (grayOf (t + 1)).testBit i =
      (if i = trailingOnes t then !(grayOf t).testBit i else (grayOf t).testBit i) := by
  set p := trailingOnes t with hp
  have h1 := testBit_succ_pivot t i
  have h2 := testBit_succ_pivot t (i + 1)
  rw [grayOf_testBit, grayOf_testBit]
  by_cases hip : i = p
  · rw [if_pos hip]
    obtain ⟨heq, hset⟩ := h1.2.1 hip
    have habove := h2.2.2 (by omega)
    rw [heq, hset, habove]
    cases t.testBit (i + 1) <;> rfl
  · rw [if_neg hip]
    rcases Nat.lt_trichotomy i p with hlt | heq | hgt
    · obtain ⟨ht1, hs1⟩ := h1.1 hlt
      by_cases hi1 : i + 1 < p
      · obtain ⟨ht2, hs2⟩ := h2.1 hi1
        rw [ht1, hs1, ht2, hs2]
        decide
      · have hi1e : i + 1 = p := by omega
        obtain ⟨ht2, hs2⟩ := h2.2.1 hi1e
        rw [ht1, hs1, ht2, hs2]
        decide
    · exact absurd heq hip
    · have ha1 := h1.2.2 hgt
      have ha2 := h2.2.2 (by omega)
      rw [ha1, ha2]

/-- The Gray code of a counter below `2 ^ n` stays below `2 ^ n`. -/
theorem grayOf_lt (n x : ℕ) (h : x < 2 ^ n) : grayOf x < 2 ^ n := by
  have h2 : x >>> 1 < 2 ^ n := by
    rw [Nat.shiftRight_one]
    omega
  exact Nat.xor_lt_two_pow h h2

/-- Halving commutes with the Gray code. -/
theorem grayOf_div2 (x : ℕ) : grayOf x / 2 = grayOf (x / 2) := by
  apply Nat.eq_of_testBit_eq
  intro i
  rw [show grayOf x / 2 = grayOf x >>> 1 from (Nat.shiftRight_one _).symm,
    Nat.testBit_shiftRight, grayOf_testBit, grayOf_testBit,
    show x / 2 = x >>> 1 from (Nat.shiftRight_one _).symm,
    Nat.testBit_shiftRight, Nat.testBit_shiftRight]
  congr 2

/-- Only zero has Gray code zero. -/
theorem grayOf_eq_zero (x : ℕ) (h : grayOf x = 0) : x = 0 := by
  induction x using Nat.strong_induction_on with
  | _ x ih =>
    rcases Nat.eq_zero_or_pos x with h0 | h0
    · exact h0
    · exfalso
      have hhalf : grayOf (x / 2) = 0 := by
        rw [← grayOf_div2, h]
      have hx2 : x / 2 = 0 := by
        rcases Nat.eq_zero_or_pos (x / 2) with h' | h'
        · exact h'
        · exact ih (x / 2) (by omega) hhalf
      have hx1 : x = 1 := by omega
      rw [hx1] at h
      simp [grayOf] at h

/-- The Gray code is injective. -/
theorem grayOf_inj (u v : ℕ) (h : grayOf u = grayOf v) : u = v := by
  induction u using Nat.strong_induction_on generalizing v with
  | _ u ih =>
    rcases Nat.eq_zero_or_pos u with h0 | h0
    · subst h0
      have : grayOf v = 0 := by rw [← h]; simp [grayOf]
      exact (grayOf_eq_zero v this).symm
    · have hhalf : grayOf (u / 2) = grayOf (v / 2) := by
        rw [← grayOf_div2, ← grayOf_div2, h]
      have hdiv : u / 2 = v / 2 := ih (u / 2) (by omega) (v / 2) hhalf
      have hb0 : u.testBit 0 = v.testBit 0 := by
        have hu := grayOf_testBit u 0
        have hv := grayOf_testBit v 0
        rw [h] at hu
        have hb1 : u.testBit 1 = v.testBit 1 := by
          rw [show (1 : ℕ) = 0 + 1 by rfl, Nat.testBit_succ, Nat.testBit_succ, hdiv]
        rw [hv, hb1] at hu
        cases hv' : v.testBit 1 <;> rw [hv'] at hu <;> simp at hu <;> simp [hu]
      have hm : u % 2 = v % 2 := by
        have hu0 : u.testBit 0 = decide (u % 2 = 1) := by
          simp [Nat.testBit_to_div_mod]
        have hv0 : v.testBit 0 = decide (v % 2 = 1) := by
          simp [Nat.testBit_to_div_mod]
        rw [hu0, hv0] at hb0
        rcases Nat.mod_two_eq_zero_or_one u with h' | h' <;>
          rcases Nat.mod_two_eq_zero_or_one v with h'' | h'' <;>
            simp [h', h''] at hb0 ⊢
      omega

/-- The bit counter is insensitive to its fuel argument once the fuel covers
the number. -/
theorem countBitsAux_fuel : ∀ (f1 f2 gc : ℕ), gc ≤ f1 → gc ≤ f2 →
    countBitsAux f1 gc = countBitsAux f2 gc := by
  intro f1
  induction f1 with
  | zero =>
      intro f2 gc h1 h2
      have : gc = 0 := by omega
      subst this
      cases f2 <;> simp [countBitsAux]
  | succ f ih =>
      intro f2 gc h1 h2
      rcases Nat.eq_zero_or_pos gc with h0 | h0
      · subst h0
        cases f2 <;> simp [countBitsAux]
      · obtain ⟨f2', rfl⟩ : ∃ f2', f2 = f2' + 1 := ⟨f2 - 1, by omega⟩
        simp only [countBitsAux]
        rw [ih f2' (gc / 2) (by omega) (by omega)]

/-- Recurrence of the bit counter. -/
theorem countBits_rec (x : ℕ) (hx : 0 < x) :
    countBits x = x % 2 + countBits (x / 2) := by
  unfold countBits
  obtain ⟨f, rfl⟩ : ∃ f, x = f + 1 := ⟨x - 1, by omega⟩
  simp only [countBitsAux]
  rw [if_neg (show ¬(f + 1 = 0) by omega)]
  congr 1
  exact countBitsAux_fuel f ((f + 1) / 2) ((f + 1) / 2) (by omega) le_rfl

/-- Parity of the popcount of the Gray code: it matches the parity of the
counter itself. -/
theorem countBits_grayOf_parity (u : ℕ) : countBits (grayOf u) % 2 = u % 2 := by
  induction u using Nat.strong_induction_on with
  | _ u ih =>
    rcases Nat.eq_zero_or_pos u with h0 | h0
    · subst h0
      simp [grayOf, countBits, countBitsAux]
    · have hmod : grayOf u % 2 = (u % 2 + u / 2 % 2) % 2 := by
        have hb := grayOf_testBit u 0
        have h1 : u.testBit 1 = (u / 2).testBit 0 := by
          rw [show (1 : ℕ) = 0 + 1 by rfl, Nat.testBit_succ]
        rw [h1] at hb
        have e0 : (grayOf u).testBit 0 = decide (grayOf u % 2 = 1) := by
          simp [Nat.testBit_to_div_mod]
        have e1 : u.testBit 0 = decide (u % 2 = 1) := by
          simp [Nat.testBit_to_div_mod]
        have e2 : (u / 2).testBit 0 = decide (u / 2 % 2 = 1) := by
          simp [Nat.testBit_to_div_mod]
        rw [e0, e1, e2] at hb
        have hg2 : grayOf u % 2 < 2 := Nat.mod_lt _ (by norm_num)
        rcases Nat.mod_two_eq_zero_or_one u with h' | h' <;>
          rcases Nat.mod_two_eq_zero_or_one (u / 2) with h'' | h'' <;>
            rcases (show grayOf u % 2 = 0 ∨ grayOf u % 2 = 1 by omega) with hg | hg <;>
              simp [h', h'', hg] at hb ⊢
      rcases Nat.eq_zero_or_pos (grayOf u) with hz | hz
      · exact absurd (grayOf_eq_zero u hz) (by omega)
      · rw [countBits_rec _ hz, grayOf_div2]
        have := ih (u / 2) (by omega)
        omega

/-- The `cur_value` read off the updated boolean array equals the pivot bit
of the Gray code of the incremented counter. -/
theorem curValue_eq_gray (n t : ℕ) (h : t < 2 ^ n - 1) :
    (if trailingOnes t = n - 1 then (t + 1).testBit (n - 1)
      else !((t + 1).testBit (trailingOnes t) && (t + 1).testBit (trailingOnes t + 1)))
    = (grayOf (t + 1)).testBit (trailingOnes t) := by
  set p := trailingOnes t with hp
  have hpn : p < n := trailingOnes_lt n t h
  have hset : (t + 1).testBit p = true := ((testBit_succ_pivot t p).2.1 rfl).2
  rw [grayOf_testBit]
  by_cases hcase : p = n - 1
  · rw [if_pos hcase]
    have hn : p + 1 = n := by omega
    have hhigh : (t + 1).testBit (p + 1) = false := by
      apply Nat.testBit_eq_false_of_lt
      rw [hn]
      omega
    rw [← hcase, hset, hhigh]
    decide
  · rw [if_neg hcase, hset]
    cases hb : (t + 1).testBit (p + 1) <;> decide

/-- Adding or subtracting column `p` moves the masked rowsums from the Gray
code of `t` to the Gray code of `t + 1`. -/
theorem rowsumsAt_step (n : ℕ) (M : QMat) (t : ℕ) (h : t < 2 ^ n - 1) (r : ℕ) :
    (if (grayOf (t + 1)).testBit (trailingOnes t)
      then rowsumsAt n M (grayOf t) r + M r (trailingOnes t)
      else rowsumsAt n M (grayOf t) r - M r (trailingOnes t))
    = rowsumsAt n M (grayOf (t + 1)) r := by
  set p := trailingOnes t with hp
  have hpn : p < n := trailingOnes_lt n t h
  have hmem : p ∈ Finset.range n := Finset.mem_range.2 hpn
  have hsplit : ∀ s : ℕ, rowsumsAt n M s r =
      (∑ j ∈ Finset.range n \ {p}, if s.testBit j then M r j else 0) +
        (if s.testBit p then M r p else 0) := by
    intro s
    exact Finset.sum_eq_sum_diff_singleton_add hmem _
  have hcongr : (∑ j ∈ Finset.range n \ {p}, if (grayOf t).testBit j then M r j else 0) =
      (∑ j ∈ Finset.range n \ {p}, if (grayOf (t + 1)).testBit j then M r j else 0) := by
    apply Finset.sum_congr rfl
    intro j hj
    have hjp : j ≠ p := by
      rcases Finset.mem_sdiff.1 hj with ⟨_, hj2⟩
      simpa using hj2
    rw [grayOf_succ_flip t j, if_neg hjp]
  have hflip : (grayOf (t + 1)).testBit p = !(grayOf t).testBit p := by
    rw [grayOf_succ_flip t p, if_pos rfl]
  rw [hsplit (grayOf t), hsplit (grayOf (t + 1)), hcongr, hflip]
  cases hg : (grayOf t).testBit p
  · simp
  · simp

/-- `np.prod` over the rowsum array as a `Finset` product. -/
theorem prod_map_range (n : ℕ) (f : ℕ → ℚ) :
    ((List.range n).map f).prod = ∏ r ∈ Finset.range n, f r := by
  induction n with
  | zero => simp
  | succ m ih =>
      rw [List.range_succ, List.map_append, List.prod_append, Finset.prod_range_succ, ih]
      simp

/-- The loop guard `all(graycode)` holds exactly at counter `2 ^ n - 1`. -/
theorem ryser_guard_iff (n t : ℕ) (ht : t < 2 ^ n) :
    ((List.range n).all (fun i => t.testBit i) = true) ↔ t = 2 ^ n - 1 := by
  rw [List.all_eq_true]
  constructor
  · intro hall
    apply Nat.eq_of_testBit_eq
    intro i
    by_cases hi : i < n
    · rw [hall i (List.mem_range.2 hi), Nat.testBit_two_pow_sub_one]
      simp [hi]
    · have h1 : (2 : ℕ) ^ n ≤ 2 ^ i := Nat.pow_le_pow_right (by norm_num) (by omega)
      rw [Nat.testBit_eq_false_of_lt (by omega), Nat.testBit_eq_false_of_lt (by omega)]
  · intro heq i hi
    rw [heq, Nat.testBit_two_pow_sub_one]
    simpa using List.mem_range.1 hi

/-- The running sign flag of the loop, at 1-indexed iteration `u`. -/
theorem ryserSign_ite (n u : ℕ) (a b : ℚ) :
    (if (decide ((n + u) % 2 = 0)) = true then a + b else a - b)
      = a + ryserSign n u * b := by
  by_cases h : (n + u) % 2 = 0
  · simp [ryserSign, h]
  · simp [ryserSign, h]
    ring

/-- Empty partial sum. -/
theorem ryserPartial_zero (n : ℕ) (M : QMat) : ryserPartial n M 0 = 0 := by
  simp [ryserPartial]

/-- One more term of the partial sum. -/
theorem ryserPartial_succ (n : ℕ) (M : QMat) (t : ℕ) :
    ryserPartial n M (t + 1) =
      ryserPartial n M t +
        ryserSign n (t + 1) * ∏ r ∈ Finset.range n, rowsumsAt n M (grayOf (t + 1)) r := by
  unfold ryserPartial
  rw [Finset.sum_Icc_succ_top (by omega)]

/-- Main loop invariant of `permanent_ryser`: started at counter `t` with the
matching rowsums, sign and accumulator, the loop returns the full
alternating Gray-code sum. -/
theorem ryserLoop_invariant (n : ℕ) (M : QMat) :
    ∀ fuel t, t < 2 ^ n → 2 ^ n - t ≤ fuel →
    ryserLoop n M fuel t (rowsumsAt n M (grayOf t))
        (decide ((n + (t + 1)) % 2 = 0)) (ryserPartial n M t)
      = ryserPartial n M (2 ^ n - 1) := by
  intro fuel
  induction fuel with
  | zero =>
      intro t h1 h2
      omega
  | succ f ih =>
      intro t h1 h2
      by_cases hend : t = 2 ^ n - 1
      · rw [ryserLoop, if_pos ((ryser_guard_iff n t h1).2 hend), hend]
      · have ht : t < 2 ^ n - 1 := by omega
        rw [ryserLoop,
          if_neg (fun hc => hend ((ryser_guard_iff n t h1).1 hc))]
        simp only [ryser_counter_succ t]
        rw [curValue_eq_gray n t ht]
        simp only [fun r => rowsumsAt_step n M t ht r]
        rw [prod_map_range n (rowsumsAt n M (grayOf (t + 1))), ryserSign_ite,
          ← ryserPartial_succ]
        have hsgn : (!decide ((n + (t + 1)) % 2 = 0)) = decide ((n + (t + 1 + 1)) % 2 = 0) := by
          by_cases h : (n + (t + 1)) % 2 = 0
          · have h2 : ¬((n + (t + 1 + 1)) % 2 = 0) := by omega
            simp [h, h2]
          · have h2 : (n + (t + 1 + 1)) % 2 = 0 := by omega
            simp [h, h2]
        rw [hsgn]
        exact ih (t + 1) (by omega) (by omega)

/-- `permanent_ryser` returns the alternating Gray-code sum. -/
theorem permanent_ryser_eq_graySum (n : ℕ) (M : QMat) (hn : 0 < n) :
    permanent_ryser n M = Except.ok (ryserPartial n M (2 ^ n - 1)) := by
  unfold permanent_ryser
  rw [if_neg (by omega)]
  congr 1
  have h0 : (fun _ : ℕ => (0 : ℚ)) = rowsumsAt n M (grayOf 0) := by
    funext r
    simp [rowsumsAt, grayOf]
  have hs : decide (n % 2 = 1) = decide ((n + (0 + 1)) % 2 = 0) := by
    by_cases h : n % 2 = 1
    · simp [h]; omega
    · have h2 : ¬((n + (0 + 1)) % 2 = 0) := by omega
      simp [h, h2]
  have ha : (0 : ℚ) = ryserPartial n M 0 := (ryserPartial_zero n M).symm
  rw [h0, hs, ha]
  exact ryserLoop_invariant n M (2 ^ n) 0 (Nat.two_pow_pos n)
    (by have := Nat.two_pow_pos n; omega)

/-- Congruence of `(-1)^k` under parity. -/
theorem neg_one_pow_congr (a b : ℕ) (h : a % 2 = b % 2) :
    ((-1 : ℚ)) ^ a = (-1) ^ b := by
  rcases Nat.even_or_odd a with ha | ha
  · have hb : Even b := by
      rw [Nat.even_iff] at ha ⊢
      omega
    rw [ha.neg_one_pow, hb.neg_one_pow]
  · have hb : Odd b := by
      rw [Nat.odd_iff] at ha ⊢
      omega
    rw [ha.neg_one_pow, hb.neg_one_pow]

/-- The loop sign as a power of `-1`. -/
theorem ryserSign_pow (n u : ℕ) : ryserSign n u = (-1 : ℚ) ^ (n + u) := by
  unfold ryserSign
  rcases Nat.even_or_odd (n + u) with h | h
  · rw [if_pos (Nat.even_iff.1 h), h.neg_one_pow]
  · rw [if_neg (by rw [Nat.odd_iff] at h; omega), h.neg_one_pow]

/-- The full partial sum extends to a sum over all counters, the zeroth term
vanishing because the empty rowsums are zero. -/
theorem ryserPartial_full (n : ℕ) (M : QMat) (hn : 0 < n) :
    ryserPartial n M (2 ^ n - 1) =
      ∑ u ∈ Finset.range (2 ^ n),
        ryserSign n u * ∏ r ∈ Finset.range n, rowsumsAt n M (grayOf u) r := by
  have hsplit : Finset.range (2 ^ n) = insert 0 (Finset.Icc 1 (2 ^ n - 1)) := by
    ext x
    simp only [Finset.mem_range, Finset.mem_insert, Finset.mem_Icc]
    have := Nat.two_pow_pos n
    omega
  rw [hsplit, Finset.sum_insert (by simp)]
  have hzero : ∏ r ∈ Finset.range n, rowsumsAt n M (grayOf 0) r = 0 := by
    apply Finset.prod_eq_zero (Finset.mem_range.2 hn)
    simp [rowsumsAt, grayOf]
  rw [hzero, mul_zero, zero_add]
  rfl

/-- Reindexing the Gray-code sum by the Gray code itself. -/
theorem gray_reindex (n : ℕ) (M : QMat) :
    ∑ u ∈ Finset.range (2 ^ n),
        ryserSign n u * ∏ r ∈ Finset.range n, rowsumsAt n M (grayOf u) r
      = ∑ s ∈ Finset.range (2 ^ n),
          (-1 : ℚ) ^ (n + countBits s) * ∏ r ∈ Finset.range n, rowsumsAt n M s r := by
  apply Finset.sum_bij (fun u _ => grayOf u)
  · intro u hu
    exact Finset.mem_range.2 (grayOf_lt n u (Finset.mem_range.1 hu))
  · intro u₁ _ u₂ _ h
    exact grayOf_inj u₁ u₂ h
  · intro b hb
    obtain ⟨a, ha, he⟩ := Finset.surj_on_of_inj_on_of_card_le (fun u _ => grayOf u)
      (fun u hu => Finset.mem_range.2 (grayOf_lt n u (Finset.mem_range.1 hu)))
      (fun u₁ u₂ _ _ h => grayOf_inj u₁ u₂ h) le_rfl b hb
    exact ⟨a, ha, he.symm⟩
  · intro u _
    rw [ryserSign_pow]
    congr 1
    apply neg_one_pow_congr
    have := countBits_grayOf_parity u
    omega

/-- The popcount of a mask below `2 ^ n` as a masked-index sum. -/
theorem countBits_sum (n : ℕ) : ∀ s, s < 2 ^ n →
    countBits s = ∑ j ∈ Finset.range n, if s.testBit j then 1 else 0 := by
  induction n with
  | zero =>
      intro s hs
      have : s = 0 := by omega
      subst this
      simp [countBits, countBitsAux]
  | succ m ih =>
      intro s hs
      rcases Nat.eq_zero_or_pos s with h0 | h0
      · subst h0
        simp [countBits, countBitsAux, Nat.zero_testBit]
      · have h2m : (2 : ℕ) ^ (m + 1) = 2 * 2 ^ m := by ring
        have hdiv : s / 2 < 2 ^ m := by omega
        rw [countBits_rec s h0, ih (s / 2) hdiv, Finset.sum_range_succ']
        have hterm : ∀ j, (if (s / 2).testBit j then (1 : ℕ) else 0)
            = (if s.testBit (j + 1) then 1 else 0) := by
          intro j
          rw [Nat.testBit_succ]
        have hbit0 : (if s.testBit 0 then (1 : ℕ) else 0) = s % 2 := by
          have e : s.testBit 0 = decide (s % 2 = 1) := by
            simp [Nat.testBit_to_div_mod]
          rw [e]
          rcases Nat.mod_two_eq_zero_or_one s with h | h <;> simp [h]
        rw [hbit0]
        have : ∑ j ∈ Finset.range m, (if (s / 2).testBit j then (1 : ℕ) else 0)
            = ∑ j ∈ Finset.range m, (if s.testBit (j + 1) then 1 else 0) :=
          Finset.sum_congr rfl (fun j _ => hterm j)
        omega

/-- Sums of mask-indexed terms become sums over the powerset of `range n`
via the bit-pattern bijection. -/
theorem mask_sum_eq_powerset (n : ℕ) (F : Finset ℕ → ℚ) :
    ∑ s ∈ Finset.range (2 ^ n), F ((Finset.range n).filter (s.testBit ·))
      = ∑ S ∈ (Finset.range n).powerset, F S := by
  have hmem : ∀ s, s ∈ Finset.range (2 ^ n) →
      (Finset.range n).filter (s.testBit ·) ∈ (Finset.range n).powerset :=
    fun s _ => Finset.mem_powerset.2 (Finset.filter_subset _ _)
  have hinj : ∀ s₁ s₂, s₁ ∈ Finset.range (2 ^ n) → s₂ ∈ Finset.range (2 ^ n) →
      (Finset.range n).filter (s₁.testBit ·) = (Finset.range n).filter (s₂.testBit ·) →
      s₁ = s₂ := by
    intro s₁ s₂ h₁ h₂ heq
    apply Nat.eq_of_testBit_eq
    intro i
    by_cases hi : i < n
    · have e₁ : s₁.testBit i ↔ i ∈ (Finset.range n).filter (s₁.testBit ·) := by
        simp [Finset.mem_filter, hi]
      have e₂ : s₂.testBit i ↔ i ∈ (Finset.range n).filter (s₂.testBit ·) := by
        simp [Finset.mem_filter, hi]
      rw [Bool.eq_iff_iff, e₁, e₂, heq]
    · have h1 : (2 : ℕ) ^ n ≤ 2 ^ i := Nat.pow_le_pow_right (by norm_num) (by omega)
      rw [Nat.testBit_eq_false_of_lt (by have := Finset.mem_range.1 h₁; omega),
        Nat.testBit_eq_false_of_lt (by have := Finset.mem_range.1 h₂; omega)]
  apply Finset.sum_bij (fun s _ => (Finset.range n).filter (s.testBit ·)) hmem
    (fun s₁ h₁ s₂ h₂ => hinj s₁ s₂ h₁ h₂)
  · have hsurj : ∀ b ∈ (Finset.range n).powerset, ∃ a, ∃ (_ : a ∈ Finset.range (2 ^ n)),
        b = (Finset.range n).filter (a.testBit ·) :=
      Finset.surj_on_of_inj_on_of_card_le _ hmem (fun s₁ s₂ h₁ h₂ => hinj s₁ s₂ h₁ h₂)
        (by rw [Finset.card_powerset, Finset.card_range, Finset.card_range])
    intro b hb
    obtain ⟨a, ha, he⟩ := hsurj b hb
    exact ⟨a, ha, he.symm⟩
  · intro s _
    rfl

/-- Rational version of the alternating powerset sum. -/
theorem sum_powerset_neg_one_pow_card_q (s : Finset ℕ) :
    ∑ t ∈ s.powerset, (-1 : ℚ) ^ t.card = if s = ∅ then 1 else 0 := by
  have h : ∑ t ∈ s.powerset, (-1 : ℤ) ^ t.card = if s = ∅ then 1 else 0 :=
    Finset.sum_powerset_neg_one_pow_card
  have h2 := congrArg (Int.cast : ℤ → ℚ) h
  push_cast at h2
  rw [h2]

/-- Inclusion–exclusion kernel: summing `(-1)^|S|` over the supersets of `T`
inside `U` vanishes unless `T` is all of `U`. -/
theorem alt_superset_sum (U T : Finset ℕ) (hTU : T ⊆ U) :
    ∑ S ∈ U.powerset, (if T ⊆ S then (-1 : ℚ) ^ S.card else 0)
      = if T = U then (-1 : ℚ) ^ U.card else 0 := by
  rw [← Finset.sum_filter]
  have hbij : ∑ S ∈ U.powerset.filter (T ⊆ ·), (-1 : ℚ) ^ S.card
      = ∑ S' ∈ (U \ T).powerset, (-1 : ℚ) ^ (S'.card + T.card) := by
    apply Finset.sum_nbij' (fun S => S \ T) (fun S' => S' ∪ T)
    · intro S hS
      rcases Finset.mem_filter.1 hS with ⟨hSU, hTS⟩
      exact Finset.mem_powerset.2
        (Finset.sdiff_subset_sdiff (Finset.mem_powerset.1 hSU) le_rfl)
    · intro S' hS'
      have hsub := Finset.mem_powerset.1 hS'
      refine Finset.mem_filter.2 ⟨Finset.mem_powerset.2 ?_, Finset.subset_union_right⟩
      exact Finset.union_subset (hsub.trans (Finset.sdiff_subset)) hTU
    · intro S hS
      rcases Finset.mem_filter.1 hS with ⟨_, hTS⟩
      exact Finset.sdiff_union_of_subset hTS
    · intro S' hS'
      have hsub := Finset.mem_powerset.1 hS'
      apply Finset.union_sdiff_cancel_right
      exact Finset.disjoint_left.2 fun a haS' haT =>
        (Finset.mem_sdiff.1 (hsub haS')).2 haT
    · intro S hS
      rcases Finset.mem_filter.1 hS with ⟨_, hTS⟩
      rw [Finset.card_sdiff_add_card_eq_card hTS]
  rw [hbij]
  have hfac : ∑ S' ∈ (U \ T).powerset, (-1 : ℚ) ^ (S'.card + T.card)
      = (∑ S' ∈ (U \ T).powerset, (-1 : ℚ) ^ S'.card) * (-1 : ℚ) ^ T.card := by
    rw [Finset.sum_mul]
    exact Finset.sum_congr rfl fun S' _ => pow_add (-1 : ℚ) S'.card T.card
  rw [hfac, sum_powerset_neg_one_pow_card_q]
  by_cases hTeq : T = U
  · rw [if_pos hTeq, if_pos (by rw [hTeq]; simp), hTeq]
    ring
  · rw [if_neg hTeq, if_neg, zero_mul]
    rw [Finset.sdiff_eq_empty_iff_subset]
    intro hUT
    exact hTeq (Finset.Subset.antisymm hTU hUT)

/-- Tuples drawn from a subset are the subset-valued tuples among all
tuples drawn from `range n`. -/
theorem piFinset_subset_filter (n : ℕ) (S : Finset ℕ) (hS : S ⊆ Finset.range n) :
    Fintype.piFinset (fun _ : Fin n => S)
      = (Fintype.piFinset (fun _ : Fin n => Finset.range n)).filter
          (fun g => ∀ i, g i ∈ S) := by
  ext g
  simp only [Fintype.mem_piFinset, Finset.mem_filter]
  exact ⟨fun h => ⟨fun i => hS (h i), h⟩, fun h => h.2⟩

/-- Classification of the inner inclusion–exclusion sum over subsets for a
fixed tuple `g`: only tuples whose image is all of `range n` survive. -/
theorem inner_classify (n : ℕ) (g : Fin n → ℕ) (hg : ∀ i, g i ∈ Finset.range n) (P : ℚ) :
    ∑ S ∈ (Finset.range n).powerset,
        (-1 : ℚ) ^ (n + S.card) * (if ∀ i, g i ∈ S then P else 0)
      = if Finset.image g Finset.univ = Finset.range n then P else 0 := by
  have himg : Finset.image g Finset.univ ⊆ Finset.range n :=
    Finset.image_subset_iff.2 fun i _ => hg i
  have hterm : ∀ S ∈ (Finset.range n).powerset,
      (-1 : ℚ) ^ (n + S.card) * (if ∀ i, g i ∈ S then P else 0)
        = (-1 : ℚ) ^ n * ((if Finset.image g Finset.univ ⊆ S then (-1 : ℚ) ^ S.card else 0) * P) := by
    intro S _
    have hcond : (∀ i, g i ∈ S) ↔ Finset.image g Finset.univ ⊆ S := by
      rw [Finset.image_subset_iff]
      simp
    by_cases hc : ∀ i, g i ∈ S
    · rw [if_pos hc, if_pos (hcond.1 hc), pow_add]
      ring
    · rw [if_neg hc, if_neg (fun hsub => hc (hcond.2 hsub))]
      ring
  rw [Finset.sum_congr rfl hterm, ← Finset.mul_sum, ← Finset.sum_mul,
    alt_superset_sum (Finset.range n) (Finset.image g Finset.univ) himg]
  by_cases heq : Finset.image g Finset.univ = Finset.range n
  · rw [if_pos heq, if_pos heq, Finset.card_range]
    have : (-1 : ℚ) ^ n * ((-1 : ℚ) ^ n * P) = ((-1 : ℚ) ^ n * (-1 : ℚ) ^ n) * P := by ring
    rw [this, ← pow_add]
    have heven : Even (n + n) := ⟨n, rfl⟩
    rw [heven.neg_one_pow, one_mul]
  · rw [if_neg heq, if_neg heq]
    ring

/-- The image of `Fin.val` on the universe is `range n`. -/
theorem image_val_univ (n : ℕ) :
    Finset.image Fin.val (Finset.univ : Finset (Fin n)) = Finset.range n := by
  ext j
  simp only [Finset.mem_image, Finset.mem_univ, true_and, Finset.mem_range]
  exact ⟨fun ⟨i, hi⟩ => hi ▸ i.isLt, fun h => ⟨⟨j, h⟩, rfl⟩⟩

/-- Tuples from `range n` covering all of `range n` are exactly the
bijections of `Fin n`, so the surviving sum is the permanent. -/
theorem surviving_sum_eq_permB (n : ℕ) (M : QMat) :
    ∑ g ∈ Fintype.piFinset (fun _ : Fin n => Finset.range n),
        (if Finset.image g Finset.univ = Finset.range n
          then ∏ i : Fin n, M i (g i) else 0)
      = permB n M := by
  rw [← Finset.sum_filter]
  unfold permB
  symm
  apply Finset.sum_bij (fun (h : Fin n → Fin n) _ => (fun i => (h i : ℕ)))
  · intro h hh
    have hbij : Function.Bijective h := (Finset.mem_filter.1 hh).2
    refine Finset.mem_filter.2 ⟨?_, ?_⟩
    · exact Fintype.mem_piFinset.2 fun i => Finset.mem_range.2 (h i).isLt
    · have hcomp : (fun i => ((h i : ℕ))) = Fin.val ∘ h := rfl
      rw [hcomp, ← Finset.image_image, Finset.image_univ_of_surjective hbij.2,
        image_val_univ]
  · intro h₁ _ h₂ _ heq
    funext i
    exact Fin.val_injective (congrFun heq i)
  · intro g hg
    rcases Finset.mem_filter.1 hg with ⟨hgpi, hgimg⟩
    have hlt : ∀ i, g i < n := fun i => Finset.mem_range.1 (Fintype.mem_piFinset.1 hgpi i)
    refine ⟨fun i => ⟨g i, hlt i⟩, ?_, ?_⟩
    · apply Finset.mem_filter.2
      refine ⟨Finset.mem_univ _, ?_⟩
      rw [← Finite.surjective_iff_bijective]
      intro b
      have hb : (b : ℕ) ∈ Finset.image g Finset.univ := by
        rw [hgimg]
        exact Finset.mem_range.2 b.isLt
      rcases Finset.mem_image.1 hb with ⟨i, _, hi⟩
      exact ⟨i, Fin.ext hi⟩
    · rfl
  · intro h _
    rfl

/-- The Ryser inclusion–exclusion identity over subsets of columns. -/
theorem ryser_identity (n : ℕ) (M : QMat) :
    ∑ S ∈ (Finset.range n).powerset,
        (-1 : ℚ) ^ (n + S.card) * ∏ r ∈ Finset.range n, (∑ j ∈ S, M r j)
      = permB n M := by
  have hstep : ∀ S ∈ (Finset.range n).powerset,
      (-1 : ℚ) ^ (n + S.card) * ∏ r ∈ Finset.range n, (∑ j ∈ S, M r j)
        = ∑ g ∈ Fintype.piFinset (fun _ : Fin n => Finset.range n),
            (-1 : ℚ) ^ (n + S.card) *
              (if ∀ i, g i ∈ S then ∏ i : Fin n, M i (g i) else 0) := by
    intro S hS
    rw [← Fin.prod_univ_eq_prod_range (fun r => ∑ j ∈ S, M r j) n,
      Finset.prod_univ_sum, piFinset_subset_filter n S (Finset.mem_powerset.1 hS),
      Finset.sum_filter, Finset.mul_sum]
  rw [Finset.sum_congr rfl hstep, Finset.sum_comm, ← surviving_sum_eq_permB n M]
  apply Finset.sum_congr rfl
  intro g hg
  exact inner_classify n g (Fintype.mem_piFinset.1 hg) _

/-- The accumulated Gray-code sum is the brute-force permanent. -/
theorem ryserPartial_eq_permCore (n : ℕ) (M : QMat) (hn : 0 < n) :
    ryserPartial n M (2 ^ n - 1) = permCore n M := by
  have hterm : ∀ s ∈ Finset.range (2 ^ n),
      (-1 : ℚ) ^ (n + countBits s) * ∏ r ∈ Finset.range n, rowsumsAt n M s r
        = (fun S : Finset ℕ =>
            (-1 : ℚ) ^ (n + S.card) * ∏ r ∈ Finset.range n, (∑ j ∈ S, M r j))
            ((Finset.range n).filter (s.testBit ·)) := by
    intro s hs
    simp only
    have hcard : countBits s = ((Finset.range n).filter (s.testBit ·)).card := by
      rw [countBits_sum n s (Finset.mem_range.1 hs), Finset.card_filter]
    have hrow : ∀ r, rowsumsAt n M s r
        = ∑ j ∈ (Finset.range n).filter (s.testBit ·), M r j := by
      intro r
      rw [Finset.sum_filter]
      rfl
    rw [hcard, Finset.prod_congr rfl fun r _ => hrow r]
  calc ryserPartial n M (2 ^ n - 1)
      = ∑ u ∈ Finset.range (2 ^ n),
          ryserSign n u * ∏ r ∈ Finset.range n, rowsumsAt n M (grayOf u) r :=
        ryserPartial_full n M hn
    _ = ∑ s ∈ Finset.range (2 ^ n),
          (-1 : ℚ) ^ (n + countBits s) * ∏ r ∈ Finset.range n, rowsumsAt n M s r :=
        gray_reindex n M
    _ = ∑ s ∈ Finset.range (2 ^ n),
          (fun S : Finset ℕ =>
            (-1 : ℚ) ^ (n + S.card) * ∏ r ∈ Finset.range n, (∑ j ∈ S, M r j))
            ((Finset.range n).filter (s.testBit ·)) :=
        Finset.sum_congr rfl hterm
    _ = ∑ S ∈ (Finset.range n).powerset,
          (-1 : ℚ) ^ (n + S.card) * ∏ r ∈ Finset.range n, (∑ j ∈ S, M r j) :=
        mask_sum_eq_powerset n (fun S : Finset ℕ =>
          (-1 : ℚ) ^ (n + S.card) * ∏ r ∈ Finset.range n, (∑ j ∈ S, M r j))
    _ = permB n M := ryser_identity n M
    _ = permCore n M := (permCore_eq_permB n M).symm

/-- C4: for every square matrix (of any positive size, the sizes on which
neither function raises), the Gray-code Ryser algorithm and the brute-force
permutation sum return the same permanent. -/
theorem c4_ryser_eq_combinatoric (n : ℕ) (M : QMat) (hn : 0 < n) :
    permanent_ryser n M = permanent_combinatoric n M := by
  rw [permanent_ryser_eq_graySum n M hn]
  unfold permanent_combinatoric
  rw [if_neg (by omega)]
  exact congrArg Except.ok (ryserPartial_eq_permCore n M hn)

/-- Witness for C4 at the concrete 2 × 2 matrix [[1, 2], [3, 4]]. -/
theorem c4_ryser_eq_combinatoric_witness :
    0 < 2 ∧ permanent_ryser 2 (mkMat [[1, 2], [3, 4]])
      = permanent_combinatoric 2 (mkMat [[1, 2], [3, 4]]) :=
  ⟨by decide, c4_ryser_eq_combinatoric 2 (mkMat [[1, 2], [3, 4]]) (by decide)⟩

/-- With a zero Hamiltonian, `phi_H_psi` on the three-pair reference `63`
returns 0 whichever overlap evaluator is in effect, as long as that
evaluator succeeds on `63` (all its occupied pairs leave no vacancy, so no
other overlap is consulted). -/
theorem c3_phi63 (olp : ℕ → Except String ℚ) (w : ℚ) (hw : olp 63 = .ok w) :
    APIG_phi_H_psi 3 (fun _ _ => 0) (fun _ _ _ _ => 0) olp 63 = .ok 0 := by
  unfold APIG_phi_H_psi
  rw [if_pos (by decide)]
  unfold APIG_double_phi_H_psi
  rw [hw]
  have hr : List.range 3 = [0, 1, 2] := by decide
  have h0 : is_pair_occupied 63 0 = true := by decide
  have h1 : is_pair_occupied 63 1 = true := by decide
  have h2 : is_pair_occupied 63 2 = true := by decide
  rw [hr]
  simp [doubleI, doubleA, doubleJ, hr, h0, h1, h2, List.range']

/-- With a zero Hamiltonian, `phi_H_psi` on the empty determinant `0`
returns 0 for any overlap evaluator succeeding on `0` (no pair is occupied,
so the loop body never runs). -/
theorem c3_phi0 (olp : ℕ → Except String ℚ) (w : ℚ) (hw : olp 0 = .ok w) :
    APIG_phi_H_psi 3 (fun _ _ => 0) (fun _ _ _ _ => 0) olp 0 = .ok 0 := by
  unfold APIG_phi_H_psi
  rw [if_pos (by decide)]
  unfold APIG_double_phi_H_psi
  rw [hw]
  have hr : List.range 3 = [0, 1, 2] := by decide
  have h0 : is_pair_occupied 0 0 = false := by decide
  have h1 : is_pair_occupied 0 1 = false := by decide
  have h2 : is_pair_occupied 0 2 = false := by decide
  rw [hr]
  simp [doubleI, h0, h1, h2]

/-- The pre-filter returns 0 on the empty determinant for any matrix,
mode and indices (its popcount is not the electron count). -/
theorem c3_olp_zero (C : QMat) (dv : Bool) (ij : ℕ × ℕ) :
    APIG_overlap 3 3 (some 0) C dv ij = .ok 0 := rfl

/-- The derivative-mode overlap on the reference succeeds for every
coordinate (both dispatch branches return a value). -/
theorem c3_olpD63_ok (C : QMat) (ij : ℕ × ℕ) :
    ∃ w, APIG_overlap 3 3 (some 63) C true ij = .ok w := by
  by_cases hmem : ij.2 ∈ APIG_ind_occ_of 3 63
  · refine ⟨permDerivCore 3 (colSel C (APIG_ind_occ_of 3 63)) ij.1
      (List.indexOf ij.2 (APIG_ind_occ_of 3 63)) / 2, ?_⟩
    simp only [APIG_overlap]
    rw [if_neg (by decide), if_neg (by decide), if_pos trivial, if_pos hmem]
    unfold APIG_permanent_derivative
    rw [if_pos (by decide)]
    rfl
  · refine ⟨0, ?_⟩
    simp only [APIG_overlap]
    rw [if_neg (by decide), if_neg (by decide), if_pos trivial, if_neg hmem]

/-- Value of the derivative-mode overlap at coordinate `(0, 0)` on the
reference, for the coefficient matrix `[[1,2,3],[4,5,6],[7,8,9]]`: half of
`C[1][1]*C[2][2] + C[1][2]*C[2][1] = 45 + 48 = 93`. -/
theorem c3_hw00 :
    APIG_overlap 3 3 (some 63) (reshapeVec 3 [1, 2, 3, 4, 5, 6, 7, 8, 9]) true (0, 0)
      = .ok (93 / 2 : ℚ) := by
  have hocc : APIG_ind_occ_of 3 63 = [0, 1, 2] := by decide
  simp only [APIG_overlap]
  rw [if_neg (by decide), if_neg (by decide), if_pos trivial, if_pos (by decide)]
  unfold APIG_permanent_derivative
  rw [if_pos (by decide)]
  simp only [hocc]
  norm_num [permDerivCore, swap0, colSel, nthN, reshapeVec, nthQ, List.range', Except.map]

/-- With zero Hamiltonian, zero stored `phi_psi_tmp`, zero `energy` and an
all-zero projection list, one Jacobian column is the derivative overlap of
the reference on top of zeros. -/
theorem c3_column (C : QMat) (ij : ℕ × ℕ) (w : ℚ)
    (hw : APIG_overlap 3 3 (some 63) C true ij = .ok w) :
    APIG_jac_column 3 3 (fun _ _ => 0) (fun _ _ _ _ => 0) C 0 [0, 0, 0, 0, 0, 0, 0, 0, 0]
      (List.replicate 9 0) 9 ij = .ok [w, 0, 0, 0, 0, 0, 0, 0, 0] := by
  have hhf : APIG_hf 3 = 63 := by decide
  have hphiD : APIG_phi_H_psi 3 (fun _ _ => 0) (fun _ _ _ _ => 0)
      (fun sd => APIG_overlap 3 3 (some sd) C true ij) 63 = .ok 0 :=
    c3_phi63 _ w hw
  have hphi0D : APIG_phi_H_psi 3 (fun _ _ => 0) (fun _ _ _ _ => 0)
      (fun sd => APIG_overlap 3 3 (some sd) C true ij) 0 = .ok 0 :=
    c3_phi0 _ 0 (c3_olp_zero C true ij)
  have hr8 : List.range (9 - 1) = [0, 1, 2, 3, 4, 5, 6, 7] := by decide
  unfold APIG_jac_column
  simp only [hhf, hw, hr8]
  norm_num [vecE, hphiD, hphi0D, c3_olp_zero, nthN, nthQ, List.replicate]

/-- The plain overlap of the reference against `[[1,2,3],[4,5,6],[7,8,9]]`
is the full 3×3 permanent, 450. -/
theorem c3_holp63 :
    APIG_overlap 3 3 (some 63) (reshapeVec 3 [1, 2, 3, 4, 5, 6, 7, 8, 9]) false (0, 0)
      = .ok (450 : ℚ) := by
  have hocc : APIG_ind_occ_of 3 63 = [0, 1, 2] := by decide
  simp only [APIG_overlap]
  rw [if_neg (by decide), if_neg (by decide), if_neg (by decide)]
  unfold APIG_permanent
  rw [if_pos (by decide)]
  simp only [hocc]
  norm_num [permCore, permsL, insertAll, prodAlong, colSel, nthN, reshapeVec, nthQ,
    List.range_succ]

/-- Symbolic-bump version of the reference overlap: the permanent is affine
in the `(0,0)` coefficient with slope 93. -/
theorem c3_holp63e (e : ℚ) :
    APIG_overlap 3 3 (some 63)
        (reshapeVec 3 ((1 + e) :: [2, 3, 4, 5, 6, 7, 8, 9])) false (0, 0)
      = .ok (450 + 93 * e) := by
  have hocc : APIG_ind_occ_of 3 63 = [0, 1, 2] := by decide
  simp only [APIG_overlap]
  rw [if_neg (by decide), if_neg (by decide), if_neg (by decide)]
  unfold APIG_permanent
  rw [if_pos (by decide)]
  simp only [hocc]
  norm_num [permCore, permsL, insertAll, prodAlong, colSel, nthN, reshapeVec, nthQ,
    List.range_succ]
  ring

/-- The first residual of `nonlin` as a function of a bump `e` on the
`(0, 0)` coefficient: exactly affine with slope 93. -/
theorem c3_nonlin_bump (e : ℚ) :
    (APIG_nonlin 3 3 (fun _ _ => 0) (fun _ _ _ _ => 0)
        ((1 + e) :: [2, 3, 4, 5, 6, 7, 8, 9]) (List.replicate 9 0)).map
      (fun v => nthQ v 0) = Except.ok (449 + 93 * e) := by
  have hhf : APIG_hf 3 = 63 := by decide
  have hphi : APIG_phi_H_psi 3 (fun _ _ => 0) (fun _ _ _ _ => 0)
      (fun sd => APIG_overlap 3 3 (some sd)
        (reshapeVec 3 ((1 + e) :: [2, 3, 4, 5, 6, 7, 8, 9])) false (0, 0)) 63 = .ok 0 :=
    c3_phi63 _ (450 + 93 * e) (c3_holp63e e)
  have hphi0 : APIG_phi_H_psi 3 (fun _ _ => 0) (fun _ _ _ _ => 0)
      (fun sd => APIG_overlap 3 3 (some sd)
        (reshapeVec 3 ((1 + e) :: [2, 3, 4, 5, 6, 7, 8, 9])) false (0 : ℕ × ℕ)) 0 = .ok 0 :=
    c3_phi0 _ 0 (c3_olp_zero _ false _)
  have hr8 : List.range (([(1 : ℚ) + e, 2, 3, 4, 5, 6, 7, 8, 9].length) - 1)
      = [0, 1, 2, 3, 4, 5, 6, 7] := rfl
  simp only [APIG_nonlin, hhf, hphi, c3_holp63e e, hr8]
  norm_num [vecE, hphi, hphi0, c3_olp_zero, nthN, nthQ, List.replicate, Except.map]
  ring_nf

/-- Index access into the all-zero projection list. -/
theorem c3_nth_proj (d : ℕ) : nthN (List.replicate 9 0) d = 0 := by
  simp only [List.replicate]
  rcases d with _|_|_|_|_|_|_|_|_|d <;> simp [nthN]

/-- C3: `nonlin_jac` is not the Jacobian of `nonlin`.  At
`npairs = norbs = 3`, zero Hamiltonian, coefficients `x = [1, ..., 9]` and
an all-zero projection list, the entry `jac[0][0]` returned by `nonlin_jac`
is `93/2` (the halved derivative of the overlap pre-filter), while the
first residual of `nonlin` is exactly affine in the `(0,0)` coefficient
with slope `93`: its true partial derivative is `93 ≠ 93/2`.  (The
returned matrix is stored column by column: entry `[count][d]` is the
source's `jac[d, count]`, so `nthQ (nthRow cols 0) 0` is `jac[0, 0]`.) -/
theorem c3_nonlin_jac_failing_input :
    ((APIG_nonlin_jac 3 3 (fun _ _ => 0) (fun _ _ _ _ => 0)
        [1, 2, 3, 4, 5, 6, 7, 8, 9] (List.replicate 9 0)).map
      (fun cols => nthQ (nthRow cols 0) 0) = Except.ok (93 / 2 : ℚ)) ∧
    (∀ e : ℚ, (APIG_nonlin 3 3 (fun _ _ => 0) (fun _ _ _ _ => 0)
        ((1 + e) :: [2, 3, 4, 5, 6, 7, 8, 9]) (List.replicate 9 0)).map
      (fun v => nthQ v 0) = Except.ok (449 + 93 * e)) ∧
    (93 / 2 : ℚ) ≠ 93 := by
  refine ⟨?_, c3_nonlin_bump, by norm_num⟩
  have hhf : APIG_hf 3 = 63 := by decide
  have hphi : APIG_phi_H_psi 3 (fun _ _ => 0) (fun _ _ _ _ => 0)
      (fun sd => APIG_overlap 3 3 (some sd)
        (reshapeVec 3 [1, 2, 3, 4, 5, 6, 7, 8, 9]) false (0, 0)) 63 = .ok 0 :=
    c3_phi63 _ 450 c3_holp63
  have hlen : ([(1 : ℚ), 2, 3, 4, 5, 6, 7, 8, 9]).length = 9 := rfl
  have hr9 : List.range 9 = [0, 1, 2, 3, 4, 5, 6, 7, 8] := rfl
  have hcols : (List.range 3).flatMap (fun i => (List.range 3).map (fun j => (i, j)))
      = [(0, 0), (0, 1), (0, 2), (1, 0), (1, 1), (1, 2), (2, 0), (2, 1), (2, 2)] := by
    decide
  obtain ⟨w01, hw01⟩ := c3_olpD63_ok (reshapeVec 3 [1, 2, 3, 4, 5, 6, 7, 8, 9]) (0, 1)
  obtain ⟨w02, hw02⟩ := c3_olpD63_ok (reshapeVec 3 [1, 2, 3, 4, 5, 6, 7, 8, 9]) (0, 2)
  obtain ⟨w10, hw10⟩ := c3_olpD63_ok (reshapeVec 3 [1, 2, 3, 4, 5, 6, 7, 8, 9]) (1, 0)
  obtain ⟨w11, hw11⟩ := c3_olpD63_ok (reshapeVec 3 [1, 2, 3, 4, 5, 6, 7, 8, 9]) (1, 1)
  obtain ⟨w12, hw12⟩ := c3_olpD63_ok (reshapeVec 3 [1, 2, 3, 4, 5, 6, 7, 8, 9]) (1, 2)
  obtain ⟨w20, hw20⟩ := c3_olpD63_ok (reshapeVec 3 [1, 2, 3, 4, 5, 6, 7, 8, 9]) (2, 0)
  obtain ⟨w21, hw21⟩ := c3_olpD63_ok (reshapeVec 3 [1, 2, 3, 4, 5, 6, 7, 8, 9]) (2, 1)
  obtain ⟨w22, hw22⟩ := c3_olpD63_ok (reshapeVec 3 [1, 2, 3, 4, 5, 6, 7, 8, 9]) (2, 2)
  have hc00 := c3_column _ (0, 0) _ c3_hw00
  have hc01 := c3_column _ (0, 1) _ hw01
  have hc02 := c3_column _ (0, 2) _ hw02
  have hc10 := c3_column _ (1, 0) _ hw10
  have hc11 := c3_column _ (1, 1) _ hw11
  have hc12 := c3_column _ (1, 2) _ hw12
  have hc20 := c3_column _ (2, 0) _ hw20
  have hc21 := c3_column _ (2, 1) _ hw21
  have hc22 := c3_column _ (2, 2) _ hw22
  simp only [APIG_nonlin_jac, hhf, hphi, hlen, hr9, hcols]
  simp only [vecE, c3_nth_proj, c3_olp_zero]
  simp only [colsE, hc00, hc01, hc02, hc10, hc11, hc12, hc20, hc21, hc22]
  norm_num [Except.map, nthRow, nthQ]

/-- C5 counterexample: at `npairs = 1`, `norbs = 2`, the determinant
`768 = 0b1100000000` (both spin orbitals of spatial orbital 4 occupied)
satisfies the closed-shell pairing invariant at every spatial orbital and
has popcount `nelec = 2`, yet `double_phi_H_psi` raises the non-square
permanent assertion (the overlap's occupied-column scan `range(norbs)`
finds no columns) while `brute_phi_H_psi` returns 0 (its spin-orbital scan
`range(2*norbs)` finds no occupied orbitals, so its loop never runs). -/
theorem c5_counterexample :
    (∀ j, is_occupied 768 (2 * j) = is_occupied 768 (2 * j + 1)) ∧
    countBits 768 = 2 * 1 ∧
    APIG_double_phi_H_psi 2 (fun _ _ => 0) (fun _ _ _ _ => 0)
      (fun d => APIG_overlap 1 2 (some d) (mkMat [[1, 2]]) false (0, 0)) 768
      = .error "Cannot compute the permanent of a non-square matrix." ∧
    APIG_brute_phi_H_psi 2 (fun _ _ => 0) (fun _ _ _ _ => 0)
      (fun d => APIG_overlap 1 2 (some d) (mkMat [[1, 2]]) false (0, 0)) 768
      = .ok 0 ∧
    APIG_double_phi_H_psi 2 (fun _ _ => 0) (fun _ _ _ _ => 0)
      (fun d => APIG_overlap 1 2 (some d) (mkMat [[1, 2]]) false (0, 0)) 768
      ≠ APIG_brute_phi_H_psi 2 (fun _ _ => 0) (fun _ _ _ _ => 0)
        (fun d => APIG_overlap 1 2 (some d) (mkMat [[1, 2]]) false (0, 0)) 768 := by
  have hpair : ∀ j, is_occupied 768 (2 * j) = is_occupied 768 (2 * j + 1) := by
    intro j
    rcases Nat.lt_or_ge j 5 with h | h
    · interval_cases j <;> decide
    · have hb : ∀ m, 10 ≤ m → (768 : ℕ) < 2 ^ m := fun m hm =>
        lt_of_lt_of_le (by norm_num) (Nat.pow_le_pow_right (by norm_num) hm)
      unfold is_occupied
      rw [Nat.testBit_eq_false_of_lt (hb _ (by omega)),
        Nat.testBit_eq_false_of_lt (hb _ (by omega))]
  have hdouble : APIG_double_phi_H_psi 2 (fun _ _ => 0) (fun _ _ _ _ => 0)
      (fun d => APIG_overlap 1 2 (some d) (mkMat [[1, 2]]) false (0, 0)) 768
      = .error "Cannot compute the permanent of a non-square matrix." := by rfl
  have hbrute : APIG_brute_phi_H_psi 2 (fun _ _ => 0) (fun _ _ _ _ => 0)
      (fun d => APIG_overlap 1 2 (some d) (mkMat [[1, 2]]) false (0, 0)) 768
      = .ok 0 := by rfl
  refine ⟨hpair, by decide, hdouble, hbrute, ?_⟩
  rw [hdouble, hbrute]
  exact fun hc => Except.noConfusion hc

/-- A map-sum vanishes when every term does. -/
theorem sum_map_zero {f : ℕ → ℚ} : ∀ {L : List ℕ}, (∀ x ∈ L, f x = 0) →
    (L.map f).sum = 0
  | [], _ => rfl
  | x :: xs, h => by
    simp only [List.map_cons, List.sum_cons, h x (by simp)]
    rw [sum_map_zero (fun y hy => h y (by simp [hy]))]
    ring

/-- A map-sum over a duplicate-free list collapses to its single surviving
term. -/
theorem sum_map_single {f : ℕ → ℚ} {y : ℕ} : ∀ {L : List ℕ}, L.Nodup → y ∈ L →
    (∀ x ∈ L, x ≠ y → f x = 0) → (L.map f).sum = f y := by
  intro L
  induction L with
  | nil => intro _ h; exact absurd h (by simp)
  | cons x xs ih =>
    intro hnd hmem hz
    rcases List.mem_cons.1 hmem with rfl | hmem'
    · simp only [List.map_cons, List.sum_cons]
      rw [sum_map_zero (fun z hz' => hz z (by simp [hz'])
        (fun hc => (List.nodup_cons.1 hnd).1 (hc ▸ hz')))]
      ring
    · simp only [List.map_cons, List.sum_cons]
      rw [ih (List.nodup_cons.1 hnd).2 hmem'
        (fun z hz' hne => hz z (by simp [hz']) hne),
        hz x (by simp) (fun hc => (List.nodup_cons.1 hnd).1 (hc ▸ hmem'))]
      ring

/-- Sum of a two-spin map over the paired flattening. -/
theorem sum_map_flat_pairs (g : ℕ → ℚ) : ∀ (P : List ℕ),
    ((P.flatMap (fun p => [2 * p, 2 * p + 1])).map g).sum
      = (P.map (fun p => g (2 * p) + g (2 * p + 1))).sum
  | [] => rfl
  | p :: ps => by
    simp only [List.flatMap_cons, List.map_append, List.sum_append, List.map_cons,
      List.sum_cons, List.map_nil, List.sum_nil, sum_map_flat_pairs g ps]
    ring

/-- A sorted duplicate-free list is strictly increasing. -/
theorem pairwise_lt_of_sorted_nodup {L : List ℕ} (hs : L.Sorted (· ≤ ·))
    (hn : L.Nodup) : L.Pairwise (· < ·) :=
  (hs.and hn).imp (fun h => lt_of_le_of_ne h.1 h.2)

/-- The occupied spin orbitals of a seniority-zero determinant are exactly
the paired flattening of its occupied spatial orbitals. -/
theorem occ_flat_pairs (sd : ℕ) (hsen : ∀ j, sd.testBit (2 * j) = sd.testBit (2 * j + 1)) :
    ∀ n, (List.range (2 * n)).filter (fun t => is_occupied sd t)
      = ((List.range n).filter (fun p => is_pair_occupied sd p)).flatMap
          (fun p => [2 * p, 2 * p + 1]) := by
  intro n
  induction n with
  | zero => rfl
  | succ m ih =>
    have hbit : sd.testBit (2 * m) = sd.testBit (2 * m + 1) := hsen m
    have e1 : List.range (2 * (m + 1)) = List.range (2 * m) ++ [2 * m, 2 * m + 1] := by
      rw [show 2 * (m + 1) = 2 * m + 1 + 1 by ring, List.range_succ, List.range_succ]
      simp
    have e2 : List.range (m + 1) = List.range m ++ [m] := List.range_succ m
    rw [e1, e2, List.filter_append, List.filter_append, List.flatMap_append, ih]
    congr 1
    by_cases hp : is_pair_occupied sd m = true
    · have hp2 := hp
      unfold is_pair_occupied at hp2
      rw [Bool.and_eq_true] at hp2
      have hb1 : is_occupied sd (2 * m) = true := hp2.1
      have hb2 : is_occupied sd (2 * m + 1) = true := hp2.2
      simp [List.filter, hp, hb1, hb2]
    · have hb1 : is_occupied sd (2 * m) = false := by
        unfold is_pair_occupied at hp
        unfold is_occupied
        cases hbt : sd.testBit (2 * m)
        · rfl
        · exact absurd (by rw [hbt, ← hbit, hbt]; rfl) hp
      have hb2 : is_occupied sd (2 * m + 1) = false := by
        unfold is_occupied
        rw [← hbit]
        exact hb1
      simp [List.filter, hp, hb1, hb2]

/-- Exciting an occupied orbital into itself is the identity. -/
theorem excite_orbs_self (d i : ℕ) (h : d.testBit i = true) : excite_orbs d i i = d := by
  have h1 : excite_orbs d i i = ((d ^^^ 1 <<< i) ||| 1 <<< i) := by
    unfold excite_orbs
    rw [show removeOrbs? d [i] = some (d ^^^ 1 <<< i) by
      unfold removeOrbs?
      rw [if_pos (by simpa [is_occupied] using h)]
      rfl]
    show (addOrbs? (d ^^^ 1 <<< i) [i]).getD 0 = _
    rw [show addOrbs? (d ^^^ 1 <<< i) [i] = some ((d ^^^ 1 <<< i) ||| 1 <<< i) by
      unfold addOrbs?
      rw [if_neg (by simp [is_occupied, Nat.testBit_xor, Nat.one_shiftLeft,
        Nat.testBit_two_pow, h])]
      rfl]
    rfl
  rw [h1]
  apply Nat.eq_of_testBit_eq
  intro t
  simp only [Nat.testBit_or, Nat.testBit_xor, Nat.one_shiftLeft, Nat.testBit_two_pow]
  by_cases ht : t = i
  · subst ht
    simp [h]
  · simp [Ne.symm ht]

/-- Bit description of a proper single excitation `i → k`. -/
theorem excite_orbs_testBit (d i k : ℕ) (hik : i ≠ k) (hi : d.testBit i = true)
    (hk : d.testBit k = false) (t : ℕ) :
    (excite_orbs d i k).testBit t =
      (if t = i then false else if t = k then true else d.testBit t) := by
  have h1 : excite_orbs d i k = ((d ^^^ 1 <<< i) ||| 1 <<< k) := by
    unfold excite_orbs
    rw [show removeOrbs? d [i] = some (d ^^^ 1 <<< i) by
      unfold removeOrbs?
      rw [if_pos (by simpa [is_occupied] using hi)]
      rfl]
    show (addOrbs? (d ^^^ 1 <<< i) [k]).getD 0 = _
    rw [show addOrbs? (d ^^^ 1 <<< i) [k] = some ((d ^^^ 1 <<< i) ||| 1 <<< k) by
      unfold addOrbs?
      rw [if_neg (by simp [is_occupied, Nat.testBit_xor, Nat.one_shiftLeft,
        Nat.testBit_two_pow, hk, hik])]
      rfl]
    rfl
  rw [h1]
  simp only [Nat.testBit_or, Nat.testBit_xor, Nat.one_shiftLeft, Nat.testBit_two_pow]
  by_cases hti : t = i
  · subst hti
    simp [hi, Ne.symm hik, hik]
  · by_cases htk : t = k
    · subst htk
      simp [hti, Ne.symm hti]
    · simp [Ne.symm hti, Ne.symm htk, hti, htk]

/-- A proper excitation keeps the determinant inside the bit range. -/
theorem excite_orbs_lt (d i k m : ℕ) (hik : i ≠ k) (hi : d.testBit i = true)
    (hk : d.testBit k = false) (hd : d < 2 ^ m) (hkm : k < m) :
    excite_orbs d i k < 2 ^ m := by
  apply Nat.lt_pow_two_of_testBit
  intro t ht
  rw [excite_orbs_testBit d i k hik hi hk t]
  by_cases hti : t = i
  · simp [hti]
  · rw [if_neg hti, if_neg (by omega)]
    apply Nat.testBit_eq_false_of_lt
    calc d < 2 ^ m := hd
      _ ≤ 2 ^ t := Nat.pow_le_pow_right (by norm_num) ht

/-- A proper excitation preserves the electron count. -/
theorem countBits_excite (d i k m : ℕ) (hik : i ≠ k) (hi : d.testBit i = true)
    (hk : d.testBit k = false) (hd : d < 2 ^ m) (him : i < m) (hkm : k < m) :
    countBits (excite_orbs d i k) = countBits d := by
  rw [countBits_sum m _ (excite_orbs_lt d i k m hik hi hk hd hkm),
    countBits_sum m d hd]
  have hmi : i ∈ Finset.range m := Finset.mem_range.2 him
  have hmk : k ∈ Finset.range m \ {i} := by
    rw [Finset.mem_sdiff]
    exact ⟨Finset.mem_range.2 hkm, by simp [Ne.symm hik]⟩
  rw [Finset.sum_eq_sum_diff_singleton_add hmi, Finset.sum_eq_sum_diff_singleton_add hmk,
    Finset.sum_eq_sum_diff_singleton_add hmi
      (fun t => if d.testBit t then 1 else 0),
    Finset.sum_eq_sum_diff_singleton_add hmk
      (fun t => if d.testBit t then 1 else 0)]
  have hcong : ∀ t ∈ (Finset.range m \ {i}) \ {k},
      (if (excite_orbs d i k).testBit t then (1 : ℕ) else 0)
        = (if d.testBit t then 1 else 0) := by
    intro t htmem
    rw [Finset.mem_sdiff, Finset.mem_sdiff] at htmem
    have h1 : t ≠ i := by
      have := htmem.1.2
      simpa using this
    have h2 : t ≠ k := by
      have := htmem.2
      simpa using this
    rw [excite_orbs_testBit d i k hik hi hk t, if_neg h1, if_neg h2]
  rw [Finset.sum_congr rfl hcong]
  rw [excite_orbs_testBit d i k hik hi hk i, excite_orbs_testBit d i k hik hi hk k]
  simp [hi, hk, hik, Ne.symm hik]

/-- The overlap pre-filter returns 0 on any determinant that breaks the
pairing invariant at a spatial orbital below `norbs`. -/
theorem olp_breach_zero (npairs norbs : ℕ) (C : QMat) (d : ℕ)
    (h : ∃ j, j < norbs ∧ d.testBit (2 * j) ≠ d.testBit (2 * j + 1)) :
    APIG_overlap npairs norbs (some d) C false (0, 0) = .ok 0 := by
  obtain ⟨j, hj, hne⟩ := h
  simp only [APIG_overlap]
  by_cases hc : countBits d ≠ 2 * npairs
  · rw [if_pos hc]
  · rw [if_neg hc, if_pos ?_]
    rw [List.any_eq_true]
    refine ⟨j, List.mem_range.2 hj, ?_⟩
    simp only [is_occupied, bne_iff_ne]
    rw [show j * 2 = 2 * j by ring]
    exact hne

/-- The sum over an even range groups into spin pairs. -/
theorem sum_range_two_mul (g : ℕ → ℕ) : ∀ n,
    ∑ t ∈ Finset.range (2 * n), g t
      = ∑ j ∈ Finset.range n, (g (2 * j) + g (2 * j + 1)) := by
  intro n
  induction n with
  | zero => rfl
  | succ m ih =>
    rw [show 2 * (m + 1) = 2 * m + 1 + 1 by ring, Finset.sum_range_succ,
      Finset.sum_range_succ, Finset.sum_range_succ, ih]
    ring

/-- Length of a filtered range as a masked sum. -/
theorem length_filter_range (p : ℕ → Bool) : ∀ n,
    ((List.range n).filter p).length = ∑ j ∈ Finset.range n, if p j then 1 else 0 := by
  intro n
  induction n with
  | zero => rfl
  | succ m ih =>
    rw [List.range_succ, List.filter_append, List.length_append, ih,
      Finset.sum_range_succ]
    by_cases hp : p m <;> simp [List.filter, hp]

/-- On an in-range seniority-zero determinant the overlap never raises. -/
theorem olp_ok_any (npairs norbs : ℕ) (C : QMat) (d : ℕ) (hd : d < 2 ^ (2 * norbs))
    (hsen : ∀ j, j < norbs → d.testBit (2 * j) = d.testBit (2 * j + 1)) :
    ∃ v, APIG_overlap npairs norbs (some d) C false (0, 0) = .ok v := by
  by_cases hc : countBits d ≠ 2 * npairs
  · exact ⟨0, by simp only [APIG_overlap]; rw [if_pos hc]⟩
  · push_neg at hc
    have hlen : (APIG_ind_occ_of norbs d).length = npairs := by
      unfold APIG_ind_occ_of
      rw [length_filter_range _ norbs]
      have hsum := countBits_sum (2 * norbs) d hd
      rw [hc, sum_range_two_mul _ norbs] at hsum
      have hterm : ∀ j ∈ Finset.range norbs,
          ((if d.testBit (2 * j) then (1 : ℕ) else 0) +
            (if d.testBit (2 * j + 1) then 1 else 0))
          = 2 * (if is_pair_occupied d j then 1 else 0) := by
        intro j hj
        have he := hsen j (Finset.mem_range.1 hj)
        unfold is_pair_occupied
        cases hb : d.testBit (2 * j)
        · rw [hb] at he
          simp [hb, ← he]
        · rw [hb] at he
          simp [hb, ← he]
      rw [Finset.sum_congr rfl hterm, ← Finset.mul_sum] at hsum
      omega
    refine ⟨permCore npairs (colSel C (APIG_ind_occ_of norbs d)), ?_⟩
    simp only [APIG_overlap]
    rw [if_neg (by omega), if_neg ?_, if_neg (by decide)]
    · unfold APIG_permanent
      rw [hlen, if_pos rfl]
    · rw [Bool.not_eq_true, List.any_eq_false]
      intro j hj
      simp only [is_occupied, bne_iff_ne, not_not]
      rw [show j * 2 = 2 * j by ring]
      exact hsen j (List.mem_range.1 hj)

/-- A proper single spin-orbital excitation of a seniority-zero determinant
has zero overlap: the vacated orbital's spin partner stays occupied, a
pairing breach visible to the pre-filter. -/
theorem olp_single_excite_zero (npairs norbs : ℕ) (C : QMat) (sd : ℕ)
    (hsen : ∀ j, sd.testBit (2 * j) = sd.testBit (2 * j + 1))
    (i k : ℕ) (hik : i ≠ k) (hi : sd.testBit i = true) (hk : sd.testBit k = false)
    (hi2 : i < 2 * norbs) :
    APIG_overlap npairs norbs (some (excite_orbs sd i k)) C false (0, 0) = .ok 0 := by
  apply olp_breach_zero
  have hq := Nat.div_add_mod i 2
  set q := i / 2 with hqdef
  refine ⟨q, by omega, ?_⟩
  rw [excite_orbs_testBit sd i k hik hi hk, excite_orbs_testBit sd i k hik hi hk]
  have hpartner : sd.testBit (2 * q) = sd.testBit (2 * q + 1) := hsen q
  rcases (show i = 2 * q ∨ i = 2 * q + 1 by omega) with hcase | hcase
  · have hpo : sd.testBit (2 * q + 1) = true := by rw [← hpartner, ← hcase]; exact hi
    have hkp : k ≠ 2 * q + 1 := fun hc => by rw [hc] at hk; rw [hk] at hpo; cases hpo
    rw [if_pos (show 2 * q = i by omega), if_neg (show ¬(2 * q + 1 = i) by omega),
      if_neg (Ne.symm hkp), hpo]
    simp
  · have hpo : sd.testBit (2 * q) = true := by rw [hpartner, ← hcase]; exact hi
    have hkp : k ≠ 2 * q := fun hc => by rw [hc] at hk; rw [hk] at hpo; cases hpo
    rw [if_neg (show ¬(2 * q = i) by omega), if_neg (Ne.symm hkp),
      if_pos (show 2 * q + 1 = i by omega), hpo]
    simp

/-- Bit description of the double excitation `i → k`, `j → l` performed as
two nested single excitations (`l = i`, re-adding the first vacated
orbital, is allowed). -/
theorem excite2_testBit (sd i k j l : ℕ) (hik : i ≠ k) (hi : sd.testBit i = true)
    (hk : sd.testBit k = false) (hj : sd.testBit j = true) (hji : j ≠ i) (hjk : j ≠ k)
    (hl : l = i ∨ (sd.testBit l = false ∧ l ≠ k)) (hlj : l ≠ j) (t : ℕ) :
    (excite_orbs (excite_orbs sd i k) j l).testBit t =
      (if t = j then false else if t = l then true
        else if t = i then false else if t = k then true else sd.testBit t) := by
  have hsj : (excite_orbs sd i k).testBit j = true := by
    rw [excite_orbs_testBit sd i k hik hi hk, if_neg hji, if_neg hjk]
    exact hj
  have hsl : (excite_orbs sd i k).testBit l = false := by
    rw [excite_orbs_testBit sd i k hik hi hk]
    rcases hl with rfl | ⟨hl1, hl2⟩
    · rw [if_pos rfl]
    · rw [if_neg (fun hc => by rw [hc] at hl1; rw [hi] at hl1; cases hl1), if_neg hl2]
      exact hl1
  have hjl : j ≠ l := Ne.symm hlj
  rw [excite_orbs_testBit (excite_orbs sd i k) j l hjl hsj hsl t]
  by_cases htj : t = j
  · rw [if_pos htj, if_pos htj]
  · rw [if_neg htj, if_neg htj]
    by_cases htl : t = l
    · rw [if_pos htl, if_pos htl]
    · rw [if_neg htl, if_neg htl, excite_orbs_testBit sd i k hik hi hk t]

/-- A double spin-orbital excitation that is not the identity and not a
completed pair move has zero overlap: some spatial orbital below `norbs`
ends up half occupied. -/
theorem olp_double_excite_zero (npairs norbs : ℕ) (C : QMat) (sd : ℕ)
    (hsen : ∀ j, sd.testBit (2 * j) = sd.testBit (2 * j + 1))
    (i k j l : ℕ) (hik : i ≠ k) (hi : sd.testBit i = true) (hk : sd.testBit k = false)
    (hj : sd.testBit j = true) (hji : j ≠ i) (hjk : j ≠ k)
    (hl : l = i ∨ (sd.testBit l = false ∧ l ≠ k ∧ k < l)) (hlj : l ≠ j)
    (hij : i < j) (hj2 : j < 2 * norbs) (hk2 : k < 2 * norbs)
    (hspecial : ¬(i % 2 = 0 ∧ j = i + 1 ∧ k % 2 = 0 ∧ l = k + 1)) :
    APIG_overlap npairs norbs
      (some (excite_orbs (excite_orbs sd i k) j l)) C false (0, 0) = .ok 0 := by
  have hl' : l = i ∨ (sd.testBit l = false ∧ l ≠ k) := by tauto
  have hbit := excite2_testBit sd i k j l hik hi hk hj hji hjk hl' hlj
  apply olp_breach_zero
  rcases hl with hli | ⟨hlv, hlk, hkl⟩
  · -- l = i : the determinant is sd with j vacated into k; breach at j's pair
    have hli' : i = l := hli.symm
    subst hli'
    have hqj := Nat.div_add_mod j 2
    set qj := j / 2 with hqjdef
    refine ⟨qj, by omega, ?_⟩
    rw [hbit (2 * qj), hbit (2 * qj + 1)]
    have hpartner := hsen qj
    rcases (show j = 2 * qj ∨ j = 2 * qj + 1 by omega) with hcase | hcase
    · -- j even, partner 2qj+1
      have hpo : sd.testBit (2 * qj + 1) = true := by rw [← hpartner, ← hcase]; exact hj
      have hpk : 2 * qj + 1 ≠ k := fun hc => by
        rw [← hc] at hk; rw [hk] at hpo; cases hpo
      rw [if_pos (show 2 * qj = j by omega), if_neg (show ¬(2 * qj + 1 = j) by omega)]
      by_cases hpi : 2 * qj + 1 = i
      · rw [if_pos hpi]
        simp
      · rw [if_neg hpi, if_neg hpi, if_neg hpk, hpo]
        simp
    · -- j odd, partner 2qj
      have hpo : sd.testBit (2 * qj) = true := by rw [hpartner, ← hcase]; exact hj
      have hpk : 2 * qj ≠ k := fun hc => by
        rw [← hc] at hk; rw [hk] at hpo; cases hpo
      rw [if_pos (show 2 * qj + 1 = j by omega), if_neg (show ¬(2 * qj = j) by omega)]
      by_cases hpi : 2 * qj = i
      · rw [if_pos hpi]
        simp
      · rw [if_neg hpi, if_neg hpi, if_neg hpk, hpo]
        simp
  · by_cases hpair : i % 2 = 0 ∧ j = i + 1
    · -- {i, j} is a pair, so {k, l} is not: breach at k's pair
      have hqk := Nat.div_add_mod k 2
      set qk := k / 2 with hqkdef
      refine ⟨qk, by omega, ?_⟩
      rw [hbit (2 * qk), hbit (2 * qk + 1)]
      have hpartner := hsen qk
      rcases (show k = 2 * qk ∨ k = 2 * qk + 1 by omega) with hcase | hcase
      · -- k even, partner 2qk+1 is virtual and distinct from l
        have hpo : sd.testBit (2 * qk + 1) = false := by rw [← hpartner, ← hcase]; exact hk
        have hpl : 2 * qk + 1 ≠ l := by
          intro hc
          exact hspecial ⟨hpair.1, hpair.2, by omega, by omega⟩
        have hpj : 2 * qk + 1 ≠ j := fun hc => by
          rw [← hc] at hj; rw [hj] at hpo; cases hpo
        have hpi : 2 * qk + 1 ≠ i := fun hc => by
          rw [← hc] at hi; rw [hi] at hpo; cases hpo
        rw [if_neg (show ¬(2 * qk = j) by omega), if_neg (show ¬(2 * qk = l) by omega),
          if_neg (show ¬(2 * qk = i) by omega), if_pos (show 2 * qk = k by omega),
          if_neg hpj, if_neg hpl, if_neg hpi,
          if_neg (show ¬(2 * qk + 1 = k) by omega), hpo]
        simp
      · -- k odd, partner 2qk is virtual (l > k rules out l = 2qk)
        have hpo : sd.testBit (2 * qk) = false := by rw [hpartner, ← hcase]; exact hk
        have hpl : 2 * qk ≠ l := by omega
        have hpj : 2 * qk ≠ j := fun hc => by
          rw [← hc] at hj; rw [hj] at hpo; cases hpo
        have hpi : 2 * qk ≠ i := fun hc => by
          rw [← hc] at hi; rw [hi] at hpo; cases hpo
        rw [if_neg hpj, if_neg hpl, if_neg hpi,
          if_neg (show ¬(2 * qk = k) by omega),
          if_neg (show ¬(2 * qk + 1 = j) by omega),
          if_neg (show ¬(2 * qk + 1 = l) by omega),
          if_neg (show ¬(2 * qk + 1 = i) by omega),
          if_pos (show 2 * qk + 1 = k by omega), hpo]
        simp
    · -- {i, j} is not a pair: breach at i's pair
      have hqi := Nat.div_add_mod i 2
      set qi := i / 2 with hqidef
      refine ⟨qi, by omega, ?_⟩
      rw [hbit (2 * qi), hbit (2 * qi + 1)]
      have hpartner := hsen qi
      rcases (show i = 2 * qi ∨ i = 2 * qi + 1 by omega) with hcase | hcase
      · have hpo : sd.testBit (2 * qi + 1) = true := by rw [← hpartner, ← hcase]; exact hi
        have hpj : 2 * qi + 1 ≠ j := by
          intro hc
          exact hpair ⟨by omega, by omega⟩
        have hpl : 2 * qi + 1 ≠ l := fun hc => by
          rw [← hc] at hlv; rw [hlv] at hpo; cases hpo
        have hpk : 2 * qi + 1 ≠ k := fun hc => by
          rw [← hc] at hk; rw [hk] at hpo; cases hpo
        rw [if_neg (show ¬(2 * qi = j) by omega), if_neg (show ¬(2 * qi = l) by
            intro hc; rw [← hc] at hlv; rw [show sd.testBit (2 * qi) = true by
              rw [hpartner]; exact hpo] at hlv; cases hlv),
          if_pos (show 2 * qi = i by omega), if_neg hpj, if_neg hpl,
          if_neg (show ¬(2 * qi + 1 = i) by omega), if_neg hpk, hpo]
        simp
      · have hpo : sd.testBit (2 * qi) = true := by rw [hpartner, ← hcase]; exact hi
        have hpj : 2 * qi ≠ j := by omega
        have hpl : 2 * qi ≠ l := fun hc => by
          rw [← hc] at hlv; rw [hlv] at hpo; cases hpo
        have hpk : 2 * qi ≠ k := fun hc => by
          rw [← hc] at hk; rw [hk] at hpo; cases hpo
        rw [if_neg hpj, if_neg hpl, if_neg (show ¬(2 * qi = i) by omega), if_neg hpk,
          if_neg (show ¬(2 * qi + 1 = j) by omega),
          if_neg (show ¬(2 * qi + 1 = l) by
            intro hc; rw [← hc] at hlv
            rw [show sd.testBit (2 * qi + 1) = true by rw [← hpartner]; exact hpo] at hlv
            cases hlv),
          if_pos (show 2 * qi + 1 = i by omega), hpo]
        simp

/-- The two nested spin excitations `2p → 2a`, `2p+1 → 2a+1` amount to the
spatial pair excitation `p → a`. -/
theorem excite2_eq_excite_pairs (sd p a : ℕ) (h2p : sd.testBit (2 * p) = true)
    (h2p1 : sd.testBit (2 * p + 1) = true) (h2a : sd.testBit (2 * a) = false)
    (h2a1 : sd.testBit (2 * a + 1) = false) :
    excite_orbs (excite_orbs sd (2 * p) (2 * a)) (2 * p + 1) (2 * a + 1)
      = excite_pairs sd [p, a] := by
  have hpa : p ≠ a := fun hc => by rw [hc] at h2p; rw [h2p] at h2a; cases h2a
  have hbit := excite2_testBit sd (2 * p) (2 * a) (2 * p + 1) (2 * a + 1)
    (by omega) h2p h2a h2p1 (by omega) (fun hc => by omega)
    (Or.inr ⟨h2a1, by omega⟩) (by omega)
  have hrhs : excite_pairs sd [p, a]
      = (((sd ^^^ 1 <<< (2 * p)) ^^^ 1 <<< (2 * p + 1)) ||| 1 <<< (2 * a))
          ||| 1 <<< (2 * a + 1) := by
    unfold excite_pairs
    simp only [List.length_cons, List.length_nil]
    rw [show (1 + 1) / 2 = 1 by norm_num]
    rw [show List.take 1 [p, a] = [p] from rfl, show List.drop 1 [p, a] = [a] from rfl]
    rw [show pairIndices [p] = [2 * p, 2 * p + 1] from by simp [pairIndices],
      show pairIndices [a] = [2 * a, 2 * a + 1] from by simp [pairIndices]]
    rw [show removeOrbs? sd [2 * p, 2 * p + 1]
        = some ((sd ^^^ 1 <<< (2 * p)) ^^^ 1 <<< (2 * p + 1)) by
      unfold removeOrbs?
      rw [if_pos (by simpa [is_occupied] using h2p)]
      unfold removeOrbs?
      rw [if_pos (by
        simp [is_occupied, Nat.testBit_xor, Nat.one_shiftLeft, Nat.testBit_two_pow,
          h2p1])]
      rfl]
    show (addOrbs? ((sd ^^^ 1 <<< (2 * p)) ^^^ 1 <<< (2 * p + 1))
      [2 * a, 2 * a + 1]).getD 0 = _
    rw [show addOrbs? ((sd ^^^ 1 <<< (2 * p)) ^^^ 1 <<< (2 * p + 1)) [2 * a, 2 * a + 1]
        = some (((sd ^^^ 1 <<< (2 * p)) ^^^ 1 <<< (2 * p + 1)) ||| 1 <<< (2 * a)
            ||| 1 <<< (2 * a + 1)) by
      unfold addOrbs?
      rw [if_neg (by
        simp [is_occupied, Nat.testBit_xor, Nat.one_shiftLeft, Nat.testBit_two_pow,
          h2a]
        omega)]
      unfold addOrbs?
      rw [if_neg (by
        simp [is_occupied, Nat.testBit_xor, Nat.testBit_or, Nat.one_shiftLeft,
          Nat.testBit_two_pow, h2a1]
        omega)]
      rfl]
    rfl
  rw [hrhs]
  apply Nat.eq_of_testBit_eq
  intro t
  rw [hbit t]
  simp only [Nat.testBit_or, Nat.testBit_xor, Nat.one_shiftLeft, Nat.testBit_two_pow]
  by_cases h1 : t = 2 * p + 1
  · rw [if_pos h1]
    subst h1
    simp [h2p1]
    omega
  · rw [if_neg h1]
    by_cases h2 : t = 2 * a + 1
    · rw [if_pos h2]
      subst h2
      simp [h2a1]
    · rw [if_neg h2]
      by_cases h3 : t = 2 * p
      · rw [if_pos h3]
        subst h3
        simp [h2p]
        omega
      · rw [if_neg h3]
        by_cases h4 : t = 2 * a
        · rw [if_pos h4]
          subst h4
          simp [h2a]
        · rw [if_neg h4]
          simp [show ¬(2 * p = t) by omega, show ¬(2 * p + 1 = t) by omega,
            show ¬(2 * a = t) by omega, show ¬(2 * a + 1 = t) by omega]

/-- Sum over a filtered list as a guarded sum. -/
theorem map_filter_sum (p : ℕ → Bool) (f : ℕ → ℚ) : ∀ (L : List ℕ),
    ((L.filter p).map f).sum = (L.map (fun x => if p x then f x else 0)).sum := by
  intro L
  induction L with
  | nil => rfl
  | cons x xs ih =>
    by_cases hp : p x <;> simp [List.filter, hp, ih]

/-- The virtual spin orbitals of a seniority-zero determinant are the paired
flattening of its vacant spatial orbitals. -/
theorem vir_flat_pairs (sd : ℕ) (hsen : ∀ j, sd.testBit (2 * j) = sd.testBit (2 * j + 1)) :
    ∀ n, (List.range (2 * n)).filter (fun t => !is_occupied sd t)
      = ((List.range n).filter (fun p => !is_pair_occupied sd p)).flatMap
          (fun p => [2 * p, 2 * p + 1]) := by
  intro n
  induction n with
  | zero => rfl
  | succ m ih =>
    have hbit : sd.testBit (2 * m) = sd.testBit (2 * m + 1) := hsen m
    have e1 : List.range (2 * (m + 1)) = List.range (2 * m) ++ [2 * m, 2 * m + 1] := by
      rw [show 2 * (m + 1) = 2 * m + 1 + 1 by ring, List.range_succ, List.range_succ]
      simp
    have e2 : List.range (m + 1) = List.range m ++ [m] := List.range_succ m
    rw [e1, e2, List.filter_append, List.filter_append, List.flatMap_append, ih]
    congr 1
    by_cases hp : is_pair_occupied sd m = true
    · have hp2 := hp
      unfold is_pair_occupied at hp2
      rw [Bool.and_eq_true] at hp2
      have hb1 : is_occupied sd (2 * m) = true := hp2.1
      have hb2 : is_occupied sd (2 * m + 1) = true := hp2.2
      simp [List.filter, hp, hb1, hb2]
    · have hb1 : is_occupied sd (2 * m) = false := by
        unfold is_pair_occupied at hp
        unfold is_occupied
        cases hbt : sd.testBit (2 * m)
        · rfl
        · exact absurd (by rw [hbt, ← hbit, hbt]; rfl) hp
      have hb2 : is_occupied sd (2 * m + 1) = false := by
        unfold is_occupied
        rw [← hbit]
        exact hb1
      simp [List.filter, hp, hb1, hb2]

/-- Paired flattening of a strictly increasing list is strictly
increasing. -/
theorem pairwise_flat_pairs : ∀ {P : List ℕ}, P.Pairwise (· < ·) →
    (P.flatMap (fun p => [2 * p, 2 * p + 1])).Pairwise (· < ·) := by
  intro P
  induction P with
  | nil => intro _; simp
  | cons p ps ih =>
    intro hpw
    rw [List.pairwise_cons] at hpw
    simp only [List.flatMap_cons]
    rw [show [2 * p, 2 * p + 1] ++ ps.flatMap (fun q => [2 * q, 2 * q + 1])
      = 2 * p :: ((2 * p + 1) :: ps.flatMap (fun q => [2 * q, 2 * q + 1])) from rfl]
    refine List.pairwise_cons.2 ⟨?_, List.pairwise_cons.2 ⟨?_, ih hpw.2⟩⟩
    · intro b hb
      rcases List.mem_cons.1 hb with rfl | hb'
      · omega
      · rw [List.mem_flatMap] at hb'
        obtain ⟨q, hq, hbq⟩ := hb'
        have := hpw.1 q hq
        rcases List.mem_cons.1 hbq with rfl | hbq'
        · omega
        · rcases List.mem_cons.1 hbq' with rfl | h
          · omega
          · cases h
    · intro b hb
      rw [List.mem_flatMap] at hb
      obtain ⟨q, hq, hbq⟩ := hb
      have := hpw.1 q hq
      rcases List.mem_cons.1 hbq with rfl | hbq'
      · omega
      · rcases List.mem_cons.1 hbq' with rfl | h
        · omega
        · cases h

/-- The `j`-loop of the fast path as a sum. -/
theorem doubleJ_sum (two : ℕ → ℕ → ℕ → ℕ → ℚ) (olp0 : ℚ) (sd i : ℕ) :
    ∀ L : List ℕ, doubleJ two olp0 sd i L
      = (L.map (fun j => if is_pair_occupied sd j
          then 4 * two i j i j * olp0 - 2 * two i j j i * olp0 else 0)).sum := by
  intro L
  induction L with
  | nil => rfl
  | cons x xs ih =>
    simp only [doubleJ, List.map_cons, List.sum_cons, ih]

/-- The `a`-loop of the fast path as a sum, given overlap values for the
pair-excited determinants. -/
theorem doubleA_sum (two : ℕ → ℕ → ℕ → ℕ → ℚ) (olp : ℕ → Except String ℚ) (sd i : ℕ)
    (W : ℕ → ℚ) :
    ∀ L : List ℕ,
      (∀ a ∈ L, is_pair_occupied sd a = false →
        olp (excite_pairs sd [i, a]) = .ok (W a)) →
      doubleA two olp sd i L
        = .ok ((L.map (fun a => if is_pair_occupied sd a then 0
            else two i i a a * W a)).sum) := by
  intro L
  induction L with
  | nil => intro _; rfl
  | cons x xs ih =>
    intro h
    simp only [doubleA, List.map_cons, List.sum_cons]
    by_cases hx : is_pair_occupied sd x
    · rw [if_neg (by simp [hx]), ih (fun a ha hna => h a (by simp [ha]) hna),
        if_pos hx, zero_add]
    · rw [if_pos (by simp [hx]), h x (by simp) (by simp [hx]),
        ih (fun a ha hna => h a (by simp [ha]) hna), if_neg hx]

/-- The `i`-loop of the fast path as a `hamSum` over the occupied suffix of
the orbital range. -/
theorem doubleI_hamSum (norbs : ℕ) (one : ℕ → ℕ → ℚ) (two : ℕ → ℕ → ℕ → ℕ → ℚ)
    (olp : ℕ → Except String ℚ) (sd : ℕ) (w : ℚ) (W : ℕ → ℕ → ℚ)
    (HW : ∀ p a, is_pair_occupied sd p = true → is_pair_occupied sd a = false → a ∈ List.range norbs →
      olp (excite_pairs sd [p, a]) = .ok (W p a)) :
    ∀ s, s ≤ norbs →
      doubleI norbs one two olp w sd (List.range' s (norbs - s))
        = .ok (hamSum one two w W
            ((List.range norbs).filter (fun a => !is_pair_occupied sd a))
            ((List.range' s (norbs - s)).filter (fun p => is_pair_occupied sd p))) := by
  suffices h : ∀ m s, s ≤ norbs → norbs - s = m →
      doubleI norbs one two olp w sd (List.range' s m)
        = .ok (hamSum one two w W
            ((List.range norbs).filter (fun a => !is_pair_occupied sd a))
            ((List.range' s m).filter (fun p => is_pair_occupied sd p))) by
    intro s hs
    exact h (norbs - s) s hs rfl
  intro m
  induction m with
  | zero =>
    intro s hs hm
    rw [show List.range' s 0 = [] from rfl]
    rfl
  | succ m ih =>
    intro s hs hm
    rw [show List.range' s (m + 1) = s :: List.range' (s + 1) m from rfl]
    simp only [doubleI]
    by_cases hp : is_pair_occupied sd s
    · rw [doubleA_sum two olp sd s
        (fun a => W s a) (List.range norbs)
        (fun a ha hna => HW s a hp hna ha)]
      have hrec := ih (s + 1) (by omega) (by omega)
      rw [if_pos hp, hrec]
      rw [show List.filter (fun p => is_pair_occupied sd p) (s :: List.range' (s + 1) m)
        = s :: List.filter (fun p => is_pair_occupied sd p) (List.range' (s + 1) m) from by
          simp [List.filter, hp]]
      rw [show hamSum one two w W
          ((List.range norbs).filter (fun a => !is_pair_occupied sd a))
          (s :: List.filter (fun p => is_pair_occupied sd p) (List.range' (s + 1) m))
        = 2 * one s s * w + two s s s s * w
          + (((List.range' (s + 1) m).filter (fun p => is_pair_occupied sd p)).map
              (fun q => 4 * two s q s q * w - 2 * two s q q s * w)).sum
          + ((((List.range norbs).filter (fun a => !is_pair_occupied sd a)).map
              (fun a => two s s a a * W s a)).sum)
          + hamSum one two w W ((List.range norbs).filter (fun a => !is_pair_occupied sd a))
              ((List.range' (s + 1) m).filter (fun p => is_pair_occupied sd p)) from rfl]
      congr 1
      rw [doubleJ_sum]
      rw [show norbs - (s + 1) = m by omega]
      rw [map_filter_sum (fun p => is_pair_occupied sd p)
        (fun q => 4 * two s q s q * w - 2 * two s q q s * w) (List.range' (s + 1) m)]
      rw [map_filter_sum (fun a => !is_pair_occupied sd a)
        (fun a => two s s a a * W s a) (List.range norbs)]
      have hA : (List.range norbs).map
          (fun a => if !is_pair_occupied sd a then two s s a a * W s a else 0)
        = (List.range norbs).map
          (fun a => if is_pair_occupied sd a then 0 else two s s a a * W s a) := by
        apply List.map_congr_left
        intro a _
        by_cases hpa : is_pair_occupied sd a <;> simp [hpa]
      rw [hA]
    · have hrec := ih (s + 1) (by omega) (by omega)
      rw [if_neg hp, hrec]
      congr 2
      simp [List.filter, hp]

/-- End of the fast path: the dispatcher's body as a `hamSum`. -/
theorem double_hamSum (norbs : ℕ) (one : ℕ → ℕ → ℚ) (two : ℕ → ℕ → ℕ → ℕ → ℚ)
    (olp : ℕ → Except String ℚ) (sd : ℕ) (w : ℚ) (W : ℕ → ℕ → ℚ)
    (Hw : olp sd = .ok w)
    (HW : ∀ p a, is_pair_occupied sd p = true → is_pair_occupied sd a = false →
      a ∈ List.range norbs → olp (excite_pairs sd [p, a]) = .ok (W p a)) :
    APIG_double_phi_H_psi norbs one two olp sd
      = .ok (hamSum one two w W
          ((List.range norbs).filter (fun a => !is_pair_occupied sd a))
          ((List.range norbs).filter (fun p => is_pair_occupied sd p))) := by
  unfold APIG_double_phi_H_psi
  rw [Hw]
  have h := doubleI_hamSum norbs one two olp sd w W HW 0 (by omega)
  rw [Nat.sub_zero] at h
  rw [show List.range' 0 norbs = List.range norbs from (List.range_eq_range' norbs).symm] at h
  exact h

/-- The innermost `l`-loop of the general path as a sum, given the overlap
value of every double excitation that appears. -/
theorem bruteL_sum (two : ℕ → ℕ → ℕ → ℕ → ℚ) (olp : ℕ → Except String ℚ)
    (single i k j : ℕ) (V : ℕ → ℚ) :
    ∀ L : List ℕ, (∀ l ∈ L, olp (excite_orbs single j l) = .ok (V l)) →
      bruteL two olp single i k j L = .ok ((L.map (fun l =>
        (if i % 2 = k % 2 ∧ j % 2 = l % 2
          then two (i / 2) (j / 2) (k / 2) (l / 2) * V l else 0)
        - (if i % 2 = l % 2 ∧ j % 2 = k % 2
          then two (i / 2) (j / 2) (l / 2) (k / 2) * V l else 0))).sum) := by
  intro L
  induction L with
  | nil => intro _; rfl
  | cons l ls ih =>
    intro h
    simp only [bruteL, List.map_cons, List.sum_cons]
    rw [h l (by simp), ih (fun x hx => h x (by simp [hx]))]
    by_cases hv : V l = 0 <;> simp [hv]

/-- The `j`-loop of the general path as a sum; the sorted inner list is
summed as `j` followed by the suffix `ks`. -/
theorem bruteJ_sum (two : ℕ → ℕ → ℕ → ℕ → ℚ) (olp : ℕ → Except String ℚ)
    (single i k : ℕ) (ks : List ℕ) (V2 : ℕ → ℕ → ℚ) :
    ∀ occTail : List ℕ,
      (∀ j ∈ occTail, ∀ l, (l = j ∨ l ∈ ks) →
        olp (excite_orbs single j l) = .ok (V2 j l)) →
      bruteJ two olp single i k ks occTail = .ok ((occTail.map (fun j =>
        ((if i % 2 = k % 2 ∧ j % 2 = j % 2
            then two (i / 2) (j / 2) (k / 2) (j / 2) * V2 j j else 0)
          - (if i % 2 = j % 2 ∧ j % 2 = k % 2
            then two (i / 2) (j / 2) (j / 2) (k / 2) * V2 j j else 0))
        + ((ks.map (fun l =>
            (if i % 2 = k % 2 ∧ j % 2 = l % 2
              then two (i / 2) (j / 2) (k / 2) (l / 2) * V2 j l else 0)
            - (if i % 2 = l % 2 ∧ j % 2 = k % 2
              then two (i / 2) (j / 2) (l / 2) (k / 2) * V2 j l else 0))).sum))).sum) := by
  intro occTail
  induction occTail with
  | nil => intro _; rfl
  | cons j js ih =>
    intro h
    simp only [bruteJ, List.map_cons, List.sum_cons]
    have hsortperm : (List.insertionSort (· ≤ ·) (j :: ks)).Perm (j :: ks) :=
      List.perm_insertionSort _ _
    rw [bruteL_sum two olp single i k j (V2 j) (List.insertionSort (· ≤ ·) (j :: ks))
      (fun l hl => h j (by simp) l (by
        have := hsortperm.mem_iff.1 hl
        simpa using this))]
    rw [ih (fun x hx l hl => h x (by simp [hx]) l hl)]
    congr 2
    have hmapperm := hsortperm.map (fun l =>
      (if i % 2 = k % 2 ∧ j % 2 = l % 2
        then two (i / 2) (j / 2) (k / 2) (l / 2) * V2 j l else 0)
      - (if i % 2 = l % 2 ∧ j % 2 = k % 2
        then two (i / 2) (j / 2) (l / 2) (k / 2) * V2 j l else 0))
    rw [hmapperm.sum_eq]
    simp only [List.map_cons, List.sum_cons]

/-- The `j`-loop when `k = i` (the untouched determinant): only the `l = j`
identity terms survive, giving the Coulomb/exchange couplings on `w`. -/
theorem bruteJ_identity (npairs norbs : ℕ) (C : QMat)
    (two : ℕ → ℕ → ℕ → ℕ → ℚ) (sd : ℕ)
    (hsen : ∀ j, sd.testBit (2 * j) = sd.testBit (2 * j + 1))
    (w : ℚ) (Hw : APIG_overlap npairs norbs (some sd) C false (0, 0) = .ok w)
    (i : ℕ)
    (occTail : List ℕ) (hOT : ∀ j ∈ occTail, sd.testBit j = true ∧ i < j ∧ j < 2 * norbs)
    (ks : List ℕ) (hks : ∀ l ∈ ks, sd.testBit l = false) :
    bruteJ two (fun d => APIG_overlap npairs norbs (some d) C false (0, 0)) sd i i ks occTail
      = .ok ((occTail.map (fun j => (two (i / 2) (j / 2) (i / 2) (j / 2)
          - if i % 2 = j % 2 then two (i / 2) (j / 2) (j / 2) (i / 2) else 0) * w)).sum) := by
  rw [bruteJ_sum two _ sd i i ks (fun j l => if l = j then w else 0) occTail ?_]
  · congr 1
    apply congrArg
    apply List.map_congr_left
    intro j hj
    rw [sum_map_zero (fun l hl => by
      rw [if_neg (show ¬(l = j) from fun hc => by
        rw [hc] at hl
        exact Bool.noConfusion ((hOT j hj).1.symm.trans (hks j hl)))]
      simp)]
    by_cases hp : i % 2 = j % 2
    · simp [hp]
      ring
    · simp [hp, Ne.symm hp]
  · intro j hj l hl
    obtain ⟨hjo, hij, hj2⟩ := hOT j hj
    rcases hl with rfl | hlks
    · simp only []
      rw [if_pos trivial, excite_orbs_self sd l hjo]
      exact Hw
    · have hlv := hks l hlks
      simp only []
      rw [if_neg (show ¬(l = j) from fun hc => by
        rw [hc] at hlv; rw [hjo] at hlv; cases hlv)]
      exact olp_single_excite_zero npairs norbs C sd hsen j l
        (fun hc => by rw [← hc] at hlv; rw [hjo] at hlv; cases hlv) hjo hlv hj2

/-- The `j`-loop when `k` is a virtual orbital: only the completed pair move
(`j` the spin partner of `i`, `l` the spin partner of `k`) survives. -/
theorem bruteJ_virtual (npairs norbs : ℕ) (C : QMat)
    (two : ℕ → ℕ → ℕ → ℕ → ℚ) (sd : ℕ)
    (hsen : ∀ j, sd.testBit (2 * j) = sd.testBit (2 * j + 1))
    (W : ℕ → ℕ → ℚ)
    (i : ℕ) (hi : sd.testBit i = true) (hi2 : i < 2 * norbs)
    (k : ℕ) (hik : i ≠ k) (hk : sd.testBit k = false) (hk2 : k < 2 * norbs)
    (HW : ∀ a, a < norbs → is_pair_occupied sd a = false →
      APIG_overlap npairs norbs (some (excite_pairs sd [i / 2, a])) C false (0, 0)
        = .ok (W (i / 2) a))
    (occTail : List ℕ) (hOT : ∀ j ∈ occTail, sd.testBit j = true ∧ i < j ∧ j < 2 * norbs)
    (hOTnd : occTail.Nodup) (hOTnx : i % 2 = 0 → i + 1 ∈ occTail)
    (ks : List ℕ) (hks : ∀ l ∈ ks, k < l ∧ (l = i ∨ sd.testBit l = false))
    (hksnd : ks.Nodup) (hk1 : k % 2 = 0 → k + 1 ∈ ks) :
    bruteJ two (fun d => APIG_overlap npairs norbs (some d) C false (0, 0))
        (excite_orbs sd i k) i k ks occTail
      = .ok (if i % 2 = 0 ∧ k % 2 = 0
          then two (i / 2) (i / 2) (k / 2) (k / 2) * W (i / 2) (k / 2) else 0) := by
  rw [bruteJ_sum two _ (excite_orbs sd i k) i k ks
    (fun j l => if i % 2 = 0 ∧ j = i + 1 ∧ k % 2 = 0 ∧ l = k + 1
      then W (i / 2) (k / 2) else 0) occTail ?_]
  · congr 1
    by_cases hik2 : i % 2 = 0 ∧ k % 2 = 0
    · -- the surviving term sits at j = i + 1, l = k + 1
      have hknd : k + 1 ∈ ks := hk1 hik2.2
      rw [sum_map_single hOTnd (hOTnx hik2.1) ?_, if_pos hik2]
      · -- value of the j = i + 1 row
        beta_reduce
        rw [show (if i % 2 = 0 ∧ i + 1 = i + 1 ∧ k % 2 = 0 ∧ i + 1 = k + 1
            then W (i / 2) (k / 2) else 0) = 0 from
          if_neg (fun hc => hik (by omega))]
        rw [sum_map_single hksnd hknd ?_]
        · beta_reduce
          rw [show (if i % 2 = 0 ∧ i + 1 = i + 1 ∧ k % 2 = 0 ∧ k + 1 = k + 1
              then W (i / 2) (k / 2) else 0) = W (i / 2) (k / 2) from
            if_pos ⟨hik2.1, rfl, hik2.2, rfl⟩]
          rw [if_pos (show i % 2 = k % 2 ∧ (i + 1) % 2 = (k + 1) % 2 by omega)]
          rw [if_neg (show ¬(i % 2 = (k + 1) % 2 ∧ (i + 1) % 2 = k % 2) by omega)]
          rw [show (i + 1) / 2 = i / 2 by omega, show (k + 1) / 2 = k / 2 by omega]
          simp
        · intro l hl hlk
          beta_reduce
          rw [show (if i % 2 = 0 ∧ i + 1 = i + 1 ∧ k % 2 = 0 ∧ l = k + 1
              then W (i / 2) (k / 2) else 0) = 0 from
            if_neg (fun hc => hlk hc.2.2.2)]
          simp
      · intro j hj hjne
        beta_reduce
        rw [show (if i % 2 = 0 ∧ j = i + 1 ∧ k % 2 = 0 ∧ j = k + 1
            then W (i / 2) (k / 2) else 0) = 0 from
          if_neg (fun hc => hjne hc.2.1)]
        rw [sum_map_zero (fun l hl => by
          beta_reduce
          rw [show (if i % 2 = 0 ∧ j = i + 1 ∧ k % 2 = 0 ∧ l = k + 1
              then W (i / 2) (k / 2) else 0) = 0 from
            if_neg (fun hc => hjne hc.2.1)]
          simp)]
        simp
    · rw [if_neg hik2, sum_map_zero ?_]
      intro j hj
      beta_reduce
      rw [show (if i % 2 = 0 ∧ j = i + 1 ∧ k % 2 = 0 ∧ j = k + 1
          then W (i / 2) (k / 2) else 0) = 0 from
        if_neg (fun hc => hik2 ⟨hc.1, hc.2.2.1⟩)]
      rw [sum_map_zero (fun l hl => by
        beta_reduce
        rw [show (if i % 2 = 0 ∧ j = i + 1 ∧ k % 2 = 0 ∧ l = k + 1
            then W (i / 2) (k / 2) else 0) = 0 from
          if_neg (fun hc => hik2 ⟨hc.1, hc.2.2.1⟩)]
        simp)]
      simp
  · -- the overlap value of every double excitation that appears
    intro j hj l hl
    obtain ⟨hjo, hij, hj2⟩ := hOT j hj
    have hji : j ≠ i := by omega
    have hjk : j ≠ k := fun hc => by rw [← hc] at hk; rw [hjo] at hk; cases hk
    rcases hl with rfl | hlks
    · -- l = j : back to the single excitation, which has a breach at i
      beta_reduce
      have hsj : (excite_orbs sd i k).testBit l = true := by
        rw [excite_orbs_testBit sd i k hik hi hk, if_neg hji, if_neg hjk]
        exact hjo
      rw [if_neg (show ¬(i % 2 = 0 ∧ l = i + 1 ∧ k % 2 = 0 ∧ l = k + 1)
        from fun hc => hik (by omega))]
      rw [excite_orbs_self (excite_orbs sd i k) l hsj]
      exact olp_single_excite_zero npairs norbs C sd hsen i k hik hi hk hi2
    · obtain ⟨hkl, hlcase⟩ := hks l hlks
      beta_reduce
      rcases hlcase with hli | hlv
      · -- l = i : both the vacated orbital and its partner move, breach at j
        have hli' : i = l := hli.symm
        subst hli'
        rw [if_neg (show ¬(i % 2 = 0 ∧ j = i + 1 ∧ k % 2 = 0 ∧ i = k + 1)
          from fun hc => by omega)]
        exact olp_double_excite_zero npairs norbs C sd hsen i k j i hik hi hk hjo hji hjk
          (Or.inl rfl) (Ne.symm hji) hij hj2 hk2
          (fun hc => by omega)
      · by_cases hsp : i % 2 = 0 ∧ j = i + 1 ∧ k % 2 = 0 ∧ l = k + 1
        · rw [if_pos hsp]
          obtain ⟨hie, hjp, hke, hlp⟩ := hsp
          have hrw := excite2_eq_excite_pairs sd (i / 2) (k / 2)
            (by rw [show 2 * (i / 2) = i by omega]; exact hi)
            (by rw [show 2 * (i / 2) + 1 = j by omega]; exact hjo)
            (by rw [show 2 * (k / 2) = k by omega]; exact hk)
            (by rw [show 2 * (k / 2) + 1 = l by omega]; exact hlv)
          rw [show 2 * (i / 2) + 1 = j by omega, show 2 * (k / 2) + 1 = l by omega,
            show 2 * (i / 2) = i by omega, show 2 * (k / 2) = k by omega] at hrw
          rw [hrw]
          apply HW
          · omega
          · unfold is_pair_occupied
            rw [show 2 * (k / 2) = k by omega, hk]
            rfl
        · rw [if_neg hsp]
          exact olp_double_excite_zero npairs norbs C sd hsen i k j l hik hi hk hjo hji hjk
            (Or.inr ⟨hlv, by omega, hkl⟩)
            (fun hc => by rw [hc] at hlv; rw [hjo] at hlv; cases hlv)
            hij hj2 hk2 hsp

/-- The `k`-loop of `brute_phi_H_psi` over a sorted list `T` that contains
`i` and otherwise only virtual spin orbitals closed under taking the beta
partner of an alpha orbital: the `k = i` entry contributes the one-electron
and Coulomb/exchange terms, every even virtual `k` with even `i` contributes
the pair-transfer term. -/
theorem bruteK_sum (npairs norbs : ℕ) (C : QMat)
    (one : ℕ → ℕ → ℚ) (two : ℕ → ℕ → ℕ → ℕ → ℚ) (sd : ℕ)
    (hsen : ∀ j, sd.testBit (2 * j) = sd.testBit (2 * j + 1))
    (w : ℚ) (Hw : APIG_overlap npairs norbs (some sd) C false (0, 0) = .ok w)
    (W : ℕ → ℕ → ℚ)
    (i : ℕ) (hi : sd.testBit i = true) (hi2 : i < 2 * norbs)
    (HW : ∀ a, a < norbs → is_pair_occupied sd a = false →
      APIG_overlap npairs norbs (some (excite_pairs sd [i / 2, a])) C false (0, 0)
        = .ok (W (i / 2) a))
    (occTail : List ℕ) (hOT : ∀ j ∈ occTail, sd.testBit j = true ∧ i < j ∧ j < 2 * norbs)
    (hOTnd : occTail.Nodup) (hOTnx : i % 2 = 0 → i + 1 ∈ occTail) :
    ∀ T : List ℕ, T.Pairwise (· < ·) →
      (∀ x ∈ T, x = i ∨ (sd.testBit x = false ∧ x < 2 * norbs)) →
      (∀ x ∈ T, x ≠ i → x % 2 = 0 → x + 1 ∈ T) →
      bruteK one two (fun d => APIG_overlap npairs norbs (some d) C false (0, 0))
          sd i occTail T
        = .ok ((T.map (fun k =>
            (if k = i then one (i / 2) (i / 2) * w
                + (occTail.map (fun j => (two (i / 2) (j / 2) (i / 2) (j / 2)
                    - if i % 2 = j % 2 then two (i / 2) (j / 2) (j / 2) (i / 2) else 0)
                  * w)).sum
              else 0)
            + (if k ≠ i ∧ i % 2 = 0 ∧ k % 2 = 0
                then two (i / 2) (i / 2) (k / 2) (k / 2) * W (i / 2) (k / 2)
              else 0))).sum) := by
  intro T
  induction T with
  | nil => intro _ _ _; rfl
  | cons k ks ih =>
    intro hT hTc hTcl
    have hTpw := (List.pairwise_cons.1 hT).1
    have hTtail := (List.pairwise_cons.1 hT).2
    have ihv := ih hTtail (fun x hx => hTc x (by simp [hx]))
      (fun x hx hxi hxe => by
        have := hTcl x (by simp [hx]) hxi hxe
        rcases List.mem_cons.1 this with hc | hc
        · exfalso
          have := hTpw x hx
          omega
        · exact hc)
    simp only [bruteK, List.map_cons, List.sum_cons]
    by_cases hki : k = i
    · subst hki
      rw [if_pos rfl, excite_orbs_self sd k hi, Hw]
      have hks : ∀ l ∈ ks, sd.testBit l = false := fun l hl => by
        rcases hTc l (by simp [hl]) with hc | hc
        · exfalso
          have := hTpw l hl
          omega
        · exact hc.1
      rw [bruteJ_identity npairs norbs C two sd hsen w Hw k occTail hOT ks hks, ihv]
      simp only [Except.map]
      rw [if_pos trivial,
        if_neg (show ¬(k ≠ k ∧ k % 2 = 0 ∧ k % 2 = 0) from fun hc => hc.1 rfl)]
      congr 1
      ring
    · have hkv := hTc k (by simp)
      rcases hkv with hc | hkv
      · exact absurd hc hki
      have hik : i ≠ k := fun hc => hki hc.symm
      have hksfacts : ∀ l ∈ ks, k < l ∧ (l = i ∨ sd.testBit l = false) := fun l hl =>
        ⟨hTpw l hl, by
          rcases hTc l (by simp [hl]) with hc | hc
          · exact Or.inl hc
          · exact Or.inr hc.1⟩
      have hksnd : ks.Nodup := by
        have : (k :: ks).Nodup := hT.nodup
        exact (List.nodup_cons.1 this).2
      have hk1 : k % 2 = 0 → k + 1 ∈ ks := fun hke => by
        have := hTcl k (by simp) hki hke
        rcases List.mem_cons.1 this with hc | hc
        · omega
        · exact hc
      rw [bruteJ_virtual npairs norbs C two sd hsen W i hi hi2 k hik hkv.1 hkv.2 HW
        occTail hOT hOTnd hOTnx ks hksfacts hksnd hk1, ihv]
      by_cases hpar : i % 2 = k % 2
      · rw [if_pos hpar, olp_single_excite_zero npairs norbs C sd hsen i k hik hi hkv.1 hi2]
        simp only [Except.map]
        rw [if_neg hki]
        by_cases hik2 : i % 2 = 0 ∧ k % 2 = 0
        · rw [if_pos hik2, if_pos ⟨fun hc => hki hc, hik2.1, hik2.2⟩]
          congr 1
          ring
        · rw [if_neg hik2, if_neg (fun hc => hik2 ⟨hc.2.1, hc.2.2⟩)]
          congr 1
          ring
      · rw [if_neg hpar, if_neg hki]
        have hne : ¬(i % 2 = 0 ∧ k % 2 = 0) := fun hc => hpar (by omega)
        rw [if_neg hne, if_neg (fun hc => hne ⟨hc.2.1, hc.2.2⟩)]

/-- Summing the per-`k` contribution of `bruteK` over the flattened virtual
pairs: the odd members and the `k = i` branch vanish, and with even `i`
each virtual pair `a` leaves the pair-transfer term. -/
theorem virK_sum (two : ℕ → ℕ → ℕ → ℕ → ℚ) (W : ℕ → ℕ → ℚ) (i : ℕ) (B : ℚ) :
    ∀ A : List ℕ, (∀ a ∈ A, 2 * a ≠ i ∧ 2 * a + 1 ≠ i) →
    ((A.flatMap (fun a => [2 * a, 2 * a + 1])).map (fun k =>
        (if k = i then B else 0)
        + (if k ≠ i ∧ i % 2 = 0 ∧ k % 2 = 0
            then two (i / 2) (i / 2) (k / 2) (k / 2) * W (i / 2) (k / 2) else 0))).sum
      = if i % 2 = 0
          then (A.map (fun a => two (i / 2) (i / 2) a a * W (i / 2) a)).sum else 0 := by
  intro A
  induction A with
  | nil =>
    intro _
    by_cases hi : i % 2 = 0 <;> simp [hi]
  | cons a as ih =>
    intro h
    have ha := h a (by simp)
    simp only [List.flatMap_cons, List.map_append, List.sum_append, List.map_cons,
      List.sum_cons, List.map_nil, List.sum_nil]
    rw [ih (fun x hx => h x (by simp [hx]))]
    rw [if_neg ha.1, if_neg ha.2]
    rw [if_neg (show ¬(2 * a + 1 ≠ i ∧ i % 2 = 0 ∧ (2 * a + 1) % 2 = 0)
      from fun hc => by omega)]
    by_cases hie : i % 2 = 0
    · rw [if_pos ⟨ha.1, hie, by omega⟩, if_pos hie, if_pos hie]
      rw [show 2 * a / 2 = a by omega]
      simp
    · rw [if_neg (fun hc => hie hc.2.1), if_neg hie, if_neg hie]
      simp

/-- Full evaluation of one step of the outer `i`-loop: `bruteK` on the
sorted `temp1` list (the flattened virtual pairs plus `i` itself). -/
theorem bruteK_eval (npairs norbs : ℕ) (C : QMat)
    (one : ℕ → ℕ → ℚ) (two : ℕ → ℕ → ℕ → ℕ → ℚ) (sd : ℕ)
    (hsen : ∀ j, sd.testBit (2 * j) = sd.testBit (2 * j + 1))
    (w : ℚ) (Hw : APIG_overlap npairs norbs (some sd) C false (0, 0) = .ok w)
    (W : ℕ → ℕ → ℚ)
    (i : ℕ) (hi : sd.testBit i = true) (hi2 : i < 2 * norbs)
    (HW : ∀ a, a < norbs → is_pair_occupied sd a = false →
      APIG_overlap npairs norbs (some (excite_pairs sd [i / 2, a])) C false (0, 0)
        = .ok (W (i / 2) a))
    (occTail : List ℕ) (hOT : ∀ j ∈ occTail, sd.testBit j = true ∧ i < j ∧ j < 2 * norbs)
    (hOTnd : occTail.Nodup) (hOTnx : i % 2 = 0 → i + 1 ∈ occTail)
    (A : List ℕ) (hA : A.Pairwise (· < ·))
    (hAc : ∀ a ∈ A, is_pair_occupied sd a = false ∧ a < norbs) :
    bruteK one two (fun d => APIG_overlap npairs norbs (some d) C false (0, 0)) sd i occTail
        (List.insertionSort (· ≤ ·) ((A.flatMap (fun a => [2 * a, 2 * a + 1])) ++ [i]))
      = .ok (one (i / 2) (i / 2) * w
          + (occTail.map (fun j => (two (i / 2) (j / 2) (i / 2) (j / 2)
              - if i % 2 = j % 2 then two (i / 2) (j / 2) (j / 2) (i / 2) else 0) * w)).sum
          + (if i % 2 = 0
              then (A.map (fun a => two (i / 2) (i / 2) a a * W (i / 2) a)).sum else 0)) := by
  have hAv : ∀ a ∈ A, sd.testBit (2 * a) = false ∧ sd.testBit (2 * a + 1) = false := by
    intro a ha
    have hp := (hAc a ha).1
    unfold is_pair_occupied at hp
    rw [← hsen a, Bool.and_self] at hp
    exact ⟨hp, (hsen a) ▸ hp⟩
  have hAi : ∀ a ∈ A, 2 * a ≠ i ∧ 2 * a + 1 ≠ i := by
    intro a ha
    constructor
    · intro hc
      rw [← hc] at hi
      exact Bool.noConfusion ((hAv a ha).1.symm.trans hi)
    · intro hc
      rw [← hc] at hi
      exact Bool.noConfusion ((hAv a ha).2.symm.trans hi)
  have hvirnd : (A.flatMap (fun a => [2 * a, 2 * a + 1])).Nodup :=
    (pairwise_flat_pairs hA).imp (fun h => Nat.ne_of_lt h)
  have hLnd : ((A.flatMap (fun a => [2 * a, 2 * a + 1])) ++ [i]).Nodup := by
    rw [List.nodup_append]
    refine ⟨hvirnd, List.nodup_singleton i, ?_⟩
    intro x hx
    rw [List.mem_flatMap] at hx
    obtain ⟨a, ha, hxa⟩ := hx
    simp only [List.mem_singleton]
    rcases List.mem_cons.1 hxa with rfl | hxa'
    · exact (hAi a ha).1
    · rcases List.mem_cons.1 hxa' with rfl | hxa''
      · exact (hAi a ha).2
      · cases hxa''
  have hperm : (List.insertionSort (· ≤ ·) ((A.flatMap (fun a => [2 * a, 2 * a + 1])) ++ [i])).Perm
      ((A.flatMap (fun a => [2 * a, 2 * a + 1])) ++ [i]) :=
    List.perm_insertionSort _ _
  have hTnd : (List.insertionSort (· ≤ ·)
      ((A.flatMap (fun a => [2 * a, 2 * a + 1])) ++ [i])).Nodup :=
    hperm.nodup_iff.2 hLnd
  have hTpw : (List.insertionSort (· ≤ ·)
      ((A.flatMap (fun a => [2 * a, 2 * a + 1])) ++ [i])).Pairwise (· < ·) :=
    pairwise_lt_of_sorted_nodup (List.sorted_insertionSort _ _) hTnd
  have hmem : ∀ x, x ∈ List.insertionSort (· ≤ ·)
      ((A.flatMap (fun a => [2 * a, 2 * a + 1])) ++ [i]) ↔
      x ∈ (A.flatMap (fun a => [2 * a, 2 * a + 1])) ++ [i] :=
    fun x => hperm.mem_iff
  have hvircase : ∀ x ∈ A.flatMap (fun a => [2 * a, 2 * a + 1]),
      ∃ a ∈ A, x = 2 * a ∨ x = 2 * a + 1 := by
    intro x hx
    rw [List.mem_flatMap] at hx
    obtain ⟨a, ha, hxa⟩ := hx
    refine ⟨a, ha, ?_⟩
    rcases List.mem_cons.1 hxa with rfl | hxa'
    · exact Or.inl rfl
    · rcases List.mem_cons.1 hxa' with rfl | hxa''
      · exact Or.inr rfl
      · cases hxa''
  rw [bruteK_sum npairs norbs C one two sd hsen w Hw W i hi hi2 HW occTail hOT hOTnd hOTnx
    _ hTpw ?_ ?_]
  · congr 1
    rw [(hperm.map _).sum_eq, List.map_append, List.sum_append]
    rw [virK_sum two W i _ A hAi]
    simp only [List.map_cons, List.sum_cons, List.map_nil, List.sum_nil]
    rw [if_pos trivial, if_neg (show ¬(i ≠ i ∧ i % 2 = 0 ∧ i % 2 = 0) from fun hc => hc.1 rfl)]
    ring
  · intro x hx
    rcases List.mem_append.1 ((hmem x).1 hx) with hxv | hxi
    · obtain ⟨a, ha, hxa⟩ := hvircase x hxv
      right
      rcases hxa with rfl | rfl
      · exact ⟨(hAv a ha).1, by have := (hAc a ha).2; omega⟩
      · exact ⟨(hAv a ha).2, by have := (hAc a ha).2; omega⟩
    · exact Or.inl (List.mem_singleton.1 hxi)
  · intro x hx hxi hxe
    rcases List.mem_append.1 ((hmem x).1 hx) with hxv | hxi'
    · obtain ⟨a, ha, hxa⟩ := hvircase x hxv
      rcases hxa with rfl | rfl
      · rw [hmem]
        refine List.mem_append.2 (Or.inl ?_)
        rw [List.mem_flatMap]
        exact ⟨a, ha, by simp⟩
      · omega
    · exact absurd (List.mem_singleton.1 hxi') hxi

/-- Summing the Coulomb/exchange row over the flattened occupied pairs:
for either parity of `i`, each pair `q` contributes the exchange term once. -/
theorem occJ_sum (two : ℕ → ℕ → ℕ → ℕ → ℚ) (w : ℚ) (i : ℕ) :
    ∀ ps : List ℕ,
    ((ps.flatMap (fun q => [2 * q, 2 * q + 1])).map (fun j =>
        (two (i / 2) (j / 2) (i / 2) (j / 2)
          - if i % 2 = j % 2 then two (i / 2) (j / 2) (j / 2) (i / 2) else 0) * w)).sum
      = (ps.map (fun q =>
          2 * two (i / 2) q (i / 2) q * w - two (i / 2) q q (i / 2) * w)).sum := by
  intro ps
  induction ps with
  | nil => rfl
  | cons q qs ih =>
    simp only [List.flatMap_cons, List.map_append, List.sum_append, List.map_cons,
      List.sum_cons, List.map_nil, List.sum_nil]
    rw [ih]
    rw [show 2 * q / 2 = q by omega, show (2 * q + 1) / 2 = q by omega]
    by_cases hie : i % 2 = 0
    · rw [if_pos (show i % 2 = 2 * q % 2 by omega),
        if_neg (show ¬(i % 2 = (2 * q + 1) % 2) by omega)]
      ring
    · rw [if_neg (show ¬(i % 2 = 2 * q % 2) by omega),
        if_pos (show i % 2 = (2 * q + 1) % 2 by omega)]
      ring

/-- Pointwise sums of mapped lists split. -/
theorem sum_map_add (f g : ℕ → ℚ) : ∀ L : List ℕ,
    (L.map (fun x => f x + g x)).sum = (L.map f).sum + (L.map g).sum := by
  intro L
  induction L with
  | nil => simp
  | cons x xs ih =>
    simp only [List.map_cons, List.sum_cons]
    rw [ih]
    ring

/-- The outer `i`-loop over the flattened occupied pairs accumulates exactly
the seniority-zero Hamiltonian sum. -/
theorem bruteI_hamSum (npairs norbs : ℕ) (C : QMat)
    (one : ℕ → ℕ → ℚ) (two : ℕ → ℕ → ℕ → ℕ → ℚ) (sd : ℕ)
    (hsen : ∀ j, sd.testBit (2 * j) = sd.testBit (2 * j + 1))
    (w : ℚ) (Hw : APIG_overlap npairs norbs (some sd) C false (0, 0) = .ok w)
    (W : ℕ → ℕ → ℚ)
    (HW : ∀ p a, is_pair_occupied sd p = true → a < norbs →
      is_pair_occupied sd a = false →
      APIG_overlap npairs norbs (some (excite_pairs sd [p, a])) C false (0, 0)
        = .ok (W p a))
    (A : List ℕ) (hA : A.Pairwise (· < ·))
    (hAc : ∀ a ∈ A, is_pair_occupied sd a = false ∧ a < norbs) :
    ∀ P : List ℕ, P.Pairwise (· < ·) →
      (∀ p ∈ P, is_pair_occupied sd p = true ∧ p < norbs) →
      bruteI one two (fun d => APIG_overlap npairs norbs (some d) C false (0, 0)) sd
          (A.flatMap (fun a => [2 * a, 2 * a + 1]))
          (P.flatMap (fun p => [2 * p, 2 * p + 1]))
        = .ok (hamSum one two w W A P) := by
  intro P
  induction P with
  | nil => intro _ _; rfl
  | cons p ps ih =>
    intro hP hPc
    have hPpw := (List.pairwise_cons.1 hP).1
    have hPtail := (List.pairwise_cons.1 hP).2
    have hpocc := (hPc p (by simp)).1
    have hpno := (hPc p (by simp)).2
    have hpb : sd.testBit (2 * p) = true ∧ sd.testBit (2 * p + 1) = true := by
      unfold is_pair_occupied at hpocc
      rw [Bool.and_eq_true] at hpocc
      exact hpocc
    have hp2 : sd.testBit (2 * p) = true := hpb.1
    have hp21 : sd.testBit (2 * p + 1) = true := hpb.2
    have hRest : ∀ j ∈ ps.flatMap (fun q => [2 * q, 2 * q + 1]),
        sd.testBit j = true ∧ 2 * p + 1 < j ∧ j < 2 * norbs := by
      intro j hj
      rw [List.mem_flatMap] at hj
      obtain ⟨q, hq, hjq⟩ := hj
      have hqocc := (hPc q (by simp [hq])).1
      have hqno := (hPc q (by simp [hq])).2
      have hqp := hPpw q hq
      unfold is_pair_occupied at hqocc
      rw [Bool.and_eq_true] at hqocc
      have hqb := hqocc
      rcases List.mem_cons.1 hjq with rfl | hjq'
      · exact ⟨hqb.1, by omega, by omega⟩
      · rcases List.mem_cons.1 hjq' with rfl | hjq''
        · exact ⟨hqb.2, by omega, by omega⟩
        · cases hjq''
    have hRestPw : ((2 * p + 1) :: ps.flatMap (fun q => [2 * q, 2 * q + 1])).Pairwise
        (· < ·) :=
      List.pairwise_cons.2 ⟨fun j hj => (hRest j hj).2.1, pairwise_flat_pairs hPtail⟩
    have hRestNd : ((2 * p + 1) :: ps.flatMap (fun q => [2 * q, 2 * q + 1])).Nodup :=
      hRestPw.imp (fun h => Nat.ne_of_lt h)
    have hRestNd' : (ps.flatMap (fun q => [2 * q, 2 * q + 1])).Nodup :=
      (List.nodup_cons.1 hRestNd).2
    have hOT1 : ∀ j ∈ (2 * p + 1) :: ps.flatMap (fun q => [2 * q, 2 * q + 1]),
        sd.testBit j = true ∧ 2 * p < j ∧ j < 2 * norbs := by
      intro j hj
      rcases List.mem_cons.1 hj with rfl | hj'
      · exact ⟨hp21, by omega, by omega⟩
      · have := hRest j hj'
        exact ⟨this.1, by omega, this.2.2⟩
    have hOT2 : ∀ j ∈ ps.flatMap (fun q => [2 * q, 2 * q + 1]),
        sd.testBit j = true ∧ 2 * p + 1 < j ∧ j < 2 * norbs := hRest
    have hHW1 : ∀ a, a < norbs → is_pair_occupied sd a = false →
        APIG_overlap npairs norbs (some (excite_pairs sd [2 * p / 2, a])) C false (0, 0)
          = .ok (W (2 * p / 2) a) := by
      intro a ha hpa
      rw [show 2 * p / 2 = p by omega]
      exact HW p a hpocc ha hpa
    have hHW2 : ∀ a, a < norbs → is_pair_occupied sd a = false →
        APIG_overlap npairs norbs (some (excite_pairs sd [(2 * p + 1) / 2, a])) C false
            (0, 0)
          = .ok (W ((2 * p + 1) / 2) a) := by
      intro a ha hpa
      rw [show (2 * p + 1) / 2 = p by omega]
      exact HW p a hpocc ha hpa
    simp only [List.flatMap_cons, List.cons_append, List.nil_append]
    simp only [bruteI]
    rw [bruteK_eval npairs norbs C one two sd hsen w Hw W (2 * p) hp2 (by omega) hHW1
      ((2 * p + 1) :: ps.flatMap (fun q => [2 * q, 2 * q + 1])) hOT1 hRestNd
      (fun _ => by simp) A hA hAc]
    rw [bruteK_eval npairs norbs C one two sd hsen w Hw W (2 * p + 1) hp21 (by omega) hHW2
      (ps.flatMap (fun q => [2 * q, 2 * q + 1])) hOT2 hRestNd'
      (fun hc => absurd hc (by omega)) A hA hAc]
    rw [ih hPtail (fun x hx => hPc x (by simp [hx]))]
    simp only [List.map_cons, List.sum_cons]
    rw [occJ_sum two w (2 * p) ps, occJ_sum two w (2 * p + 1) ps]
    rw [if_pos (show 2 * p % 2 = 0 by omega),
      if_neg (show ¬((2 * p + 1) % 2 = 0) by omega)]
    rw [show 2 * p / 2 = p by omega, show (2 * p + 1) / 2 = p by omega]
    rw [if_neg (show ¬(2 * p % 2 = (2 * p + 1) % 2) by omega)]
    simp only [hamSum]
    have hdouble : (ps.map (fun q => 4 * two p q p q * w - 2 * two p q q p * w)).sum
        = (ps.map (fun q => 2 * two p q p q * w - two p q q p * w)).sum
          + (ps.map (fun q => 2 * two p q p q * w - two p q q p * w)).sum := by
      rw [← sum_map_add (fun q => 2 * two p q p q * w - two p q q p * w)
        (fun q => 2 * two p q p q * w - two p q q p * w) ps]
      congr 1
      apply List.map_congr_left
      intro q _
      ring
    rw [hdouble]
    congr 1
    ring

/-- `brute_phi_H_psi` on a seniority-zero determinant evaluates to the same
Hamiltonian sum as the fast path. -/
theorem brute_hamSum (npairs norbs : ℕ) (C : QMat)
    (one : ℕ → ℕ → ℚ) (two : ℕ → ℕ → ℕ → ℕ → ℚ) (sd : ℕ)
    (hsen : ∀ j, sd.testBit (2 * j) = sd.testBit (2 * j + 1))
    (w : ℚ) (Hw : APIG_overlap npairs norbs (some sd) C false (0, 0) = .ok w)
    (W : ℕ → ℕ → ℚ)
    (HW : ∀ p a, is_pair_occupied sd p = true → a < norbs →
      is_pair_occupied sd a = false →
      APIG_overlap npairs norbs (some (excite_pairs sd [p, a])) C false (0, 0)
        = .ok (W p a)) :
    APIG_brute_phi_H_psi norbs one two
        (fun d => APIG_overlap npairs norbs (some d) C false (0, 0)) sd
      = .ok (hamSum one two w W
          ((List.range norbs).filter (fun a => !is_pair_occupied sd a))
          ((List.range norbs).filter (fun p => is_pair_occupied sd p))) := by
  unfold APIG_brute_phi_H_psi
  rw [vir_flat_pairs sd hsen norbs, occ_flat_pairs sd hsen norbs]
  refine bruteI_hamSum npairs norbs C one two sd hsen w Hw W HW _ ?_ ?_ _ ?_ ?_
  · exact List.Pairwise.filter _ (List.pairwise_lt_range norbs)
  · intro a ha
    rw [List.mem_filter, List.mem_range] at ha
    exact ⟨by simpa using ha.2, ha.1⟩
  · exact List.Pairwise.filter _ (List.pairwise_lt_range norbs)
  · intro p hp
    rw [List.mem_filter, List.mem_range] at hp
    exact ⟨hp.2, hp.1⟩

/-- A pair excitation of a seniority-zero determinant confined to the first
`norbs` spatial orbitals stays confined and seniority-zero. -/
theorem excite_pairs_invariants (norbs sd p a : ℕ)
    (hsen : ∀ j, sd.testBit (2 * j) = sd.testBit (2 * j + 1))
    (hhigh : ∀ t, 2 * norbs ≤ t → sd.testBit t = false)
    (hp : is_pair_occupied sd p = true) (ha : is_pair_occupied sd a = false)
    (han : a < norbs) :
    excite_pairs sd [p, a] < 2 ^ (2 * norbs)
      ∧ ∀ j, j < norbs → (excite_pairs sd [p, a]).testBit (2 * j)
          = (excite_pairs sd [p, a]).testBit (2 * j + 1) := by
  have hpb : sd.testBit (2 * p) = true ∧ sd.testBit (2 * p + 1) = true := by
    unfold is_pair_occupied at hp
    rw [Bool.and_eq_true] at hp
    exact hp
  have hab : sd.testBit (2 * a) = false ∧ sd.testBit (2 * a + 1) = false := by
    unfold is_pair_occupied at ha
    rw [← hsen a, Bool.and_self] at ha
    exact ⟨ha, (hsen a) ▸ ha⟩
  have hpa : p ≠ a := by
    intro hc
    rw [hc] at hpb
    exact Bool.noConfusion (hab.1.symm.trans hpb.1)
  have hpn : p < norbs := by
    by_contra hc
    exact Bool.noConfusion ((hhigh (2 * p) (by omega)).symm.trans hpb.1)
  have hE : excite_pairs sd [p, a]
      = excite_orbs (excite_orbs sd (2 * p) (2 * a)) (2 * p + 1) (2 * a + 1) :=
    (excite2_eq_excite_pairs sd p a hpb.1 hpb.2 hab.1 hab.2).symm
  have hbit : ∀ t, (excite_pairs sd [p, a]).testBit t
      = (if t = 2 * p + 1 then false else if t = 2 * a + 1 then true
          else if t = 2 * p then false else if t = 2 * a then true
          else sd.testBit t) := by
    intro t
    rw [hE]
    exact excite2_testBit sd (2 * p) (2 * a) (2 * p + 1) (2 * a + 1)
      (by omega) hpb.1 hab.1 hpb.2 (by omega) (by omega)
      (Or.inr ⟨hab.2, by omega⟩) (by omega) t
  constructor
  · apply Nat.lt_pow_two_of_testBit
    intro t ht
    rw [hbit t, if_neg (show ¬(t = 2 * p + 1) by omega),
      if_neg (show ¬(t = 2 * a + 1) by omega),
      if_neg (show ¬(t = 2 * p) by omega),
      if_neg (show ¬(t = 2 * a) by omega)]
    exact hhigh t ht
  · intro j hj
    rw [hbit (2 * j), hbit (2 * j + 1)]
    by_cases hjp : j = p
    · subst hjp
      rw [if_neg (by omega), if_neg (show ¬(2 * j = 2 * a + 1) by omega),
        if_pos rfl, if_pos rfl]
    · by_cases hja : j = a
      · subst hja
        rw [if_neg (show ¬(2 * j = 2 * p + 1) by omega),
          if_neg (show ¬(2 * j = 2 * j + 1) by omega),
          if_neg (show ¬(2 * j = 2 * p) by omega), if_pos rfl,
          if_neg (show ¬(2 * j + 1 = 2 * p + 1) by omega), if_pos rfl]
      · rw [if_neg (show ¬(2 * j = 2 * p + 1) by omega),
          if_neg (show ¬(2 * j = 2 * a + 1) by omega),
          if_neg (show ¬(2 * j = 2 * p) by omega),
          if_neg (show ¬(2 * j = 2 * a) by omega),
          if_neg (show ¬(2 * j + 1 = 2 * p + 1) by omega),
          if_neg (show ¬(2 * j + 1 = 2 * a + 1) by omega),
          if_neg (show ¬(2 * j + 1 = 2 * p) by omega),
          if_neg (show ¬(2 * j + 1 = 2 * a) by omega)]
        exact hsen j

/-- C5 (amended): on every determinant whose occupied spin orbitals lie below
`2*norbs` (equivalently `sd < 4^norbs`) and which satisfies the closed-shell
pairing invariant on the first `norbs` spatial orbitals, the fast path
`double_phi_H_psi` and the general path `brute_phi_H_psi` return exactly the
same value, with no symmetry assumption on the one- and two-electron
integrals. -/
theorem c5_amended (npairs norbs : ℕ) (C : QMat)
    (one : ℕ → ℕ → ℚ) (two : ℕ → ℕ → ℕ → ℕ → ℚ) (sd : ℕ)
    (hsd : sd < 4 ^ norbs)
    (hpair : ∀ j, j < norbs → sd.testBit (2 * j) = sd.testBit (2 * j + 1)) :
    APIG_double_phi_H_psi norbs one two
        (fun d => APIG_overlap npairs norbs (some d) C false (0, 0)) sd
      = APIG_brute_phi_H_psi norbs one two
        (fun d => APIG_overlap npairs norbs (some d) C false (0, 0)) sd := by
  have hsd2 : sd < 2 ^ (2 * norbs) := by
    have h4 : (4:ℕ) ^ norbs = 2 ^ (2 * norbs) := by
      rw [show (4:ℕ) = 2 ^ 2 from rfl, ← pow_mul, Nat.mul_comm]
    rw [← h4]
    exact hsd
  have hhigh : ∀ t, 2 * norbs ≤ t → sd.testBit t = false := by
    intro t ht
    exact Nat.testBit_eq_false_of_lt
      (lt_of_lt_of_le hsd2 (Nat.pow_le_pow_right (by omega) ht))
  have hsen : ∀ j, sd.testBit (2 * j) = sd.testBit (2 * j + 1) := by
    intro j
    by_cases hj : j < norbs
    · exact hpair j hj
    · rw [hhigh (2 * j) (by omega), hhigh (2 * j + 1) (by omega)]
  obtain ⟨w, Hw⟩ := olp_ok_any npairs norbs C sd hsd2 hpair
  have HW : ∀ p a, is_pair_occupied sd p = true → a < norbs →
      is_pair_occupied sd a = false →
      APIG_overlap npairs norbs (some (excite_pairs sd [p, a])) C false (0, 0)
        = .ok ((APIG_overlap npairs norbs (some (excite_pairs sd [p, a])) C false
            (0, 0)).toOption.getD 0) := by
    intro p a hp han ha
    obtain ⟨hb, hpairing⟩ := excite_pairs_invariants norbs sd p a hsen hhigh hp ha han
    obtain ⟨v, hv⟩ := olp_ok_any npairs norbs C _ hb hpairing
    rw [hv]
    rfl
  rw [double_hamSum norbs one two _ sd w
    (fun p a => (APIG_overlap npairs norbs (some (excite_pairs sd [p, a])) C false
      (0, 0)).toOption.getD 0) Hw
    (fun p a hp ha hmem => HW p a hp (List.mem_range.1 hmem) ha)]
  rw [brute_hamSum npairs norbs C one two sd hsen w Hw
    (fun p a => (APIG_overlap npairs norbs (some (excite_pairs sd [p, a])) C false
      (0, 0)).toOption.getD 0)
    (fun p a hp han ha => HW p a hp han ha)]

/-- Instance check for the amended C5 statement at a concrete input: the
seniority-zero two-electron determinant `0b11` with one pair and two spatial
orbitals, all integrals 1. -/
theorem c5_amended_witness :
    (3:ℕ) < 4 ^ 2
    ∧ (∀ j, j < 2 → (3:ℕ).testBit (2 * j) = (3:ℕ).testBit (2 * j + 1))
    ∧ APIG_double_phi_H_psi 2 (fun _ _ => 1) (fun _ _ _ _ => 1)
        (fun d => APIG_overlap 1 2 (some d) (fun _ _ => 1) false (0, 0)) 3
      = APIG_brute_phi_H_psi 2 (fun _ _ => 1) (fun _ _ _ _ => 1)
        (fun d => APIG_overlap 1 2 (some d) (fun _ _ => 1) false (0, 0)) 3 :=
  ⟨by decide, fun j hj => by interval_cases j <;> rfl,
    c5_amended 1 2 (fun _ _ => 1) (fun _ _ => 1) (fun _ _ _ _ => 1) 3 (by decide)
      (fun j hj => by interval_cases j <;> rfl)⟩

end Fanpy
